import Mathlib

/-
Verification of the routing engine of the ski navigator application
(src/app/js/graph.js) through a shallow embedding in Lean 4.

The embedding models JavaScript numbers that can occur in this code as
rationals extended with positive Infinity (type JNum); reads of missing
object properties (undefined) are modelled with Option.  All definitions
follow the JavaScript source line by line; modelling notes are given in
the doc comments.
-/

set_option allowUnsafeReducibility true
attribute [local semireducible] Rat.add Rat.mul Rat.inv Rat.div Rat.sub Rat.neg

set_option maxRecDepth 8000

namespace SkiNav

/-- A JavaScript number as it occurs in the routing engine: a finite rational
or positive Infinity.  NaN is never stored by the code; where NaN or undefined
can flow into a comparison we model the value as a missing Option, which makes
every comparison false, exactly as NaN and undefined do in JavaScript. -/
inductive JNum where
  | inf : JNum
  | fin : ℚ → JNum
deriving DecidableEq

/-- Addition of JavaScript numbers: Infinity absorbs. -/
def jnAdd : JNum → JNum → JNum
  | .fin a, .fin b => .fin (a + b)
  | _, _ => .inf

/-- JavaScript Math.round on a finite number: round half toward positive
infinity, which is floor of x + 1/2. -/
def jsRound (q : ℚ) : ℤ := (q + 1/2).floor

/-- JavaScript Math.round extended to Infinity (Math.round(Infinity) is
Infinity). -/
def jnRound : JNum → JNum
  | .inf => .inf
  | .fin q => .fin ((jsRound q : ℤ) : ℚ)

/-- JavaScript Math.abs on a finite number. -/
def jsAbs (q : ℚ) : ℚ := if q < 0 then -q else q

/-- A node of the graph data: elevation and an optional station name. -/
structure Node where
  ele : ℚ
  station : Option String
deriving DecidableEq

/-- An edge of the graph data.  Fields that the JavaScript data may omit are
Options.  Only the length of the geometry list is ever read, together with
the fact that it is present; we keep the samples as pairs of rationals. -/
structure Edge where
  id : String
  source : String
  target : String
  type : String
  difficulty : Option String
  liftType : Option String
  distance : ℚ
  elevationDelta : ℚ
  name : Option String
  geometry : Option (List (ℚ × ℚ))
deriving DecidableEq

/-- The raw graph data handed to the SkiGraph constructor.  A JavaScript
object is a finite map with insertion order; we model the nodes object as an
association list.  Distinctness of its keys, which the JavaScript object
guarantees, is taken as a hypothesis where a proof needs it. -/
structure GraphData where
  nodes : List (String × Node)
  edges : List Edge
deriving DecidableEq

/-- Key membership test for the nodes object (the JavaScript `in` / truthiness
check on property access). -/
def containsKey (d : GraphData) (x : String) : Bool :=
  d.nodes.any (fun p => p.1 == x)

/-- Property access this.nodes[x]: the value stored under the first matching
key, or none when the key is absent (undefined). -/
def findNode (d : GraphData) (x : String) : Option Node :=
  (d.nodes.find? (fun p => p.1 == x)).map (fun p => p.2)

/-- The edgesById lookup table built in the constructor: the loop assigns
edges in order, so a later edge with the same id overwrites an earlier one,
which the foldl reproduces. -/
def edgesById (edges : List Edge) (eid : String) : Option Edge :=
  edges.foldl (fun acc e => if e.id = eid then some e else acc) none

/-- One adjacency record: the constructor stores the target node id and the
edge id of an outgoing edge. -/
structure AdjEntry where
  target : String
  edgeId : String
deriving DecidableEq

/-- The adjacency list built in the constructor: an empty list is created for
every node key, and each edge is appended to the list of its source when that
list exists.  Therefore adjacency of a non-key string is empty (the code also
reads this.adjacency[u] || [] in findRoute), and adjacency of a key is the
list of its outgoing edges in input order. -/
def adjacency (d : GraphData) (u : String) : List AdjEntry :=
  if containsKey d u then
    (d.edges.filter (fun e => e.source == u)).map
      (fun e => { target := e.target, edgeId := e.id })
  else []

/-- Slope speed lookup of calculateWeight.  In JavaScript, speeds[difficulty]
is undefined for a missing or unknown difficulty and the listed speeds are all
nonzero, so the expression speeds[edge.difficulty] || 200 yields the listed
speed for the four known tags and 200 otherwise. -/
def slopeSpeeds (difficulty : Option String) : ℚ :=
  match difficulty with
  | some "green" => 200
  | some "blue" => 250
  | some "red" => 300
  | some "black" => 200
  | _ => 200

/-- Lift speed lookup of calculateWeight; unknown or missing lift types give
the fallback 150, as speeds[edge.liftType] || 150 does. -/
def liftSpeeds (liftType : Option String) : ℚ :=
  match liftType with
  | some "drag_lift" => 100
  | some "chair_lift" => 150
  | some "gondola" => 200
  | some "cable_car" => 250
  | some "magic_carpet" => 50
  | _ => 150

/-- The exclusion test of calculateWeight: edge.type === 'slope' and
excludedColors.has(edge.difficulty).  A Set of strings never has undefined,
so a missing difficulty is not excluded. -/
def isExcluded (e : Edge) (excl : List String) : Bool :=
  e.type == "slope" &&
    (match e.difficulty with
     | some dc => excl.contains dc
     | none => false)

/-- calculateWeight: the estimated travel time of an edge in minutes, or
Infinity when the slope color is excluded. -/
def calculateWeight (e : Edge) (excl : List String) : JNum :=
  if isExcluded e excl then .inf
  else if e.type == "slope" then .fin (e.distance / slopeSpeeds e.difficulty)
  else if e.type == "lift" then .fin (e.distance / liftSpeeds e.liftType + 3)
  else .fin (e.distance / 150)

/-- One entry of the binary heap of MinPriorityQueue.  Keys inserted by
findRoute are node ids; priorities are the finite tentative distances. -/
structure HeapEntry where
  key : String
  priority : ℚ
deriving DecidableEq

instance : Inhabited HeapEntry := ⟨⟨"", 0⟩⟩

/-- Array read this.heap[i].priority; the default value is never used because
the queue code only reads indices it has checked to be in bounds. -/
def priAt (h : List HeapEntry) (i : Nat) : ℚ := (h.getD i default).priority

/-- The destructuring swap of two heap slots. -/
def hswap (h : List HeapEntry) (i j : Nat) : List HeapEntry :=
  match h[i]?, h[j]? with
  | some a, some b => (h.set i b).set j a
  | _, _ => h

/-- MinPriorityQueue._bubbleUp, with an explicit iteration bound: the index
strictly decreases on every swap, so the start index bounds the number of
iterations.  The bound keeps the recursion structural, so that concrete runs
evaluate inside the kernel; a congruence theorem below shows the result does
not depend on the bound once it is at least the index. -/
def bubbleUpF : Nat → List HeapEntry → Nat → List HeapEntry
  | 0, h, _ => h
  | fuel + 1, h, i =>
    if i = 0 then h
    else if priAt h ((i - 1) / 2) ≤ priAt h i then h
    else bubbleUpF fuel (hswap h ((i - 1) / 2) i) ((i - 1) / 2)

/-- MinPriorityQueue._bubbleUp: move the entry at index i up while it is
smaller than its parent. -/
def bubbleUp (h : List HeapEntry) (i : Nat) : List HeapEntry := bubbleUpF i h i

/-- MinPriorityQueue.insert: push the entry at the end and bubble it up. -/
def heapInsert (h : List HeapEntry) (key : String) (priority : ℚ) : List HeapEntry :=
  bubbleUp (h ++ [{ key := key, priority := priority }]) h.length

/-- The child selection of one _sinkDown iteration: starting from smallest =
i, take the left child when it is in bounds and smaller, then the right child
when it is in bounds and smaller than the current smallest. -/
def sdChild (h : List HeapEntry) (i : Nat) : Nat :=
  let n := h.length
  let left := 2 * i + 1
  let right := 2 * i + 2
  let s1 := if left < n ∧ priAt h left < priAt h i then left else i
  if right < n ∧ priAt h right < priAt h s1 then right else s1

/-- MinPriorityQueue._sinkDown, with an explicit iteration bound: every swap
moves the index to a strictly larger child below the heap length, so the heap
length bounds the number of iterations.  As with bubbleUpF the bound keeps
the recursion structural, and a congruence theorem shows the result does not
depend on it once it is large enough. -/
def sinkDownF : Nat → List HeapEntry → Nat → List HeapEntry
  | 0, h, _ => h
  | fuel + 1, h, i =>
    if sdChild h i = i then h
    else sinkDownF fuel (hswap h (sdChild h i) i) (sdChild h i)

/-- MinPriorityQueue._sinkDown: move the entry at index i down while a child
is smaller, swapping with the smaller child. -/
def sinkDown (h : List HeapEntry) (i : Nat) : List HeapEntry := sinkDownF h.length h i

/-- MinPriorityQueue.extractMin: return the key of the root, move the last
entry to the root and sink it down.  Returns none on the empty heap (the
findRoute loop never extracts from an empty heap). -/
def extractMin (h : List HeapEntry) : Option (String × List HeapEntry) :=
  match h with
  | [] => none
  | [x] => some (x.key, [])
  | x :: y :: rest =>
    some (x.key,
      sinkDown ((y :: rest).getLast (List.cons_ne_nil y rest) :: (y :: rest).dropLast) 0)

/-- The mutable local state of one findRoute call: the dist, prev and
prevEdge objects, the visited set and the priority queue.  Object reads of
missing keys yield none. -/
structure DState where
  dist : String → Option JNum
  prev : String → Option String
  prevEdge : String → Option String
  visited : List String
  pq : List HeapEntry

/-- The dist object after initialization: Infinity for every node key, then
dist[startNodeId] = 0 (the assignment creates the key even when the start id
is not a node key). -/
def initDist (d : GraphData) (startId : String) : String → Option JNum :=
  fun x => if x = startId then some (.fin 0) else if containsKey d x then some .inf else none

/-- The state at the top of the Dijkstra loop. -/
def initState (d : GraphData) (startId : String) : DState :=
  { dist := initDist d startId
    prev := fun _ => none
    prevEdge := fun _ => none
    visited := []
    pq := heapInsert [] startId 0 }

/-- The comparison alt < dist[target] of the relaxation step, where alt is
finite.  dist[target] may be a number, Infinity, or undefined; a comparison
with undefined is false in JavaScript. -/
def finLt (a : ℚ) (b : Option JNum) : Bool :=
  match b with
  | some (.fin q) => decide (a < q)
  | some .inf => true
  | none => false

/-- The body of the relaxation loop of findRoute for one adjacency record.
When dist[u] is undefined the sum alt is NaN and when dist[u] is Infinity the
sum is Infinity; in both cases alt < dist[target] is false for every possible
value of dist[target], so the state is unchanged, which the first two dist
cases reproduce.  The edgesById lookup cannot miss because adjacency records
hold ids of existing edges; the none branch keeps the state as a total
fallback. -/
def relaxOne (d : GraphData) (excl : List String) (u : String) (s : DState) (nb : AdjEntry) :
    DState :=
  match edgesById d.edges nb.edgeId with
  | none => s
  | some e =>
    match calculateWeight e excl with
    | .inf => s
    | .fin w =>
      match s.dist u with
      | none => s
      | some .inf => s
      | some (.fin du) =>
        let alt := du + w
        if finLt alt (s.dist nb.target) then
          { dist := fun x => if x = nb.target then some (.fin alt) else s.dist x
            prev := fun x => if x = nb.target then some u else s.prev x
            prevEdge := fun x => if x = nb.target then some nb.edgeId else s.prevEdge x
            visited := s.visited
            pq := heapInsert s.pq nb.target alt }
        else s

/-- The main Dijkstra loop of findRoute, driven by fuel.  The JavaScript
while loop runs until the heap is empty or the end node is extracted; the
fuel argument makes the definition total, and a theorem below shows that the
fuel used by findRoute is always sufficient, so adding fuel does not change
the result. -/
def dijkstraLoop (d : GraphData) (excl : List String) (endId : String) :
    Nat → DState → DState
  | 0, s => s
  | fuel + 1, s =>
    match extractMin s.pq with
    | none => s
    | some (u, pq') =>
      if u = endId then { s with pq := pq' }
      else if s.visited.contains u then dijkstraLoop d excl endId fuel { s with pq := pq' }
      else dijkstraLoop d excl endId fuel
        ((adjacency d u).foldl (relaxOne d excl u)
          { s with pq := pq', visited := u :: s.visited })

/-- Fuel that is always sufficient for the Dijkstra loop and for the
backward reconstruction walk of findRoute. -/
def loopFuel (d : GraphData) : Nat := d.edges.length + d.nodes.length + 3

/-- The backward path reconstruction of findRoute: walk prev links from the
end node until the start node is reached, collecting nodes and edge ids in
forward order (the JavaScript builds the same lists with unshift).  The walk
returns none when it does not reach the start within the fuel, or when a
prev link is missing; in the JavaScript both situations make the while loop
run forever (current becomes undefined and never equals startNodeId). -/
def walkBack (prev prevEdge : String → Option String) (startId : String) :
    Nat → String → Option (List String × List String)
  | fuel, current =>
    if current = startId then some ([startId], [])
    else
      match fuel with
      | 0 => none
      | f + 1 =>
        match prev current, prevEdge current with
        | some p, some eid =>
          match walkBack prev prevEdge startId f p with
          | some (path, eids) => some (path ++ [current], eids ++ [eid])
          | none => none
        | _, _ => none

/-- JavaScript truthiness of an optional string: undefined and the empty
string are falsy. -/
def strTruthy : Option String → Bool
  | none => false
  | some s => !(s == "")

/-- edge.name || 'Unnamed'. -/
def jsOrStr (v : Option String) (dflt : String) : String :=
  match v with
  | some s => if s == "" then dflt else s
  | none => dflt

/-- edge.difficulty || null and edge.liftType || null. -/
def jsOrNull (v : Option String) : Option String :=
  match v with
  | some s => if s == "" then none else some s
  | none => none

/-- One step record of the route, as built in findRoute. -/
structure Step where
  edgeId : String
  name : String
  type : String
  difficulty : Option String
  liftType : Option String
  distance : ℚ
  elevationDelta : ℚ
  estimatedMinutes : JNum
  geometry : Option (List (ℚ × ℚ))
  sourceNode : String
  targetNode : String
deriving DecidableEq

/-- Math.round(weight * 10) / 10, applied to a possibly infinite weight. -/
def roundTenth : JNum → JNum
  | .inf => .inf
  | .fin q => .fin (((jsRound (q * 10) : ℤ) : ℚ) / 10)

/-- The step record built from an edge in the steps map of findRoute. -/
def mkStep (e : Edge) (excl : List String) : Step :=
  { edgeId := e.id
    name := jsOrStr e.name "Unnamed"
    type := e.type
    difficulty := jsOrNull e.difficulty
    liftType := jsOrNull e.liftType
    distance := e.distance
    elevationDelta := e.elevationDelta
    estimatedMinutes := roundTenth (calculateWeight e excl)
    geometry := e.geometry
    sourceNode := e.source
    targetNode := e.target }

/-- The steps map of findRoute over the reconstructed edge ids.  A missing
edgesById entry would make the JavaScript crash on edge.id; the none result
models that abnormal end. -/
def buildSteps (edges : List Edge) (excl : List String) (eids : List String) :
    Option (List Step) :=
  eids.foldr
    (fun eid acc =>
      match edgesById edges eid, acc with
      | some e, some l => some (mkStep e excl :: l)
      | _, _ => none)
    (some [])

/-- The four running totals of the summary loop of findRoute. -/
structure TotAcc where
  totalDistance : ℚ
  totalTime : JNum
  totalUp : ℚ
  totalDown : ℚ
deriving DecidableEq

/-- The summary loop of findRoute: one pass over the steps accumulating
distance, time, ascent and descent (a nonpositive elevation delta goes to the
descent branch). -/
def stepTotals (steps : List Step) : TotAcc :=
  steps.foldl
    (fun acc st =>
      { totalDistance := acc.totalDistance + st.distance
        totalTime := jnAdd acc.totalTime st.estimatedMinutes
        totalUp := if (0:ℚ) < st.elevationDelta then acc.totalUp + st.elevationDelta else acc.totalUp
        totalDown :=
          if (0:ℚ) < st.elevationDelta then acc.totalDown
          else acc.totalDown + jsAbs st.elevationDelta })
    { totalDistance := 0, totalTime := .fin 0, totalUp := 0, totalDown := 0 }

/-- One sample of the elevation profile.  Interpolated samples carry no
nodeId property in JavaScript, hence the Option. -/
structure ProfilePoint where
  distance : ℚ
  elevation : ℚ
  nodeId : Option String
  isNode : Bool
  type : Option String
  difficulty : Option String
deriving DecidableEq

/-- The body of the profile loop of _buildElevationProfile for one step:
optionally the interpolated interior geometry samples, then the sample of the
target node at the accumulated distance.  A missing node would make the
JavaScript crash reading .ele, modelled by none. -/
def profileStep (d : GraphData) (acc : Option (List ProfilePoint × ℚ)) (st : Step) :
    Option (List ProfilePoint × ℚ) :=
  match acc with
  | none => none
  | some (points, cum) =>
    match findNode d st.targetNode with
    | none => none
    | some targetNode =>
      let withGeom : Option (List ProfilePoint) :=
        match st.geometry with
        | some geom =>
          if 2 < geom.length then
            match findNode d st.sourceNode with
            | none => none
            | some sourceNode =>
              let geomLen := geom.length
              some (points ++ (List.range (geomLen - 2)).map (fun k =>
                let g : ℕ := k + 1
                let frac : ℚ := (g : ℚ) / ((geomLen : ℚ) - 1)
                let segDist := st.distance * frac
                let interpEle := sourceNode.ele + (targetNode.ele - sourceNode.ele) * frac
                { distance := cum + segDist
                  elevation := ((jsRound interpEle : ℤ) : ℚ)
                  nodeId := none
                  isNode := false
                  type := some st.type
                  difficulty := st.difficulty }))
          else some points
        | none => some points
      match withGeom with
      | none => none
      | some points' =>
        let cum' := cum + st.distance
        some (points' ++
          [{ distance := cum'
             elevation := targetNode.ele
             nodeId := some st.targetNode
             isNode := true
             type := some st.type
             difficulty := st.difficulty }], cum')

/-- _buildElevationProfile: the first sample at distance 0 for the first path
node, then the profile loop over the steps. -/
def buildElevationProfile (d : GraphData) (path : List String) (steps : List Step) :
    Option (List ProfilePoint) :=
  match path with
  | [] => none
  | p0 :: _ =>
    match findNode d p0 with
    | none => none
    | some firstNode =>
      let first : ProfilePoint :=
        { distance := 0
          elevation := firstNode.ele
          nodeId := some p0
          isNode := true
          type := none
          difficulty := none }
      (steps.foldl (profileStep d) (some ([first], 0))).map (fun pc => pc.1)

/-- The summary part of the route object. -/
structure Summary where
  totalDistance : ℤ
  totalTime : JNum
  totalUp : ℤ
  totalDown : ℤ
  stepCount : ℕ
deriving DecidableEq

/-- The route object returned by findRoute on success. -/
structure Route where
  path : List String
  steps : List Step
  elevationProfile : List ProfilePoint
  summary : Summary
deriving DecidableEq

/-- The possible outcomes of findRoute.  The first two error variants are the
returned objects with error fields same_location and no_route; route is the
normal result.  abnormal marks executions in which the JavaScript function
never returns a value: the reconstruction while loop runs forever, or a
property access of a missing object throws. -/
inductive RouteResult where
  | sameLocation : RouteResult
  | noRoute : RouteResult
  | route : Route → RouteResult
  | abnormal : RouteResult
deriving DecidableEq

/-- SkiGraph.findRoute assembled from the pieces above, in source order:
the same-location check, initialization, the Dijkstra loop, the no-route
check (a strict equality with Infinity, hence false when dist[end] is
undefined), the backward walk, the steps, the totals and the profile. -/
def findRoute (d : GraphData) (startNodeId endNodeId : String) (excl : List String) :
    RouteResult :=
  if startNodeId = endNodeId then .sameLocation
  else
    let sF := dijkstraLoop d excl endNodeId (loopFuel d) (initState d startNodeId)
    if sF.dist endNodeId = some .inf then .noRoute
    else
      match walkBack sF.prev sF.prevEdge startNodeId (loopFuel d) endNodeId with
      | none => .abnormal
      | some (path, eids) =>
        match buildSteps d.edges excl eids with
        | none => .abnormal
        | some steps =>
          let tot := stepTotals steps
          match buildElevationProfile d path steps with
          | none => .abnormal
          | some prof =>
            .route
              { path := path
                steps := steps
                elevationProfile := prof
                summary :=
                  { totalDistance := jsRound tot.totalDistance
                    totalTime := jnRound tot.totalTime
                    totalUp := jsRound tot.totalUp
                    totalDown := jsRound tot.totalDown
                    stepCount := steps.length } }

/-- Projection of the route variant, used to state properties of successful
searches. -/
def getRoute : RouteResult → Option Route
  | .route r => some r
  | _ => none

/-- One entry of a selectable location list. -/
structure LocEntry where
  nodeId : String
  label : String
  name : String
  ele : ℚ
deriving DecidableEq

/-- The result of getSelectableLocations. -/
structure LocationIndex where
  stations : List LocEntry
  slopeTops : List LocEntry
  slopeBottoms : List LocEntry
  liftTops : List LocEntry
  liftBottoms : List LocEntry
deriving DecidableEq

/-- The stations loop of getSelectableLocations: every node whose station
field is truthy, in insertion order, before sorting. -/
def stationEntries (d : GraphData) : List LocEntry :=
  d.nodes.filterMap (fun p =>
    match p.2.station with
    | some s =>
      if s == "" then none
      else some
        { nodeId := p.1
          label := s ++ " (" ++ toString p.2.ele ++ "m)"
          name := s
          ele := p.2.ele }
    | none => none)

/-- The running state of the edges loop of getSelectableLocations: the four
lists under construction and the four seen sets. -/
structure LocAcc where
  slopeTops : List LocEntry
  slopeBottoms : List LocEntry
  liftTops : List LocEntry
  liftBottoms : List LocEntry
  seenSlopeTops : List String
  seenSlopeBottoms : List String
  seenLiftTops : List String
  seenLiftBottoms : List String

/-- The body of the edges loop of getSelectableLocations for one edge.  The
node lookups at the top of the loop body are harmless; reading .ele of a
missing node when an entry is pushed would throw in JavaScript, which the
none result models.  An entry is pushed, and its key marked seen, only when
the key is unseen and the edge name is truthy. -/
def locStep (d : GraphData) (acc : Option LocAcc) (e : Edge) : Option LocAcc :=
  match acc with
  | none => none
  | some a =>
    let sourceNode := findNode d e.source
    let targetNode := findNode d e.target
    if e.type == "slope" then
      let afterTop : Option LocAcc :=
        if !a.seenSlopeTops.contains e.source && strTruthy e.name then
          match sourceNode, e.name with
          | some n, some nm =>
            some { a with
              seenSlopeTops := a.seenSlopeTops ++ [e.source]
              slopeTops := a.slopeTops ++
                [{ nodeId := e.source
                   label := nm ++ " - top (" ++ toString n.ele ++ "m)"
                   name := nm
                   ele := n.ele }] }
          | _, _ => none
        else some a
      match afterTop with
      | none => none
      | some a2 =>
        if !a2.seenSlopeBottoms.contains e.target && strTruthy e.name then
          match targetNode, e.name with
          | some n, some nm =>
            some { a2 with
              seenSlopeBottoms := a2.seenSlopeBottoms ++ [e.target]
              slopeBottoms := a2.slopeBottoms ++
                [{ nodeId := e.target
                   label := nm ++ " - bottom (" ++ toString n.ele ++ "m)"
                   name := nm
                   ele := n.ele }] }
          | _, _ => none
        else some a2
    else if e.type == "lift" then
      let afterBottom : Option LocAcc :=
        if !a.seenLiftBottoms.contains e.source && strTruthy e.name then
          match sourceNode, e.name with
          | some n, some nm =>
            some { a with
              seenLiftBottoms := a.seenLiftBottoms ++ [e.source]
              liftBottoms := a.liftBottoms ++
                [{ nodeId := e.source
                   label := nm ++ " - bottom (" ++ toString n.ele ++ "m)"
                   name := nm
                   ele := n.ele }] }
          | _, _ => none
        else some a
      match afterBottom with
      | none => none
      | some a2 =>
        if !a2.seenLiftTops.contains e.target && strTruthy e.name then
          match targetNode, e.name with
          | some n, some nm =>
            some { a2 with
              seenLiftTops := a2.seenLiftTops ++ [e.target]
              liftTops := a2.liftTops ++
                [{ nodeId := e.target
                   label := nm ++ " - top (" ++ toString n.ele ++ "m)"
                   name := nm
                   ele := n.ele }] }
          | _, _ => none
        else some a2
    else some a

/-- The comparator passed to the four sorts, modelling localeCompare on the
name fields as the string order; only the fact that sorting permutes its
input is used by the theorems. -/
def byName (a b : LocEntry) : Bool := a.name ≤ b.name

/-- SkiGraph.getSelectableLocations: stations from the node map, the four
derived lists from the edges loop, each sorted by name.  A none result
models a JavaScript crash on a malformed graph. -/
def getSelectableLocations (d : GraphData) : Option LocationIndex :=
  let init : LocAcc :=
    { slopeTops := [], slopeBottoms := [], liftTops := [], liftBottoms := []
      seenSlopeTops := [], seenSlopeBottoms := [], seenLiftTops := [], seenLiftBottoms := [] }
  match d.edges.foldl (locStep d) (some init) with
  | none => none
  | some a =>
    some
      { stations := (stationEntries d).mergeSort byName
        slopeTops := a.slopeTops.mergeSort byName
        slopeBottoms := a.slopeBottoms.mergeSort byName
        liftTops := a.liftTops.mergeSort byName
        liftBottoms := a.liftBottoms.mergeSort byName }

/-! Specification-side definitions.  These express the shapes of the claims:
directed paths, their costs, and the well-formedness invariants of the data
model (edge endpoints exist, distances are nonnegative, edge ids are
distinct, node keys are distinct). -/

/-- The edges es form a directed walk from s to t: consecutive sources and
targets match. -/
def edgeChain : String → String → List Edge → Prop
  | s, t, [] => s = t
  | s, t, e :: rest => e.source = s ∧ edgeChain e.target t rest

instance : ∀ s t es, Decidable (edgeChain s t es) := fun s t es => by
  induction es generalizing s with
  | nil => exact inferInstanceAs (Decidable (s = t))
  | cons e rest ih =>
    exact @instDecidableAnd _ _ _ (ih e.target)

/-- A directed path from s to t in the graph whose edges all have a finite
weight under the exclusion set. -/
def IsFeasiblePath (d : GraphData) (excl : List String) (s t : String) (es : List Edge) :
    Prop :=
  edgeChain s t es ∧ ∀ e ∈ es, e ∈ d.edges ∧ calculateWeight e excl ≠ .inf

/-- The sum of the weight model costs of a list of edges, as a JavaScript
number. -/
def pathCost (excl : List String) (es : List Edge) : JNum :=
  es.foldr (fun e acc => jnAdd (calculateWeight e excl) acc) (.fin 0)

/-- Comparison of JavaScript numbers (everything is at most Infinity). -/
def jnLe : JNum → JNum → Prop
  | .fin a, .fin b => a ≤ b
  | .inf, .fin _ => False
  | _, .inf => True

/-- The finite part of a weight, with junk value 0 on Infinity; on feasible
paths every weight is finite and this is the real weight. -/
def weightQ (e : Edge) (excl : List String) : ℚ :=
  match calculateWeight e excl with
  | .inf => 0
  | .fin q => q

/-- The rational cost of a list of edges, used inside proofs. -/
def costQ (excl : List String) (es : List Edge) : ℚ :=
  (es.map (fun e => weightQ e excl)).sum

/-- Well-formedness piece one: every edge endpoint is a node key (the data
model of the spec requires source and target ids to exist in the node
set). -/
def EP (d : GraphData) : Prop :=
  ∀ e ∈ d.edges, containsKey d e.source = true ∧ containsKey d e.target = true

/-- Well-formedness piece two: every distance is nonnegative. -/
def NN (d : GraphData) : Prop :=
  ∀ e ∈ d.edges, 0 ≤ e.distance

/-- Well-formedness piece three: edge ids are distinct (each edge has a
unique identifier in the data model of the spec). -/
def UID (d : GraphData) : Prop :=
  (d.edges.map (fun e => e.id)).Nodup

/-- Data-model well-formedness of the spec. -/
def WF (d : GraphData) : Prop := EP d ∧ NN d ∧ UID d

/-- Pointwise order on dist table entries: the left value refines the right
one downward (relaxation only lowers finite values and turns Infinity into a
finite value, and never touches missing entries). -/
def dLe : Option JNum → Option JNum → Prop
  | a, b =>
    a = b ∨ ∃ q', a = some (.fin q') ∧
      (b = some .inf ∨ ∃ q, b = some (.fin q) ∧ q' ≤ q)

/-- The edges traversed by a route, recovered from the edge ids of its
steps. -/
def routeEdges (d : GraphData) (r : Route) : List Edge :=
  r.steps.filterMap (fun st => edgesById d.edges st.edgeId)

/-- Modelled from the spec: the malformedness condition that the spec says
buildGraph rejects with MalformedDataError (an edge endpoint that is not a
node key, or a negative distance).  The source has no such check; this
definition exists to state that claim. -/
def specMalformed (d : GraphData) : Bool :=
  d.edges.any (fun e =>
    !containsKey d e.source || !containsKey d e.target || decide (e.distance < 0))

/-- The rank of a node in the visited list (which grows by consing): the
length of the suffix beginning at its occurrence, so that a node visited
earlier has a smaller rank, and an absent node has rank 0. -/
def vrank (visited : List String) (x : String) : Nat :=
  (visited.dropWhile (fun y => !(y == x))).length

/-- The quantity that strictly decreases on every Dijkstra loop iteration:
the heap size plus the out-degrees of the unvisited node keys. -/
def loopMeasure (d : GraphData) (s : DState) : Nat :=
  s.pq.length +
    (((d.nodes.map Prod.fst).dedup.filter (fun u => !s.visited.contains u)).map
      (fun u => (adjacency d u).length)).sum

/-- The binary heap shape invariant: every entry below the root is at least
its parent. -/
def HeapInv (h : List HeapEntry) : Prop :=
  ∀ j, 0 < j → j < h.length → priAt h ((j - 1) / 2) ≤ priAt h j

/-- The heap is well shaped except possibly between index i and its parent;
moreover the parent of i is at most the children of i, so that a swap with
the parent cannot break the pairs through i. -/
def AlmostUp (h : List HeapEntry) (i : Nat) : Prop :=
  (∀ j, 0 < j → j < h.length → j ≠ i → priAt h ((j - 1) / 2) ≤ priAt h j) ∧
  (0 < i → ∀ c, c < h.length → (c - 1) / 2 = i → priAt h ((i - 1) / 2) ≤ priAt h c)

/-- The heap is well shaped except possibly between index i and its
children; moreover the parent of i is at most the children of i. -/
def AlmostDown (h : List HeapEntry) (i : Nat) : Prop :=
  (∀ j, 0 < j → j < h.length → (j - 1) / 2 ≠ i → priAt h ((j - 1) / 2) ≤ priAt h j) ∧
  (0 < i → ∀ c, c < h.length → (c - 1) / 2 = i → priAt h ((i - 1) / 2) ≤ priAt h c)

/-- The rank used to bound the reconstruction walk: a node outside the
visited list is treated as one step above all visited nodes. -/
def wrank (visited : List String) (x : String) : Nat :=
  if x ∈ visited then vrank visited x else visited.length + 1

/-- The loop invariant parts that still hold after the early break: shape of
the dist table, nonnegativity, the visited bookkeeping, and the prev links
that the reconstruction walk follows.  Every prev link points to an earlier
visited node, which bounds the walk. -/
structure WalkInv (d : GraphData) (excl : List String) (startId : String) (s : DState) :
    Prop where
  dom : ∀ x, (s.dist x).isSome = true ↔ (containsKey d x = true ∨ x = startId)
  dstart : s.dist startId = some (.fin 0)
  nonneg : ∀ x q, s.dist x = some (.fin q) → 0 ≤ q
  vis_nodup : s.visited.Nodup
  vis_sub : ∀ u ∈ s.visited, u = startId ∨ u ∈ d.edges.map (fun e => e.target)
  vis_fin : ∀ u ∈ s.visited, ∃ q, s.dist u = some (.fin q)
  prev_dom : ∀ x, (s.prev x).isSome = true → x ≠ startId ∧ ∃ q, s.dist x = some (.fin q)
  prevlite : ∀ x q, x ≠ startId → s.dist x = some (.fin q) →
    ∃ u eid e, s.prev x = some u ∧ s.prevEdge x = some eid ∧
      edgesById d.edges eid = some e ∧ e ∈ d.edges ∧ u ∈ s.visited ∧
      (x ∈ s.visited → vrank s.visited u < vrank s.visited x)

/-- The loop invariant parts about the priority queue, which hold at the top
of every loop iteration (the early break invalidates them for the end
node). -/
structure QInv (d : GraphData) (excl : List String) (startId : String) (s : DState) :
    Prop where
  frontier : ∀ x q, x ∉ s.visited → s.dist x = some (.fin q) →
    ∃ en ∈ s.pq, en.key = x ∧ en.priority = q
  pq_dist : ∀ en ∈ s.pq, ∃ q, s.dist en.key = some (.fin q) ∧ q ≤ en.priority
  pq_keys : ∀ en ∈ s.pq, en.key = startId ∨ en.key ∈ d.edges.map (fun e => e.target)
  vis_le_pq : ∀ u ∈ s.visited, ∀ q, s.dist u = some (.fin q) →
    ∀ en ∈ s.pq, q ≤ en.priority
  hInv : HeapInv s.pq

/-- The relaxation closure over a set of nodes: every outgoing edge of a
node of V with a finite weight has been relaxed.  This is stated for an
explicit list V because during the processing of a freshly visited node the
closure holds for the previously visited nodes only. -/
def ClosureOn (d : GraphData) (excl : List String) (V : List String) (s : DState) :
    Prop :=
  ∀ u ∈ V, ∀ e ∈ d.edges, e.source = u →
    ∀ qe, calculateWeight e excl = .fin qe →
    ∀ qu, s.dist u = some (.fin qu) →
    ∃ qt, s.dist e.target = some (.fin qt) ∧ qt ≤ qu + qe

/-- The loop invariant parts that relate dist values to path costs; these
need the well-formedness of the data (distinct edge ids in particular) and
carry the optimality argument. -/
structure CostInv (d : GraphData) (excl : List String) (startId : String) (s : DState) :
    Prop where
  sound : ∀ x q, s.dist x = some (.fin q) →
    ∃ es, IsFeasiblePath d excl startId x es ∧ costQ excl es = q
  vis_opt : ∀ u ∈ s.visited, ∀ q, s.dist u = some (.fin q) →
    ∀ es, IsFeasiblePath d excl startId u es → q ≤ costQ excl es
  prevcost : ∀ x q, x ≠ startId → s.dist x = some (.fin q) →
    ∃ u e qe qu, s.prev x = some u ∧ s.prevEdge x = some e.id ∧
      edgesById d.edges e.id = some e ∧ e ∈ d.edges ∧ e.source = u ∧ e.target = x ∧
      calculateWeight e excl = .fin qe ∧ s.dist u = some (.fin qu) ∧ qu + qe = q

/-- The lower-bound fact harvested at loop exit: every feasible path to the
end node witnesses a finite dist of the end node that is at most its cost. -/
def EndLB (d : GraphData) (excl : List String) (startId endId : String) (s : DState) :
    Prop :=
  ∀ es, IsFeasiblePath d excl startId endId es →
    ∃ q, s.dist endId = some (.fin q) ∧ q ≤ costQ excl es

/-! Concrete graphs used by the witnesses and counterexamples below. -/

/-- A slope edge literal for the example graphs. -/
def mkSlope (eid src tgt dc : String) (dist delta : ℚ) : Edge :=
  { id := eid, source := src, target := tgt, type := "slope", difficulty := some dc
    liftType := none, distance := dist, elevationDelta := delta
    name := some ("slope " ++ eid), geometry := none }

/-- A lift edge literal for the example graphs. -/
def mkLift (eid src tgt lt : String) (dist delta : ℚ) : Edge :=
  { id := eid, source := src, target := tgt, type := "lift", difficulty := none
    liftType := some lt, distance := dist, elevationDelta := delta
    name := some ("lift " ++ eid), geometry := none }

/-- The two-edge chain of the spec scenario: a gondola of 1000 m from A to B,
then a green slope of 600 m from B to C. -/
def gChain : GraphData :=
  { nodes :=
      [("A", { ele := 1000, station := some "Alpha" }),
       ("B", { ele := 1500, station := none }),
       ("C", { ele := 1300, station := some "Carol" })]
    edges :=
      [mkLift "l1" "A" "B" "gondola" 1000 500,
       mkSlope "s1" "B" "C" "green" 600 (-200)] }

/-- One blue slope of half a meter: the exact profile distance 1/2 differs
from the rounded summary distance 1. -/
def gHalf : GraphData :=
  { nodes :=
      [("A", { ele := 1000, station := none }),
       ("B", { ele := 999, station := none })]
    edges := [mkSlope "s1" "A" "B" "blue" (1/2) (-1)] }

/-- A graph with one negative slope distance.  The search pops S, a, b, a
(stale), end; the relaxation of the edge from b back to a rewrites prev of a
after a has been visited, leaving the prev cycle a to b to a, so the
reconstruction walk from end never reaches S. -/
def gNeg : GraphData :=
  { nodes :=
      [("S", { ele := 1000, station := none }),
       ("a", { ele := 900, station := none }),
       ("b", { ele := 800, station := none }),
       ("end", { ele := 700, station := none })]
    edges :=
      [mkSlope "e1" "S" "a" "green" 400 (-100),
       mkSlope "e2" "a" "b" "green" 600 (-100),
       mkSlope "e3" "a" "end" "green" 2000 (-200),
       mkSlope "e4" "b" "a" "red" (-1200) 100] }

/-- A graph whose edge references a target that is not a node key and whose
second edge has a negative distance: malformed in the sense of the spec, yet
construction and search work normally. -/
def gBad : GraphData :=
  { nodes :=
      [("X", { ele := 100, station := some "Xst" }),
       ("Z", { ele := 50, station := none })]
    edges :=
      [mkSlope "b1" "X" "Y" "blue" 500 (-10),
       mkSlope "b2" "X" "Z" "blue" (-250) (-50)] }

/-- A slope edge with an unknown difficulty tag: the code divides by the
fallback speed 200, not by the blue speed 250. -/
def ePurple : Edge := mkSlope "p1" "A" "B" "purple" 1000 0

/-- A small well-formed graph with two routes from A to C: directly by a red
slope, or around through B by two green slopes; with red excluded the
optimum changes. -/
def gTwo : GraphData :=
  { nodes :=
      [("A", { ele := 1000, station := some "Astation" }),
       ("B", { ele := 900, station := none }),
       ("C", { ele := 800, station := some "Cstation" })]
    edges :=
      [mkSlope "r1" "A" "C" "red" 300 (-200),
       mkSlope "g1" "A" "B" "green" 200 (-100),
       mkSlope "g2" "B" "C" "green" 200 (-100)] }

/-- Well-formedness piece four: the node map has distinct keys, which the
JavaScript object guarantees by construction (the association-list model
allows duplicates, so proofs about the node map take this as a
hypothesis). -/
def UKEY (d : GraphData) : Prop := (d.nodes.map Prod.fst).Nodup

/-- The body of one visiting iteration of the Dijkstra loop: pop leaves the
heap pq1, the node u is marked visited and its adjacency records are
relaxed.  The visiting branch of dijkstraLoop recurses on exactly this
state. -/
def processNode (d : GraphData) (excl : List String) (u : String)
    (pq1 : List HeapEntry) (s : DState) : DState :=
  (adjacency d u).foldl (relaxOne d excl u) { s with pq := pq1, visited := u :: s.visited }

/-- The consecutive-connection property claimed for a returned route: each
pair of consecutive path nodes is joined by the edge found under the edge id
of the corresponding step, with matching source and target ids and a finite
weight under the exclusions. -/
def StepsLink (d : GraphData) (excl : List String) : List String → List Step → Prop
  | [_], [] => True
  | x :: y :: prest, st :: srest =>
    (∃ e, edgesById d.edges st.edgeId = some e ∧ e.source = x ∧ e.target = y ∧
      calculateWeight e excl ≠ .inf) ∧
    StepsLink d excl (y :: prest) srest
  | _, _ => False

instance : Inhabited Route :=
  ⟨{ path := [], steps := [], elevationProfile := []
     summary := { totalDistance := 0, totalTime := .fin 0, totalUp := 0
                  totalDown := 0, stepCount := 0 } }⟩

instance : Inhabited LocationIndex :=
  ⟨{ stations := [], slopeTops := [], slopeBottoms := [], liftTops := [], liftBottoms := [] }⟩

instance (d : GraphData) : Decidable (EP d) :=
  inferInstanceAs (Decidable (∀ e ∈ d.edges,
    containsKey d e.source = true ∧ containsKey d e.target = true))

instance (d : GraphData) : Decidable (NN d) :=
  inferInstanceAs (Decidable (∀ e ∈ d.edges, 0 ≤ e.distance))

instance (d : GraphData) : Decidable (UID d) :=
  inferInstanceAs (Decidable ((d.edges.map (fun (e : Edge) => e.id)).Nodup))

instance (d : GraphData) : Decidable (WF d) :=
  inferInstanceAs (Decidable (EP d ∧ NN d ∧ UID d))

instance (d : GraphData) : Decidable (UKEY d) :=
  inferInstanceAs (Decidable ((d.nodes.map Prod.fst).Nodup))

/-- The bookkeeping invariant of the edges loop of getSelectableLocations:
each seen set holds exactly the node ids pushed to the matching list, without
repetition. -/
def LocInv (a : LocAcc) : Prop :=
  a.seenSlopeTops = a.slopeTops.map (fun en => en.nodeId) ∧ a.seenSlopeTops.Nodup ∧
  a.seenSlopeBottoms = a.slopeBottoms.map (fun en => en.nodeId) ∧ a.seenSlopeBottoms.Nodup ∧
  a.seenLiftTops = a.liftTops.map (fun en => en.nodeId) ∧ a.seenLiftTops.Nodup ∧
  a.seenLiftBottoms = a.liftBottoms.map (fun en => en.nodeId) ∧ a.seenLiftBottoms.Nodup

/-! Heap lemmas: the swap permutes, insert and extract preserve the heap
shape, and the root of a well shaped heap is minimal. -/

theorem hswap_length (h : List HeapEntry) (i j : Nat) : (hswap h i j).length = h.length := by
  unfold hswap
  split
  · simp
  · rfl

theorem priAt_getElem (h : List HeapEntry) (i : Nat) :
    priAt h i = (h[i]?.getD default).priority := by
  simp [priAt, List.getD_eq_getElem?_getD]

theorem priAt_hswap (h : List HeapEntry) (i j k : Nat) (hi : i < h.length)
    (hj : j < h.length) :
    priAt (hswap h i j) k =
      if k = i then priAt h j else if k = j then priAt h i else priAt h k := by
  have hgi : h[i]? = some h[i] := List.getElem?_eq_getElem hi
  have hgj : h[j]? = some h[j] := List.getElem?_eq_getElem hj
  unfold hswap
  rw [hgi, hgj]
  simp only [priAt_getElem, List.getElem?_set, List.length_set]
  rcases eq_or_ne k i with rfl | hki
  · rcases eq_or_ne k j with rfl | hkj
    · simp [hi, hgj]
    · simp [hi, Ne.symm hkj, hkj, hgj]
  · rcases eq_or_ne k j with rfl | hkj
    · simp [hj, Ne.symm hki, hki, hgi]
    · simp [Ne.symm hki, Ne.symm hkj, hki, hkj]

theorem getD_cons_perm (t : List HeapEntry) (j : Nat) (c : HeapEntry) (hj : j < t.length) :
    List.Perm (t.getD j default :: t.set j c) (c :: t) := by
  induction t generalizing j with
  | nil => simp at hj
  | cons a s ih =>
    cases j with
    | zero => simpa using List.Perm.swap c a s
    | succ j =>
      have hj' : j < s.length := by simpa using hj
      have step1 : List.Perm (s.getD j default :: a :: s.set j c)
          (a :: (s.getD j default :: s.set j c)) := List.Perm.swap a _ _
      have step2 : List.Perm (a :: (s.getD j default :: s.set j c)) (a :: (c :: s)) :=
        (ih j hj').cons a
      have step3 : List.Perm (a :: c :: s) (c :: a :: s) := List.Perm.swap c a s
      simpa using (step1.trans step2).trans step3

theorem swapSet_perm (h : List HeapEntry) (i j : Nat) (hij : i < j) (hj : j < h.length) :
    List.Perm ((h.set i (h.getD j default)).set j (h.getD i default)) h := by
  induction h generalizing i j with
  | nil => simp at hj
  | cons a s ih =>
    cases i with
    | zero =>
      obtain ⟨m, rfl⟩ : ∃ m, j = m + 1 := ⟨j - 1, by omega⟩
      have hm : m < s.length := by simpa using hj
      simpa using getD_cons_perm s m a hm
    | succ k =>
      obtain ⟨m, rfl⟩ : ∃ m, j = m + 1 := ⟨j - 1, by omega⟩
      have hm : m < s.length := by simpa using hj
      simpa using (ih k m (by omega) hm).cons a

theorem hswap_perm (h : List HeapEntry) (i j : Nat) (hi : i < h.length) (hj : j < h.length) :
    List.Perm (hswap h i j) h := by
  have hgi : h[i]? = some h[i] := List.getElem?_eq_getElem hi
  have hgj : h[j]? = some h[j] := List.getElem?_eq_getElem hj
  have hdi : h.getD i default = h[i] := by rw [List.getD_eq_getElem?_getD, hgi]; rfl
  have hdj : h.getD j default = h[j] := by rw [List.getD_eq_getElem?_getD, hgj]; rfl
  have hme : hswap h i j = (h.set i h[j]).set j h[i] := by
    unfold hswap
    rw [hgi, hgj]
  rw [hme]
  rcases eq_or_ne i j with rfl | hij
  · have hset : h.set i h[i] = h := by
      apply List.ext_getElem?
      intro n
      rw [List.getElem?_set]
      split
      · rename_i hn
        subst hn
        set_option linter.unnecessarySimpa false in
        simpa [hi] using hgi.symm
      · rfl
    rw [List.set_set, hset]
  · rcases lt_or_gt_of_ne hij with hlt | hgt
    · rw [← hdi, ← hdj]
      exact swapSet_perm h i j hlt hj
    · rw [List.set_comm _ _ _ hij, ← hdi, ← hdj]
      exact swapSet_perm h j i hgt hi

theorem root_min (h : List HeapEntry) (hh : HeapInv h) :
    ∀ k, k < h.length → priAt h 0 ≤ priAt h k := by
  intro k
  induction k using Nat.strong_induction_on with
  | _ k ih =>
    intro hk
    rcases Nat.eq_zero_or_pos k with rfl | hk0
    · exact le_refl _
    · exact le_trans (ih ((k - 1) / 2) (by omega) (by omega)) (hh k hk0 hk)

theorem bubbleUpF_zero (f : Nat) (h : List HeapEntry) : bubbleUpF f h 0 = h := by
  cases f with
  | zero => rfl
  | succ g => rfl

theorem bubbleUpF_congr : ∀ f1 f2 : Nat, ∀ (h : List HeapEntry) (i : Nat),
    i ≤ f1 → i ≤ f2 → bubbleUpF f1 h i = bubbleUpF f2 h i := by
  intro f1
  induction f1 with
  | zero =>
    intro f2 h i h1 h2
    have hi : i = 0 := by omega
    subst hi
    rw [bubbleUpF_zero, bubbleUpF_zero]
  | succ g ih =>
    intro f2 h i h1 h2
    cases i with
    | zero => rw [bubbleUpF_zero, bubbleUpF_zero]
    | succ j =>
      obtain ⟨g2, rfl⟩ : ∃ g2, f2 = g2 + 1 := ⟨f2 - 1, by omega⟩
      show (if j + 1 = 0 then h
            else if priAt h ((j + 1 - 1) / 2) ≤ priAt h (j + 1) then h
            else bubbleUpF g (hswap h ((j + 1 - 1) / 2) (j + 1)) ((j + 1 - 1) / 2)) =
          (if j + 1 = 0 then h
            else if priAt h ((j + 1 - 1) / 2) ≤ priAt h (j + 1) then h
            else bubbleUpF g2 (hswap h ((j + 1 - 1) / 2) (j + 1)) ((j + 1 - 1) / 2))
      rw [if_neg (Nat.succ_ne_zero j), if_neg (Nat.succ_ne_zero j)]
      by_cases hle : priAt h ((j + 1 - 1) / 2) ≤ priAt h (j + 1)
      · rw [if_pos hle, if_pos hle]
      · rw [if_neg hle, if_neg hle]
        exact ih g2 (hswap h ((j + 1 - 1) / 2) (j + 1)) ((j + 1 - 1) / 2)
          (by omega) (by omega)

theorem bubbleUp_eq (h : List HeapEntry) (i : Nat) :
    bubbleUp h i =
      if i = 0 then h
      else if priAt h ((i - 1) / 2) ≤ priAt h i then h
      else bubbleUp (hswap h ((i - 1) / 2) i) ((i - 1) / 2) := by
  cases i with
  | zero => rw [if_pos rfl]; rfl
  | succ j =>
    rw [if_neg (Nat.succ_ne_zero j)]
    show (if j + 1 = 0 then h
          else if priAt h ((j + 1 - 1) / 2) ≤ priAt h (j + 1) then h
          else bubbleUpF j (hswap h ((j + 1 - 1) / 2) (j + 1)) ((j + 1 - 1) / 2)) = _
    rw [if_neg (Nat.succ_ne_zero j)]
    by_cases hle : priAt h ((j + 1 - 1) / 2) ≤ priAt h (j + 1)
    · rw [if_pos hle, if_pos hle]
    · rw [if_neg hle, if_neg hle]
      exact bubbleUpF_congr j ((j + 1 - 1) / 2) _ _ (by omega) (by omega)

theorem bubbleUp_perm (h : List HeapEntry) (i : Nat) (hi : i < h.length) :
    List.Perm (bubbleUp h i) h := by
  induction i using Nat.strong_induction_on generalizing h with
  | _ i ih =>
    rw [bubbleUp_eq]
    split_ifs with h0 hle
    · exact List.Perm.refl h
    · exact List.Perm.refl h
    · have hp : (i - 1) / 2 < i := by omega
      have hpl : (i - 1) / 2 < h.length := lt_trans hp hi
      have hswlen : (hswap h ((i - 1) / 2) i).length = h.length := hswap_length ..
      exact (ih _ hp _ (by rw [hswlen]; exact lt_trans hp hi)).trans
        (hswap_perm h _ i hpl hi)

theorem bubbleUp_heapInv (h : List HeapEntry) (i : Nat) (hi : i < h.length)
    (ha : AlmostUp h i) : HeapInv (bubbleUp h i) := by
  induction i using Nat.strong_induction_on generalizing h with
  | _ i ih =>
    rw [bubbleUp_eq]
    split_ifs with h0 hle
    · subst h0
      intro j hj0 hjl
      exact ha.1 j hj0 hjl (by omega)
    · intro j hj0 hjl
      rcases eq_or_ne j i with rfl | hne
      · exact hle
      · exact ha.1 j hj0 hjl hne
    · have hpi : (i - 1) / 2 < i := by omega
      have hpl : (i - 1) / 2 < h.length := lt_trans hpi hi
      have hlt : priAt h i < priAt h ((i - 1) / 2) := lt_of_not_ge hle
      have hw : ∀ k, priAt (hswap h ((i - 1) / 2) i) k =
          if k = (i - 1) / 2 then priAt h i
          else if k = i then priAt h ((i - 1) / 2) else priAt h k :=
        fun k => priAt_hswap h _ i k hpl hi
      have hwp : ∀ k, k ≠ (i - 1) / 2 → k ≠ i →
          priAt (hswap h ((i - 1) / 2) i) k = priAt h k := by
        intro k hk1 hk2
        rw [hw, if_neg hk1, if_neg hk2]
      have hwi : priAt (hswap h ((i - 1) / 2) i) i = priAt h ((i - 1) / 2) := by
        rw [hw, if_neg (by omega), if_pos rfl]
      have hwpar : priAt (hswap h ((i - 1) / 2) i) ((i - 1) / 2) = priAt h i := by
        rw [hw, if_pos rfl]
      have hswlen : (hswap h ((i - 1) / 2) i).length = h.length := hswap_length ..
      apply ih _ hpi _ (by rw [hswlen]; exact hpl)
      constructor
      · intro j hj0 hjl hjp
        rw [hswlen] at hjl
        rcases eq_or_ne j i with rfl | hji
        · rw [hwi, hwpar]
          exact le_of_lt hlt
        · rw [hwp j hjp hji]
          rcases eq_or_ne ((j - 1) / 2) ((i - 1) / 2) with hpp | hpp
          · rw [hpp, hwpar]
            have hbody := ha.1 j hj0 hjl hji
            rw [hpp] at hbody
            exact le_of_lt (lt_of_lt_of_le hlt hbody)
          · rcases eq_or_ne ((j - 1) / 2) i with hpi2 | hpi2
            · rw [hpi2, hwi]
              exact ha.2 (by omega) j hjl hpi2
            · rw [hwp _ hpp hpi2]
              exact ha.1 j hj0 hjl hji
      · intro hp0 c hc hcp
        rw [hswlen] at hc
        have hg1 : ((i - 1) / 2 - 1) / 2 ≠ (i - 1) / 2 := by omega
        have hg2 : ((i - 1) / 2 - 1) / 2 ≠ i := by omega
        rw [hwp _ hg1 hg2]
        have hbase : priAt h (((i - 1) / 2 - 1) / 2) ≤ priAt h ((i - 1) / 2) :=
          ha.1 _ hp0 hpl (by omega)
        rcases eq_or_ne c i with rfl | hci
        · rw [hwi]
          exact hbase
        · have hcpne : c ≠ (i - 1) / 2 := by omega
          rw [hwp c hcpne hci]
          refine le_trans hbase ?_
          have := ha.1 c (by omega) hc (by omega)
          rwa [hcp] at this

theorem priAt_push (h : List HeapEntry) (e : HeapEntry) (i : Nat) (hi : i < h.length) :
    priAt (h ++ [e]) i = priAt h i := by
  simp [priAt_getElem, List.getElem?_append, hi]

theorem heapInsert_perm (h : List HeapEntry) (k : String) (pr : ℚ) :
    List.Perm (heapInsert h k pr) ({ key := k, priority := pr } :: h) := by
  unfold heapInsert
  have hlen : h.length < (h ++ [({ key := k, priority := pr } : HeapEntry)]).length := by simp
  exact (bubbleUp_perm _ _ hlen).trans (List.perm_append_singleton _ _)

theorem heapInsert_heapInv (h : List HeapEntry) (k : String) (pr : ℚ) (hh : HeapInv h) :
    HeapInv (heapInsert h k pr) := by
  unfold heapInsert
  apply bubbleUp_heapInv _ _ (by simp)
  constructor
  · intro j hj0 hjl hne
    have hjh : j < h.length := by
      simp only [List.length_append, List.length_cons, List.length_nil] at hjl
      omega
    have hpj : (j - 1) / 2 < h.length := by omega
    rw [priAt_push _ _ _ hjh, priAt_push _ _ _ hpj]
    exact hh j hj0 hjh
  · intro hi0 c hc hcp
    simp only [List.length_append, List.length_cons, List.length_nil] at hc
    omega

theorem sdChild_spec (h : List HeapEntry) (i : Nat) :
    (priAt h (sdChild h i) ≤ priAt h i) ∧
    (2 * i + 1 < h.length → priAt h (sdChild h i) ≤ priAt h (2 * i + 1)) ∧
    (2 * i + 2 < h.length → priAt h (sdChild h i) ≤ priAt h (2 * i + 2)) ∧
    (sdChild h i = i ∨
      (i < sdChild h i ∧ sdChild h i < h.length ∧ (sdChild h i - 1) / 2 = i ∧
        priAt h (sdChild h i) < priAt h i)) := by
  simp only [sdChild]
  by_cases hL : 2 * i + 1 < h.length ∧ priAt h (2 * i + 1) < priAt h i
  · rw [if_pos hL]
    by_cases hR : 2 * i + 2 < h.length ∧ priAt h (2 * i + 2) < priAt h (2 * i + 1)
    · rw [if_pos hR]
      exact ⟨le_of_lt (lt_trans hR.2 hL.2), fun _ => le_of_lt hR.2, fun _ => le_refl _,
        Or.inr ⟨by omega, hR.1, by omega, lt_trans hR.2 hL.2⟩⟩
    · rw [if_neg hR]
      refine ⟨le_of_lt hL.2, fun _ => le_refl _, fun h2 => ?_,
        Or.inr ⟨by omega, hL.1, by omega, hL.2⟩⟩
      exact le_of_not_lt ((not_and.mp hR) h2)
  · rw [if_neg hL]
    by_cases hR : 2 * i + 2 < h.length ∧ priAt h (2 * i + 2) < priAt h i
    · rw [if_pos hR]
      refine ⟨le_of_lt hR.2, fun h1 => ?_, fun _ => le_refl _,
        Or.inr ⟨by omega, hR.1, by omega, hR.2⟩⟩
      exact le_of_lt (lt_of_lt_of_le hR.2 (le_of_not_lt ((not_and.mp hL) h1)))
    · rw [if_neg hR]
      exact ⟨le_refl _, fun h1 => le_of_not_lt ((not_and.mp hL) h1),
        fun h2 => le_of_not_lt ((not_and.mp hR) h2), Or.inl rfl⟩

theorem sdChild_oob (h : List HeapEntry) (i : Nat) (hle : h.length ≤ i) :
    sdChild h i = i := by
  simp only [sdChild]
  rw [if_neg (fun hcc : 2 * i + 1 < h.length ∧ _ => by omega)]
  rw [if_neg (fun hcc : 2 * i + 2 < h.length ∧ _ => by omega)]

theorem sinkDownF_congr : ∀ f1 f2 : Nat, ∀ (h : List HeapEntry) (i : Nat),
    h.length ≤ f1 + i → h.length ≤ f2 + i → sinkDownF f1 h i = sinkDownF f2 h i := by
  intro f1
  induction f1 with
  | zero =>
    intro f2 h i h1 h2
    have hoob : sdChild h i = i := sdChild_oob h i (by omega)
    show h = sinkDownF f2 h i
    cases f2 with
    | zero => rfl
    | succ g2 =>
      show h = if sdChild h i = i then h else _
      rw [if_pos hoob]
  | succ g ih =>
    intro f2 h i h1 h2
    by_cases hc : sdChild h i = i
    · show (if sdChild h i = i then h else _) = _
      rw [if_pos hc]
      cases f2 with
      | zero => rfl
      | succ g2 =>
        show h = if sdChild h i = i then h else _
        rw [if_pos hc]
    · rcases (sdChild_spec h i).2.2.2 with hceq | ⟨hci, hcl, -, -⟩
      · exact absurd hceq hc
      obtain ⟨g2, rfl⟩ : ∃ g2, f2 = g2 + 1 := ⟨f2 - 1, by omega⟩
      show (if sdChild h i = i then h
            else sinkDownF g (hswap h (sdChild h i) i) (sdChild h i)) =
          (if sdChild h i = i then h
            else sinkDownF g2 (hswap h (sdChild h i) i) (sdChild h i))
      rw [if_neg hc, if_neg hc]
      apply ih
      · rw [hswap_length]
        omega
      · rw [hswap_length]
        omega

theorem sinkDown_eq (h : List HeapEntry) (i : Nat) :
    sinkDown h i =
      if sdChild h i = i then h
      else sinkDown (hswap h (sdChild h i) i) (sdChild h i) := by
  by_cases hc : sdChild h i = i
  · rw [if_pos hc]
    show sinkDownF h.length h i = h
    rcases hn : h.length with - | m
    · rfl
    · show (if sdChild h i = i then h else _) = h
      rw [if_pos hc]
  · rw [if_neg hc]
    rcases (sdChild_spec h i).2.2.2 with hceq | ⟨hci, hcl, -, -⟩
    · exact absurd hceq hc
    obtain ⟨m, hm⟩ : ∃ m, h.length = m + 1 := ⟨h.length - 1, by omega⟩
    show sinkDownF h.length h i = sinkDown (hswap h (sdChild h i) i) (sdChild h i)
    rw [hm]
    show (if sdChild h i = i then h
          else sinkDownF m (hswap h (sdChild h i) i) (sdChild h i)) = _
    rw [if_neg hc]
    apply sinkDownF_congr
    · rw [hswap_length]
      omega
    · rw [hswap_length]
      omega

theorem sinkDown_perm (h : List HeapEntry) (i : Nat) : List.Perm (sinkDown h i) h := by
  generalize hfuel : h.length - i = n
  induction n using Nat.strong_induction_on generalizing h i with
  | _ n ih =>
    rw [sinkDown_eq]
    split_ifs with hs
    · exact List.Perm.refl h
    · rcases (sdChild_spec h i).2.2.2 with he | ⟨hgt, hlt, hpar, hplt⟩
      · exact absurd he hs
      · have hil : i < h.length := lt_trans hgt hlt
        have hswl : (hswap h (sdChild h i) i).length = h.length := hswap_length ..
        subst hfuel
        exact (ih ((hswap h (sdChild h i) i).length - sdChild h i)
            (by rw [hswl]; omega) _ _ rfl).trans
          (hswap_perm h _ i hlt hil)

theorem sinkDown_heapInv (h : List HeapEntry) (i : Nat) (ha : AlmostDown h i) :
    HeapInv (sinkDown h i) := by
  generalize hfuel : h.length - i = n
  induction n using Nat.strong_induction_on generalizing h i with
  | _ n ih =>
    rw [sinkDown_eq]
    split_ifs with hs
    · intro j hj0 hjl
      rcases eq_or_ne ((j - 1) / 2) i with hpj | hpj
      · have hj12 : j = 2 * i + 1 ∨ j = 2 * i + 2 := by omega
        rw [hpj]
        have hspec := sdChild_spec h i
        rw [hs] at hspec
        rcases hj12 with rfl | rfl
        · exact hspec.2.1 hjl
        · exact hspec.2.2.1 hjl
      · exact ha.1 j hj0 hjl hpj
    · rcases (sdChild_spec h i).2.2.2 with he | ⟨hgt, hlt, hpar, hplt⟩
      · exact absurd he hs
      · have hil : i < h.length := lt_trans hgt hlt
        have hswl : (hswap h (sdChild h i) i).length = h.length := hswap_length ..
        have hw : ∀ k, priAt (hswap h (sdChild h i) i) k =
            if k = sdChild h i then priAt h i
            else if k = i then priAt h (sdChild h i) else priAt h k :=
          fun k => priAt_hswap h _ i k hlt hil
        have hwp : ∀ k, k ≠ sdChild h i → k ≠ i →
            priAt (hswap h (sdChild h i) i) k = priAt h k := by
          intro k hk1 hk2
          rw [hw, if_neg hk1, if_neg hk2]
        have hwi : priAt (hswap h (sdChild h i) i) i = priAt h (sdChild h i) := by
          rw [hw, if_neg (by omega), if_pos rfl]
        have hws : priAt (hswap h (sdChild h i) i) (sdChild h i) = priAt h i := by
          rw [hw, if_pos rfl]
        subst hfuel
        apply ih ((hswap h (sdChild h i) i).length - sdChild h i) (by rw [hswl]; omega)
        swap
        · rfl
        constructor
        · intro j hj0 hjl hpj
          rw [hswl] at hjl
          rcases eq_or_ne j (sdChild h i) with rfl | hjs
          · have hp2 : (sdChild h i - 1) / 2 ≠ sdChild h i := by omega
            rw [hws, hpar, hwi]
            exact le_of_lt hplt
          · rcases eq_or_ne j i with hji | hji
            · have hq1 : (i - 1) / 2 ≠ sdChild h i := by omega
              have hq2 : (i - 1) / 2 ≠ i := by omega
              have hj0' : 0 < i := hji ▸ hj0
              rw [hji, hwi, hwp _ hq1 hq2]
              exact ha.2 hj0' _ hlt hpar
            · rw [hwp j hjs hji]
              rcases eq_or_ne ((j - 1) / 2) i with hpji | hpji
              · have hj12 : j = 2 * i + 1 ∨ j = 2 * i + 2 := by omega
                have hlej : priAt h (sdChild h i) ≤ priAt h j := by
                  rcases hj12 with rfl | rfl
                  · exact (sdChild_spec h i).2.1 hjl
                  · exact (sdChild_spec h i).2.2.1 hjl
                rw [hpji, hwi]
                exact hlej
              · rw [hwp _ hpj hpji]
                exact ha.1 j hj0 hjl hpji
        · intro hs0 c hc hcp
          rw [hswl] at hc
          have hci : c ≠ i := by omega
          have hcs : c ≠ sdChild h i := by omega
          have hp1 : (sdChild h i - 1) / 2 ≠ sdChild h i := by omega
          rw [hwp c hcs hci, hpar, hwi]
          have := ha.1 c (by omega) hc (by omega)
          rwa [hcp] at this

theorem extractMin_none (h : List HeapEntry) : extractMin h = none ↔ h = [] := by
  cases h with
  | nil => simp [extractMin]
  | cons x t =>
    cases t with
    | nil => simp [extractMin]
    | cons y rest => simp [extractMin]

theorem priAt_cons_succ (e : HeapEntry) (t : List HeapEntry) (m : Nat) :
    priAt (e :: t) (m + 1) = priAt t m := by
  simp [priAt]

theorem priAt_cons_zero (e : HeapEntry) (t : List HeapEntry) :
    priAt (e :: t) 0 = e.priority := by
  simp [priAt]

theorem priAt_dropLast (t : List HeapEntry) (m : Nat) (hm : m < t.length - 1) :
    priAt t.dropLast m = priAt t m := by
  rw [priAt_getElem, priAt_getElem, List.dropLast_eq_take, List.getElem?_take, if_pos hm]

theorem extractMin_spec (h : List HeapEntry) (k : String) (h' : List HeapEntry)
    (hh : HeapInv h) (he : extractMin h = some (k, h')) :
    ∃ e rest, h = e :: rest ∧ k = e.key ∧ List.Perm h' rest ∧ HeapInv h' ∧
      ∀ en ∈ h, e.priority ≤ en.priority := by
  have hmin : ∀ e rest, h = e :: rest → ∀ en ∈ h, e.priority ≤ en.priority := by
    intro e rest hcons en hmem
    rcases List.getElem?_of_mem hmem with ⟨m, hm⟩
    have hmlt : m < h.length := by
      by_contra hge
      rw [List.getElem?_eq_none (by omega)] at hm
      exact absurd hm (by simp)
    have hpm : priAt h m = en.priority := by
      rw [priAt_getElem, hm]
      rfl
    have hp0 : priAt h 0 = e.priority := by
      rw [hcons, priAt_cons_zero]
    calc e.priority = priAt h 0 := hp0.symm
      _ ≤ priAt h m := root_min h hh m hmlt
      _ = en.priority := hpm
  cases h with
  | nil => exact absurd he (by simp [extractMin])
  | cons x t =>
    cases t with
    | nil =>
      have hke : k = x.key ∧ h' = [] := by
        simp only [extractMin, Option.some.injEq, Prod.mk.injEq] at he
        exact ⟨he.1.symm, he.2.symm⟩
      refine ⟨x, [], rfl, hke.1, ?_, ?_, hmin x [] rfl⟩
      · rw [hke.2]
      · rw [hke.2]
        intro j hj0 hjl
        simp at hjl
    | cons y rest =>
      have hk : k = x.key ∧
          h' = sinkDown ((y :: rest).getLast (List.cons_ne_nil y rest) ::
            (y :: rest).dropLast) 0 := by
        rw [extractMin] at he
        injection he with h1
        injection h1 with h1 h2
        exact ⟨h1.symm, h2.symm⟩
      have htne : (y :: rest : List HeapEntry) ≠ [] := List.cons_ne_nil y rest
      have hLD : (y :: rest).dropLast ++ [(y :: rest).getLast htne] = y :: rest :=
        List.dropLast_append_getLast htne
      have hperm1 : List.Perm
          ((y :: rest).getLast htne :: (y :: rest).dropLast) (y :: rest) := by
        have := (List.perm_append_singleton ((y :: rest).getLast htne)
          ((y :: rest).dropLast)).symm
        rw [hLD] at this
        exact this
      have hlen1 : ((y :: rest).getLast htne :: (y :: rest).dropLast).length =
          (y :: rest).length := hperm1.length_eq
      have hAD : AlmostDown ((y :: rest).getLast htne :: (y :: rest).dropLast) 0 := by
        constructor
        · intro j hj0 hjl hpj
          have hpj0 : 0 < (j - 1) / 2 := Nat.pos_of_ne_zero hpj
          rw [hlen1] at hjl
          have hshift : ∀ m, 0 < m → m < (y :: rest).length →
              priAt ((y :: rest).getLast htne :: (y :: rest).dropLast) m =
                priAt (x :: y :: rest) m := by
            intro m hm0 hml
            obtain ⟨m', rfl⟩ : ∃ m', m = m' + 1 := ⟨m - 1, by omega⟩
            rw [priAt_cons_succ, priAt_cons_succ, priAt_dropLast]
            omega
          rw [hshift j hj0 hjl, hshift _ hpj0 (by omega)]
          exact hh j hj0 (by simp only [List.length_cons] at hjl ⊢; omega)
        · intro h00
          exact absurd h00 (lt_irrefl 0)
      refine ⟨x, y :: rest, rfl, hk.1, ?_, ?_, hmin x (y :: rest) rfl⟩
      · rw [hk.2]
        exact (sinkDown_perm _ _).trans hperm1
      · rw [hk.2]
        exact sinkDown_heapInv _ _ hAD

/-! Lemmas about the graph accessors, weights, paths and ranks. -/

theorem containsKey_findNode (d : GraphData) (x : String) (hc : containsKey d x = true) :
    ∃ n, findNode d x = some n := by
  unfold containsKey at hc
  rw [List.any_eq_true] at hc
  obtain ⟨p, hp, hpx⟩ := hc
  unfold findNode
  have : (d.nodes.find? (fun p => p.1 == x)).isSome = true := by
    rw [List.find?_isSome]
    exact ⟨p, hp, hpx⟩
  rcases Option.isSome_iff_exists.mp this with ⟨p2, hp2⟩
  exact ⟨p2.2, by rw [hp2]; rfl⟩

theorem edgesById_concat (l : List Edge) (e : Edge) (eid : String) :
    edgesById (l ++ [e]) eid = if e.id = eid then some e else edgesById l eid := by
  unfold edgesById
  rw [List.foldl_append]
  rfl

theorem edgesById_mem (l : List Edge) (eid : String) (e : Edge)
    (he : edgesById l eid = some e) : e ∈ l ∧ e.id = eid := by
  induction l using List.reverseRecOn with
  | nil => exact absurd he (by simp [edgesById])
  | append_singleton l f ih =>
    rw [edgesById_concat] at he
    split_ifs at he with hf
    · cases he
      exact ⟨by simp, hf⟩
    · rcases ih he with ⟨h1, h2⟩
      exact ⟨by simp [h1], h2⟩

theorem edgesById_none (l : List Edge) (eid : String)
    (he : edgesById l eid = none) : ∀ e ∈ l, e.id ≠ eid := by
  induction l using List.reverseRecOn with
  | nil => simp
  | append_singleton l f ih =>
    rw [edgesById_concat] at he
    split_ifs at he with hf
    intro e hmem
    simp at hmem
    rcases hmem with hmem | rfl
    · exact ih he e hmem
    · exact hf

theorem edgesById_isSome (l : List Edge) (eid : String) (e : Edge) (hmem : e ∈ l)
    (hid : e.id = eid) : ∃ e2, edgesById l eid = some e2 ∧ e2 ∈ l ∧ e2.id = eid := by
  cases hres : edgesById l eid with
  | none => exact absurd hid (edgesById_none l eid hres e hmem)
  | some e2 =>
    rcases edgesById_mem l eid e2 hres with ⟨h1, h2⟩
    exact ⟨e2, rfl, h1, h2⟩

theorem edgesById_uid (l : List Edge) (hn : (l.map (fun e => e.id)).Nodup) (e : Edge)
    (hmem : e ∈ l) : edgesById l e.id = some e := by
  induction l using List.reverseRecOn with
  | nil => simp at hmem
  | append_singleton l f ih =>
    rw [edgesById_concat]
    rw [List.map_append, List.nodup_append] at hn
    simp only [List.mem_append, List.mem_singleton] at hmem
    rcases hmem with hmem | rfl
    · have hne : f.id ≠ e.id := by
        intro hfe
        exact hn.2.2 (List.mem_map_of_mem _ hmem) (by simp [hfe])
      rw [if_neg hne]
      exact ih hn.1 hmem
    · rw [if_pos rfl]

theorem adjacency_mem (d : GraphData) (u : String) (nb : AdjEntry)
    (hnb : nb ∈ adjacency d u) :
    ∃ e ∈ d.edges, e.source = u ∧ nb.target = e.target ∧ nb.edgeId = e.id := by
  unfold adjacency at hnb
  split_ifs at hnb with hc
  · rcases List.mem_map.mp hnb with ⟨e, he, rfl⟩
    rcases List.mem_filter.mp he with ⟨he2, he3⟩
    exact ⟨e, he2, by simpa using he3, rfl, rfl⟩
  · simp at hnb

theorem adjacency_covers (d : GraphData) (e : Edge) (he : e ∈ d.edges)
    (hc : containsKey d e.source = true) :
    ({ target := e.target, edgeId := e.id } : AdjEntry) ∈ adjacency d e.source := by
  unfold adjacency
  rw [if_pos hc]
  exact List.mem_map_of_mem _ (List.mem_filter.mpr ⟨he, by simp⟩)

theorem slopeSpeeds_pos (dc : Option String) : 0 < slopeSpeeds dc := by
  unfold slopeSpeeds
  split <;> norm_num

theorem liftSpeeds_pos (lt : Option String) : 0 < liftSpeeds lt := by
  unfold liftSpeeds
  split <;> norm_num

theorem weight_nonneg (e : Edge) (excl : List String) (q : ℚ) (hd : 0 ≤ e.distance)
    (hw : calculateWeight e excl = .fin q) : 0 ≤ q := by
  have hslope : 0 ≤ e.distance / slopeSpeeds e.difficulty :=
    div_nonneg hd (slopeSpeeds_pos _).le
  have hlift : 0 ≤ e.distance / liftSpeeds e.liftType + 3 := by
    have := div_nonneg hd (liftSpeeds_pos e.liftType).le
    linarith
  have hfall : 0 ≤ e.distance / 150 := div_nonneg hd (by norm_num)
  unfold calculateWeight at hw
  split_ifs at hw
  all_goals cases hw
  all_goals assumption

theorem chain_snoc (s t : String) (es : List Edge) (e : Edge) :
    edgeChain s t (es ++ [e]) ↔ edgeChain s e.source es ∧ e.target = t := by
  induction es generalizing s with
  | nil =>
    simp only [List.nil_append, edgeChain]
    constructor
    · rintro ⟨h1, h2⟩
      exact ⟨h1.symm, h2⟩
    · rintro ⟨h1, h2⟩
      exact ⟨h1.symm, h2⟩
  | cons f rest ih =>
    simp only [List.cons_append, edgeChain, List.append_eq]
    rw [ih]
    exact and_assoc.symm

theorem costQ_nil (excl : List String) : costQ excl [] = 0 := rfl

theorem costQ_concat (excl : List String) (es : List Edge) (e : Edge) :
    costQ excl (es ++ [e]) = costQ excl es + weightQ e excl := by
  simp [costQ]

theorem weightQ_eq (e : Edge) (excl : List String) (q : ℚ)
    (hw : calculateWeight e excl = .fin q) : weightQ e excl = q := by
  unfold weightQ
  rw [hw]

theorem feasible_nonneg (d : GraphData) (excl : List String) (s t : String)
    (es : List Edge) (hnn : ∀ e ∈ d.edges, 0 ≤ e.distance)
    (hf : IsFeasiblePath d excl s t es) : 0 ≤ costQ excl es := by
  unfold costQ
  apply List.sum_nonneg
  intro q hq
  rcases List.mem_map.mp hq with ⟨e, he, rfl⟩
  rcases hf.2 e he with ⟨hmem, hfin⟩
  cases hcw : calculateWeight e excl with
  | inf => exact absurd hcw hfin
  | fin w =>
    rw [weightQ_eq e excl w hcw]
    exact weight_nonneg e excl w (hnn e hmem) hcw

theorem feasible_snoc (d : GraphData) (excl : List String) (s : String) (es : List Edge)
    (e : Edge) (hf : IsFeasiblePath d excl s e.source es) (he : e ∈ d.edges)
    (hw : calculateWeight e excl ≠ .inf) :
    IsFeasiblePath d excl s e.target (es ++ [e]) := by
  refine ⟨(chain_snoc s e.target es e).mpr ⟨hf.1, rfl⟩, ?_⟩
  intro f hfmem
  rcases List.mem_append.mp hfmem with hfmem | hfmem
  · exact hf.2 f hfmem
  · rw [List.mem_singleton] at hfmem
    subst hfmem
    exact ⟨he, hw⟩

theorem vrank_cons_self (u : String) (l : List String) :
    vrank (u :: l) u = l.length + 1 := by
  unfold vrank
  rw [List.dropWhile_cons]
  simp

theorem vrank_cons_ne (u x : String) (l : List String) (hne : x ≠ u) :
    vrank (u :: l) x = vrank l x := by
  unfold vrank
  rw [List.dropWhile_cons]
  have : (!(u == x)) = true := by simp [Ne.symm hne]
  rw [if_pos this]

theorem vrank_le (l : List String) (x : String) : vrank l x ≤ l.length := by
  unfold vrank
  exact (List.dropWhile_sublist _).length_le

theorem vrank_pos (l : List String) (x : String) (hx : x ∈ l) : 0 < vrank l x := by
  induction l with
  | nil => simp at hx
  | cons u t ih =>
    rcases eq_or_ne x u with rfl | hne
    · rw [vrank_cons_self]
      omega
    · rw [vrank_cons_ne u x t hne]
      exact ih ((List.mem_cons.mp hx).resolve_left hne)

/-! The relaxation step: an exact case analysis of relaxOne, monotonicity of
the dist table, and preservation of the invariants. -/

theorem dLe_refl (a : Option JNum) : dLe a a := Or.inl rfl

theorem dLe_trans (a b c : Option JNum) (h1 : dLe a b) (h2 : dLe b c) : dLe a c := by
  rcases h1 with rfl | ⟨q', ha, hb⟩
  · exact h2
  · rcases h2 with rfl | ⟨q2, hb2, hc⟩
    · exact Or.inr ⟨q', ha, hb⟩
    · rcases hb with hb | ⟨q, hb, hle⟩
      · rw [hb2] at hb
        cases hb
      · rw [hb2] at hb
        injection hb with hb
        cases hb
        rcases hc with hc | ⟨q3, hc, hle3⟩
        · exact Or.inr ⟨q', ha, Or.inl hc⟩
        · exact Or.inr ⟨q', ha, Or.inr ⟨q3, hc, le_trans hle hle3⟩⟩

theorem dLe_fin (a : Option JNum) (q : ℚ) (h : dLe a (some (.fin q))) :
    ∃ q', a = some (.fin q') ∧ q' ≤ q := by
  rcases h with rfl | ⟨q', ha, hb⟩
  · exact ⟨q, rfl, le_refl q⟩
  · rcases hb with hb | ⟨q2, hb, hle⟩
    · cases hb
    · injection hb with hb
      injection hb with hb
      subst hb
      exact ⟨q', ha, hle⟩

theorem relaxOne_spec (d : GraphData) (excl : List String) (u : String) (s : DState)
    (nb : AdjEntry) :
    (relaxOne d excl u s nb = s ∧
      ((edgesById d.edges nb.edgeId = none) ∨
       (∃ e, edgesById d.edges nb.edgeId = some e ∧ calculateWeight e excl = .inf) ∨
       (s.dist u = none ∨ s.dist u = some .inf) ∨
       (∃ e w du, edgesById d.edges nb.edgeId = some e ∧
         calculateWeight e excl = .fin w ∧ s.dist u = some (.fin du) ∧
         finLt (du + w) (s.dist nb.target) = false))) ∨
    (∃ e w du, edgesById d.edges nb.edgeId = some e ∧ calculateWeight e excl = .fin w ∧
      s.dist u = some (.fin du) ∧ finLt (du + w) (s.dist nb.target) = true ∧
      relaxOne d excl u s nb =
        { dist := fun x => if x = nb.target then some (.fin (du + w)) else s.dist x
          prev := fun x => if x = nb.target then some u else s.prev x
          prevEdge := fun x => if x = nb.target then some nb.edgeId else s.prevEdge x
          visited := s.visited
          pq := heapInsert s.pq nb.target (du + w) }) := by
  cases hres : edgesById d.edges nb.edgeId with
  | none =>
    refine Or.inl ⟨?_, Or.inl rfl⟩
    simp only [relaxOne, hres]
  | some e =>
    cases hw : calculateWeight e excl with
    | inf =>
      refine Or.inl ⟨?_, Or.inr (Or.inl ⟨e, rfl, hw⟩)⟩
      simp only [relaxOne, hres, hw]
    | fin w =>
      cases hdu : s.dist u with
      | none =>
        refine Or.inl ⟨?_, Or.inr (Or.inr (Or.inl (Or.inl rfl)))⟩
        simp only [relaxOne, hres, hw, hdu]
      | some du =>
        cases du with
        | inf =>
          refine Or.inl ⟨?_, Or.inr (Or.inr (Or.inl (Or.inr rfl)))⟩
          simp only [relaxOne, hres, hw, hdu]
        | fin duq =>
          by_cases hlt : finLt (duq + w) (s.dist nb.target) = true
          · refine Or.inr ⟨e, w, duq, rfl, hw, rfl, hlt, ?_⟩
            simp only [relaxOne, hres, hw, hdu, hlt, if_true]
          · rw [Bool.not_eq_true] at hlt
            refine Or.inl ⟨?_, Or.inr (Or.inr (Or.inr ⟨e, w, duq, rfl, hw, rfl, hlt⟩))⟩
            simp only [relaxOne, hres, hw, hdu, hlt]
            rw [if_neg (by simp [hlt])]

theorem finLt_true (a : ℚ) (b : Option JNum) :
    finLt a b = true ↔ (b = some .inf ∨ ∃ q, b = some (.fin q) ∧ a < q) := by
  cases b with
  | none => simp [finLt]
  | some j =>
    cases j with
    | inf => simp [finLt]
    | fin q => simp [finLt]

theorem relaxOne_preserve (d : GraphData) (excl : List String) (startId u : String)
    (p : ℚ) (s : DState) (nb : AdjEntry)
    (hEP : EP d) (hNN : NN d)
    (e0 : Edge) (he0 : e0 ∈ d.edges) (htgt : nb.target = e0.target)
    (hW : WalkInv d excl startId s) (hQ : QInv d excl startId s)
    (hdu : s.dist u = some (.fin p)) (huv : u ∈ s.visited)
    (hvle : ∀ v ∈ s.visited, ∀ qv, s.dist v = some (.fin qv) → qv ≤ p) :
    WalkInv d excl startId (relaxOne d excl u s nb) ∧
    QInv d excl startId (relaxOne d excl u s nb) ∧
    (relaxOne d excl u s nb).visited = s.visited ∧
    (∀ v ∈ s.visited, (relaxOne d excl u s nb).dist v = s.dist v) ∧
    (∀ x, dLe ((relaxOne d excl u s nb).dist x) (s.dist x)) ∧
    (relaxOne d excl u s nb).pq.length ≤ s.pq.length + 1 := by
  rcases relaxOne_spec d excl u s nb with ⟨heq, -⟩ | ⟨e, w, du, hres, hw, hduu, hlt, heq⟩
  · rw [heq]
    exact ⟨hW, hQ, rfl, fun v _ => rfl, fun x => dLe_refl _, by omega⟩
  · have hdup : du = p := by
      rw [hdu] at hduu
      injection hduu with h
      injection h with h
      exact h.symm
    subst hdup
    have hemem : e ∈ d.edges := (edgesById_mem d.edges nb.edgeId e hres).1
    have hwnn : 0 ≤ w := weight_nonneg e excl w (hNN e hemem) hw
    have hp0 : 0 ≤ du := hW.nonneg u du hdu
    have htns : nb.target ≠ startId := by
      intro hts
      rw [hts, hW.dstart, finLt_true] at hlt
      rcases hlt with hcon | ⟨q, hq, hlt2⟩
      · cases hcon
      · injection hq with hq
        injection hq with hq
        rw [← hq] at hlt2
        linarith
    have htnv : nb.target ∉ s.visited := by
      intro hmem
      rcases hW.vis_fin _ hmem with ⟨qt, hqt⟩
      have h1 : qt ≤ du := hvle _ hmem qt hqt
      rw [finLt_true] at hlt
      rcases hlt with hcon | ⟨q, hq, hlt2⟩
      · rw [hqt] at hcon
        cases hcon
      · rw [hqt] at hq
        injection hq with hq
        injection hq with hq
        rw [← hq] at hlt2
        linarith
    have htck : containsKey d nb.target = true := by
      rw [htgt]
      exact (hEP e0 he0).2
    have hperm := heapInsert_perm s.pq nb.target (du + w)
    have hmemIns : ∀ en, en ∈ heapInsert s.pq nb.target (du + w) ↔
        en = ⟨nb.target, du + w⟩ ∨ en ∈ s.pq := by
      intro en
      rw [hperm.mem_iff, List.mem_cons]
    have hdist : ∀ x, (relaxOne d excl u s nb).dist x =
        (if x = nb.target then some (JNum.fin (du + w)) else s.dist x) := by
      intro x
      rw [heq]
    have hprev : ∀ x, (relaxOne d excl u s nb).prev x =
        (if x = nb.target then some u else s.prev x) := by
      intro x
      rw [heq]
    have hpe : ∀ x, (relaxOne d excl u s nb).prevEdge x =
        (if x = nb.target then some nb.edgeId else s.prevEdge x) := by
      intro x
      rw [heq]
    have hvis : (relaxOne d excl u s nb).visited = s.visited := by rw [heq]
    have hpq : (relaxOne d excl u s nb).pq = heapInsert s.pq nb.target (du + w) := by
      rw [heq]
    have hdist_other : ∀ x, x ≠ nb.target → (relaxOne d excl u s nb).dist x = s.dist x := by
      intro x hx
      rw [hdist x, if_neg hx]
    have hdist_t : (relaxOne d excl u s nb).dist nb.target = some (JNum.fin (du + w)) := by
      rw [hdist nb.target, if_pos rfl]
    refine ⟨?_, ?_, hvis, ?_, ?_, ?_⟩
    · constructor
      · intro x
        by_cases hx : x = nb.target
        · subst hx
          rw [hdist_t]
          simp only [Option.isSome_some, true_iff]
          exact Or.inl htck
        · rw [hdist_other x hx]
          exact hW.dom x
      · rw [hdist_other startId (fun h => htns h.symm)]
        exact hW.dstart
      · intro x q hq
        by_cases hx : x = nb.target
        · subst hx
          rw [hdist_t] at hq
          injection hq with hq
          injection hq with hq
          rw [← hq]
          linarith
        · rw [hdist_other x hx] at hq
          exact hW.nonneg x q hq
      · rw [hvis]
        exact hW.vis_nodup
      · rw [hvis]
        exact hW.vis_sub
      · rw [hvis]
        intro v hv
        have hvne : v ≠ nb.target := fun h => htnv (h ▸ hv)
        rw [hdist_other v hvne]
        exact hW.vis_fin v hv
      · intro x hx
        by_cases hxt : x = nb.target
        · subst hxt
          exact ⟨htns, du + w, hdist_t⟩
        · rw [hprev x, if_neg hxt] at hx
          rcases hW.prev_dom x hx with ⟨h1, q, hq⟩
          exact ⟨h1, q, by rw [hdist_other x hxt]; exact hq⟩
      · rw [hvis]
        intro x q hxs hq
        by_cases hx : x = nb.target
        · subst hx
          refine ⟨u, nb.edgeId, e, ?_, ?_, hres, hemem, huv, ?_⟩
          · rw [hprev _, if_pos rfl]
          · rw [hpe _, if_pos rfl]
          · intro hmem
            exact absurd hmem htnv
        · rw [hdist_other x hx] at hq
          rcases hW.prevlite x q hxs hq with ⟨u2, eid2, e2, h1, h2, h3, h4, h5, h6⟩
          exact ⟨u2, eid2, e2, by rw [hprev _, if_neg hx]; exact h1,
            by rw [hpe _, if_neg hx]; exact h2, h3, h4, h5, h6⟩
    · constructor
      · rw [hvis, hpq]
        intro x q hxs hq
        by_cases hx : x = nb.target
        · subst hx
          rw [hdist_t] at hq
          injection hq with hq
          injection hq with hq
          exact ⟨⟨nb.target, du + w⟩, (hmemIns _).mpr (Or.inl rfl), rfl, hq⟩
        · rw [hdist_other x hx] at hq
          rcases hQ.frontier x q hxs hq with ⟨en, h1, h2, h3⟩
          exact ⟨en, (hmemIns en).mpr (Or.inr h1), h2, h3⟩
      · rw [hpq]
        intro en hen
        rcases (hmemIns en).mp hen with rfl | hen2
        · exact ⟨du + w, hdist_t, le_refl _⟩
        · rcases hQ.pq_dist en hen2 with ⟨q0, hq0, hle0⟩
          by_cases hk : en.key = nb.target
          · rw [hk] at hq0
            rw [finLt_true] at hlt
            rcases hlt with hcon | ⟨qt, hqt, hlt2⟩
            · rw [hq0] at hcon
              cases hcon
            · rw [hq0] at hqt
              injection hqt with hqt
              injection hqt with hqt
              subst hqt
              refine ⟨du + w, ?_, ?_⟩
              · rw [hk]
                exact hdist_t
              · exact le_trans (le_of_lt hlt2) hle0
          · refine ⟨q0, ?_, hle0⟩
            rw [hdist_other _ hk]
            exact hq0
      · rw [hpq]
        intro en hen
        rcases (hmemIns en).mp hen with rfl | hen2
        · right
          rw [htgt]
          exact List.mem_map_of_mem _ he0
        · exact hQ.pq_keys en hen2
      · rw [hvis, hpq]
        intro v hv qv hqv en hen
        have hvne : v ≠ nb.target := fun h => htnv (h ▸ hv)
        rw [hdist_other v hvne] at hqv
        rcases (hmemIns en).mp hen with rfl | hen2
        · have := hvle v hv qv hqv
          simp only []
          linarith
        · exact hQ.vis_le_pq v hv qv hqv en hen2
      · rw [hpq]
        exact heapInsert_heapInv s.pq nb.target (du + w) hQ.hInv
    · intro v hv
      have hvne : v ≠ nb.target := fun h => htnv (h ▸ hv)
      exact hdist_other v hvne
    · intro x
      by_cases hx : x = nb.target
      · subst hx
        rw [hdist_t]
        rw [finLt_true] at hlt
        rcases hlt with hcon | ⟨qt, hqt, hlt2⟩
        · exact Or.inr ⟨du + w, rfl, Or.inl hcon⟩
        · exact Or.inr ⟨du + w, rfl, Or.inr ⟨qt, hqt, le_of_lt hlt2⟩⟩
      · rw [hdist_other x hx]
        exact dLe_refl _
    · rw [hpq]
      have := hperm.length_eq
      simp only [List.length_cons] at this
      omega

theorem relaxOne_preserve_cost (d : GraphData) (excl : List String) (startId u : String)
    (p : ℚ) (s : DState) (nb : AdjEntry)
    (hEP : EP d) (hNN : NN d) (hUID : UID d)
    (e0 : Edge) (he0 : e0 ∈ d.edges) (hsrc : e0.source = u) (htgt : nb.target = e0.target)
    (hid : nb.edgeId = e0.id)
    (hW : WalkInv d excl startId s) (hQ : QInv d excl startId s)
    (hC : CostInv d excl startId s)
    (hdu : s.dist u = some (.fin p)) (huv : u ∈ s.visited)
    (hvle : ∀ v ∈ s.visited, ∀ qv, s.dist v = some (.fin qv) → qv ≤ p) :
    CostInv d excl startId (relaxOne d excl u s nb) ∧
    (∀ qe, calculateWeight e0 excl = .fin qe →
      ∃ qt, (relaxOne d excl u s nb).dist e0.target = some (.fin qt) ∧ qt ≤ p + qe) := by
  have hres0 : edgesById d.edges nb.edgeId = some e0 := by
    rw [hid]
    exact edgesById_uid d.edges hUID e0 he0
  have hweak := relaxOne_preserve d excl startId u p s nb hEP hNN e0 he0 htgt
    hW hQ hdu huv hvle
  rcases relaxOne_spec d excl u s nb with ⟨heq, hreason⟩ |
    ⟨e, w, du, hres, hw, hduu, hlt, heq⟩
  · rw [heq]
    refine ⟨hC, ?_⟩
    intro qe hqe
    rcases hreason with hnone | ⟨e, hsome, hinf⟩ | hdu2 | ⟨e, w, du, hsome, hwfin, hdu2, hflt⟩
    · rw [hres0] at hnone
      cases hnone
    · rw [hres0] at hsome
      injection hsome with hsome
      subst hsome
      rw [hqe] at hinf
      cases hinf
    · rcases hdu2 with hdu2 | hdu2 <;> rw [hdu] at hdu2 <;> cases hdu2
    · rw [hres0] at hsome
      injection hsome with hsome
      subst hsome
      rw [hqe] at hwfin
      injection hwfin with hwfin
      subst hwfin
      rw [hdu] at hdu2
      injection hdu2 with hdu2
      injection hdu2 with hdu2
      subst hdu2
      have hck : containsKey d e0.target = true := (hEP e0 he0).2
      have hsome2 : ((s.dist e0.target).isSome : Prop) := by
        rw [hW.dom]
        exact Or.inl hck
      rcases Option.isSome_iff_exists.mp hsome2 with ⟨j, hj⟩
      rw [htgt] at hflt
      cases j with
      | inf =>
        rw [hj] at hflt
        simp [finLt] at hflt
      | fin qt =>
        rw [hj] at hflt
        simp only [finLt, decide_eq_false_iff_not, not_lt] at hflt
        exact ⟨qt, hj, by linarith⟩
  · have he_eq : e = e0 := by
      rw [hres0] at hres
      injection hres with hres
      exact hres.symm
    subst he_eq
    have hdup : du = p := by
      rw [hdu] at hduu
      injection hduu with h
      injection h with h
      exact h.symm
    subst hdup
    have htnv : nb.target ∉ s.visited := by
      intro hmem
      rcases hW.vis_fin _ hmem with ⟨qt, hqt⟩
      have h1 : qt ≤ du := hvle _ hmem qt hqt
      have hwnn : 0 ≤ w := weight_nonneg e excl w (hNN e he0) hw
      rw [finLt_true] at hlt
      rcases hlt with hcon | ⟨q2, hq2, hlt2⟩
      · rw [hqt] at hcon
        cases hcon
      · rw [hqt] at hq2
        injection hq2 with hq2
        injection hq2 with hq2
        rw [← hq2] at hlt2
        linarith
    have hdist : ∀ x, (relaxOne d excl u s nb).dist x =
        (if x = nb.target then some (JNum.fin (du + w)) else s.dist x) := by
      intro x
      rw [heq]
    have hprev : ∀ x, (relaxOne d excl u s nb).prev x =
        (if x = nb.target then some u else s.prev x) := by
      intro x
      rw [heq]
    have hpe : ∀ x, (relaxOne d excl u s nb).prevEdge x =
        (if x = nb.target then some nb.edgeId else s.prevEdge x) := by
      intro x
      rw [heq]
    have hvis : (relaxOne d excl u s nb).visited = s.visited := by rw [heq]
    have hdist_other : ∀ x, x ≠ nb.target →
        (relaxOne d excl u s nb).dist x = s.dist x := by
      intro x hx
      rw [hdist x, if_neg hx]
    have hdist_t : (relaxOne d excl u s nb).dist nb.target =
        some (JNum.fin (du + w)) := by
      rw [hdist nb.target, if_pos rfl]
    have hsound_t : ∃ es, IsFeasiblePath d excl startId nb.target es ∧
        costQ excl es = du + w := by
      rcases hC.sound u du hdu with ⟨es_u, hfes, hces⟩
      refine ⟨es_u ++ [e], ?_, ?_⟩
      · rw [htgt]
        apply feasible_snoc d excl startId es_u e _ he0 (by rw [hw]; intro hcon; cases hcon)
        rw [hsrc]
        exact hfes
      · rw [costQ_concat, hces, weightQ_eq e excl w hw]
    refine ⟨?_, ?_⟩
    · constructor
      · intro x q hq
        by_cases hx : x = nb.target
        · subst hx
          rw [hdist_t] at hq
          injection hq with hq
          injection hq with hq
          rw [← hq]
          exact hsound_t
        · rw [hdist_other x hx] at hq
          exact hC.sound x q hq
      · rw [hvis]
        intro v hv q hq
        have hvne : v ≠ nb.target := fun h => htnv (h ▸ hv)
        rw [hdist_other v hvne] at hq
        exact hC.vis_opt v hv q hq
      · intro x q hxs hq
        by_cases hx : x = nb.target
        · subst hx
          rw [hdist_t] at hq
          injection hq with hq
          injection hq with hq
          refine ⟨u, e, w, du, ?_, ?_, ?_, he0, hsrc, htgt.symm, hw, ?_, by rw [hq]⟩
          · rw [hprev _, if_pos rfl]
          · rw [hpe _, if_pos rfl, hid]
          · rw [← hid]
            exact hres0
          · have hune : u ≠ nb.target := fun h => htnv (h ▸ huv)
            rw [hdist_other u hune]
            exact hdu
        · rw [hdist_other x hx] at hq
          rcases hC.prevcost x q hxs hq with
            ⟨u2, e2, qe2, qu2, h1, h2, h3, h4, h5, h6, h7, h8, h9⟩
          rcases hW.prevlite x q hxs hq with ⟨u3, eid3, e3, h1b, h2b, h3b, h4b, h5b, h6b⟩
          have hu23 : u2 = u3 := Option.some.inj (h1.symm.trans h1b)
          subst hu23
          have hu2ne : u2 ≠ nb.target := fun h => htnv (h ▸ h5b)
          refine ⟨u2, e2, qe2, qu2, ?_, ?_, h3, h4, h5, h6, h7, ?_, h9⟩
          · rw [hprev _, if_neg hx]
            exact h1
          · rw [hpe _, if_neg hx]
            exact h2
          · rw [hdist_other u2 hu2ne]
            exact h8
    · intro qe hqe
      rw [hw] at hqe
      injection hqe with hqe
      subst hqe
      rw [← htgt]
      exact ⟨du + w, hdist_t, le_refl _⟩

/-! The relaxation fold over the adjacency records of a visited node. -/

theorem uid_inj (l : List Edge) (hn : (l.map (fun e => e.id)).Nodup) (e1 e2 : Edge)
    (h1 : e1 ∈ l) (h2 : e2 ∈ l) (hid : e1.id = e2.id) : e1 = e2 := by
  have ha := edgesById_uid l hn e1 h1
  have hb := edgesById_uid l hn e2 h2
  rw [hid] at ha
  exact Option.some.inj (ha.symm.trans hb)

theorem closureOn_mono (d : GraphData) (excl : List String) (V : List String)
    (s s2 : DState) (hVs : ∀ v ∈ V, s2.dist v = s.dist v)
    (hdle : ∀ x, dLe (s2.dist x) (s.dist x))
    (hcl : ClosureOn d excl V s) : ClosureOn d excl V s2 := by
  intro v hv e he hsrc qe hwe qu hqu
  rw [hVs v hv] at hqu
  rcases hcl v hv e he hsrc qe hwe qu hqu with ⟨qt, hqt, hle⟩
  rcases dLe_fin _ qt (hqt ▸ hdle e.target) with ⟨qt2, hqt2, hle2⟩
  exact ⟨qt2, hqt2, le_trans hle2 hle⟩

theorem foldRelax (d : GraphData) (excl : List String) (startId u : String) (p : ℚ)
    (hEP : EP d) (hNN : NN d) :
    ∀ (nbs : List AdjEntry) (s : DState),
    (∀ nb ∈ nbs, ∃ e0 ∈ d.edges, e0.source = u ∧ nb.target = e0.target ∧ nb.edgeId = e0.id) →
    WalkInv d excl startId s → QInv d excl startId s →
    s.dist u = some (.fin p) → u ∈ s.visited →
    (∀ v ∈ s.visited, ∀ qv, s.dist v = some (.fin qv) → qv ≤ p) →
    WalkInv d excl startId (nbs.foldl (relaxOne d excl u) s) ∧
    QInv d excl startId (nbs.foldl (relaxOne d excl u) s) ∧
    (nbs.foldl (relaxOne d excl u) s).visited = s.visited ∧
    (∀ v ∈ s.visited, (nbs.foldl (relaxOne d excl u) s).dist v = s.dist v) ∧
    (∀ x, dLe ((nbs.foldl (relaxOne d excl u) s).dist x) (s.dist x)) ∧
    (nbs.foldl (relaxOne d excl u) s).pq.length ≤ s.pq.length + nbs.length := by
  intro nbs
  induction nbs with
  | nil =>
    intro s hcov hW hQ hdu huv hvle
    exact ⟨hW, hQ, rfl, fun v _ => rfl, fun x => dLe_refl _, by simp⟩
  | cons nb rest ih =>
    intro s hcov hW hQ hdu huv hvle
    rcases hcov nb (by simp) with ⟨e0, he0, hsrc0, htgt0, hid0⟩
    obtain ⟨hW1, hQ1, hvis1, hdv1, hdle1, hlen1⟩ :=
      relaxOne_preserve d excl startId u p s nb hEP hNN e0 he0 htgt0 hW hQ hdu huv hvle
    simp only [List.foldl_cons]
    have hdu1 : (relaxOne d excl u s nb).dist u = some (.fin p) := by
      rw [hdv1 u huv]
      exact hdu
    have huv1 : u ∈ (relaxOne d excl u s nb).visited := by
      rw [hvis1]
      exact huv
    have hvle1 : ∀ v ∈ (relaxOne d excl u s nb).visited, ∀ qv,
        (relaxOne d excl u s nb).dist v = some (.fin qv) → qv ≤ p := by
      intro v hv qv hqv
      rw [hvis1] at hv
      rw [hdv1 v hv] at hqv
      exact hvle v hv qv hqv
    obtain ⟨hW2, hQ2, hvis2, hdv2, hdle2, hlen2⟩ :=
      ih (relaxOne d excl u s nb) (fun nb2 h2 => hcov nb2 (by simp [h2])) hW1 hQ1 hdu1 huv1 hvle1
    refine ⟨hW2, hQ2, by rw [hvis2, hvis1], ?_, ?_, ?_⟩
    · intro v hv
      rw [hdv2 v (by rw [hvis1]; exact hv), hdv1 v hv]
    · intro x
      exact dLe_trans _ _ _ (hdle2 x) (hdle1 x)
    · simp only [List.length_cons]
      omega

theorem foldRelax_cost (d : GraphData) (excl : List String) (startId u : String) (p : ℚ)
    (hEP : EP d) (hNN : NN d) (hUID : UID d) :
    ∀ (nbs : List AdjEntry) (s : DState),
    (∀ nb ∈ nbs, ∃ e0 ∈ d.edges, e0.source = u ∧ nb.target = e0.target ∧ nb.edgeId = e0.id) →
    WalkInv d excl startId s → QInv d excl startId s → CostInv d excl startId s →
    s.dist u = some (.fin p) → u ∈ s.visited →
    (∀ v ∈ s.visited, ∀ qv, s.dist v = some (.fin qv) → qv ≤ p) →
    CostInv d excl startId (nbs.foldl (relaxOne d excl u) s) ∧
    ∀ nb ∈ nbs, ∀ e0 ∈ d.edges, nb.edgeId = e0.id →
      ∀ qe, calculateWeight e0 excl = .fin qe →
      ∃ qt, (nbs.foldl (relaxOne d excl u) s).dist e0.target = some (.fin qt) ∧
        qt ≤ p + qe := by
  intro nbs
  induction nbs with
  | nil =>
    intro s hcov hW hQ hC hdu huv hvle
    exact ⟨hC, by simp⟩
  | cons nb rest ih =>
    intro s hcov hW hQ hC hdu huv hvle
    rcases hcov nb (by simp) with ⟨e1, he1, hsrc1, htgt1, hid1⟩
    obtain ⟨hW1, hQ1, hvis1, hdv1, hdle1, hlen1⟩ :=
      relaxOne_preserve d excl startId u p s nb hEP hNN e1 he1 htgt1 hW hQ hdu huv hvle
    obtain ⟨hC1, hrel1⟩ :=
      relaxOne_preserve_cost d excl startId u p s nb hEP hNN hUID e1 he1 hsrc1 htgt1 hid1
        hW hQ hC hdu huv hvle
    simp only [List.foldl_cons]
    have hdu1 : (relaxOne d excl u s nb).dist u = some (.fin p) := by
      rw [hdv1 u huv]
      exact hdu
    have huv1 : u ∈ (relaxOne d excl u s nb).visited := by
      rw [hvis1]
      exact huv
    have hvle1 : ∀ v ∈ (relaxOne d excl u s nb).visited, ∀ qv,
        (relaxOne d excl u s nb).dist v = some (.fin qv) → qv ≤ p := by
      intro v hv qv hqv
      rw [hvis1] at hv
      rw [hdv1 v hv] at hqv
      exact hvle v hv qv hqv
    obtain ⟨hC2, hrel2⟩ :=
      ih (relaxOne d excl u s nb) (fun nb2 h2 => hcov nb2 (by simp [h2]))
        hW1 hQ1 hC1 hdu1 huv1 hvle1
    obtain ⟨-, -, -, -, hdle2, -⟩ :=
      foldRelax d excl startId u p hEP hNN rest (relaxOne d excl u s nb)
        (fun nb2 h2 => hcov nb2 (by simp [h2])) hW1 hQ1 hdu1 huv1 hvle1
    refine ⟨hC2, ?_⟩
    intro nb2 hnb2 e0 he0 hid0 qe hqe
    rcases List.mem_cons.mp hnb2 with rfl | h2
    · have he01 : e0 = e1 := by
        refine uid_inj d.edges hUID e0 e1 he0 he1 ?_
        rw [← hid0]
        exact hid1
      subst he01
      rcases hrel1 qe hqe with ⟨qt, hqt, hle⟩
      rcases dLe_fin _ qt (hqt ▸ hdle2 e0.target) with ⟨qt2, hqt2, hle2⟩
      exact ⟨qt2, hqt2, le_trans hle2 hle⟩
    · exact hrel2 nb2 h2 e0 he0 hid0 qe hqe

/-- Popping an unvisited node u from the queue: its dist value equals the
popped priority, which is minimal over the whole queue, and the state with u
marked visited and the rest of the heap satisfies the loop invariants
again. -/
theorem extract_fresh (d : GraphData) (excl : List String) (startId : String)
    (s : DState) (u : String) (pq1 : List HeapEntry)
    (hW : WalkInv d excl startId s) (hQ : QInv d excl startId s)
    (hex : extractMin s.pq = some (u, pq1)) (hunv : u ∉ s.visited) :
    ∃ p, s.dist u = some (.fin p) ∧
      (∀ en ∈ s.pq, p ≤ en.priority) ∧
      pq1.length + 1 = s.pq.length ∧
      WalkInv d excl startId { s with pq := pq1, visited := u :: s.visited } ∧
      QInv d excl startId { s with pq := pq1, visited := u :: s.visited } ∧
      (∀ v ∈ u :: s.visited, ∀ qv, s.dist v = some (.fin qv) → qv ≤ p) := by
  obtain ⟨e0, rest, hcons, hkey, hperm, hInv1, hmin⟩ :=
    extractMin_spec s.pq u pq1 hQ.hInv hex
  have he0mem : e0 ∈ s.pq := by
    rw [hcons]
    exact List.mem_cons_self _ _
  obtain ⟨qu, hqu, hqule⟩ := hQ.pq_dist e0 he0mem
  rw [← hkey] at hqu
  obtain ⟨en, henm, henk, henp⟩ := hQ.frontier u qu hunv hqu
  have hup : qu = e0.priority := by
    refine le_antisymm hqule ?_
    rw [← henp]
    exact hmin en henm
  have hsub : ∀ en2, en2 ∈ pq1 → en2 ∈ s.pq := by
    intro en2 h2
    rw [hcons]
    exact List.mem_cons_of_mem _ (hperm.mem_iff.mp h2)
  refine ⟨qu, hqu, ?_, ?_, ?_, ?_, ?_⟩
  · intro en2 hen2
    rw [hup]
    exact hmin en2 hen2
  · rw [hcons, hperm.length_eq]
    simp
  · constructor
    · exact hW.dom
    · exact hW.dstart
    · exact hW.nonneg
    · exact List.nodup_cons.mpr ⟨hunv, hW.vis_nodup⟩
    · intro v hv
      rcases List.mem_cons.mp hv with rfl | hv2
      · have := hQ.pq_keys e0 he0mem
        rw [← hkey] at this
        exact this
      · exact hW.vis_sub v hv2
    · intro v hv
      rcases List.mem_cons.mp hv with rfl | hv2
      · exact ⟨qu, hqu⟩
      · exact hW.vis_fin v hv2
    · exact hW.prev_dom
    · intro x q hxs hq
      rcases hW.prevlite x q hxs hq with ⟨u2, eid, e, h1, h2, h3, h4, h5, h6⟩
      have hu2ne : u2 ≠ u := by
        intro h
        exact hunv (h ▸ h5)
      refine ⟨u2, eid, e, h1, h2, h3, h4, List.mem_cons_of_mem _ h5, ?_⟩
      intro hxm
      rcases List.mem_cons.mp hxm with rfl | hx2
      · rw [vrank_cons_self, vrank_cons_ne x u2 _ hu2ne]
        have := vrank_le s.visited u2
        omega
      · have hxne : x ≠ u := by
          intro h
          exact hunv (h ▸ hx2)
        rw [vrank_cons_ne u x _ hxne, vrank_cons_ne u u2 _ hu2ne]
        exact h6 hx2
  · constructor
    · intro x q hx hq
      have hxu : x ≠ u := by
        intro h
        exact hx (h ▸ List.mem_cons_self _ _)
      have hxv : x ∉ s.visited := fun h => hx (List.mem_cons_of_mem _ h)
      rcases hQ.frontier x q hxv hq with ⟨en2, h1, h2, h3⟩
      have hne0 : en2 ≠ e0 := by
        intro h
        apply hxu
        rw [← h2, h, ← hkey]
      have h1b : en2 ∈ rest := by
        rw [hcons] at h1
        exact (List.mem_cons.mp h1).resolve_left hne0
      exact ⟨en2, hperm.mem_iff.mpr h1b, h2, h3⟩
    · intro en2 h2
      exact hQ.pq_dist en2 (hsub en2 h2)
    · intro en2 h2
      exact hQ.pq_keys en2 (hsub en2 h2)
    · intro v hv qv hqv en2 hen2
      have hen2b := hsub en2 hen2
      rcases List.mem_cons.mp hv with rfl | hv2
      · have hquv : qv = qu := by
          rw [hqu] at hqv
          injection hqv with h
          injection h with h
          exact h.symm
        rw [hquv, hup]
        exact hmin en2 hen2b
      · exact hQ.vis_le_pq v hv2 qv hqv en2 hen2b
    · exact hInv1
  · intro v hv qv hqv
    rcases List.mem_cons.mp hv with rfl | hv2
    · rw [hqu] at hqv
      injection hqv with h
      injection h with h
      rw [← h]
    · have := hQ.vis_le_pq v hv2 qv hqv e0 he0mem
      rw [← hup] at this
      exact this

/-- The cut bound: along any feasible path, either the endpoint already has a
finite dist value bounded by the cost of the path, or some unvisited node has
a finite dist value bounded by the cost of the path. -/
theorem path_bound (d : GraphData) (excl : List String) (startId : String)
    (hNN : NN d) (s : DState)
    (hW : WalkInv d excl startId s) (hcl : ClosureOn d excl s.visited s) :
    ∀ es t, IsFeasiblePath d excl startId t es →
      (∃ qt, s.dist t = some (.fin qt) ∧ qt ≤ costQ excl es) ∨
      (∃ x qx, x ∉ s.visited ∧ s.dist x = some (.fin qx) ∧ qx ≤ costQ excl es) := by
  intro es
  induction es using List.reverseRecOn with
  | nil =>
    intro t hfe
    left
    have ht : startId = t := hfe.1
    exact ⟨0, by rw [← ht]; exact hW.dstart, by rw [costQ_nil]⟩
  | append_singleton es e ihe =>
    intro t hfe
    have hchain : edgeChain startId e.source es ∧ e.target = t :=
      (chain_snoc startId t es e).mp hfe.1
    have hemem : e ∈ d.edges := (hfe.2 e (by simp)).1
    have hwfin : calculateWeight e excl ≠ .inf := (hfe.2 e (by simp)).2
    obtain ⟨qe, hqe⟩ : ∃ qe, calculateWeight e excl = .fin qe := by
      cases hcw : calculateWeight e excl with
      | inf => exact absurd hcw hwfin
      | fin w => exact ⟨w, rfl⟩
    have hqe0 : 0 ≤ qe := weight_nonneg e excl qe (hNN e hemem) hqe
    have hwq : weightQ e excl = qe := weightQ_eq e excl qe hqe
    have hfes : IsFeasiblePath d excl startId e.source es :=
      ⟨hchain.1, fun f hf => hfe.2 f (List.mem_append.mpr (Or.inl hf))⟩
    rcases ihe e.source hfes with ⟨qs, hqs, hle⟩ | ⟨x, qx, hx, hqx, hlex⟩
    · by_cases hsv : e.source ∈ s.visited
      · rcases hcl e.source hsv e hemem rfl qe hqe qs hqs with ⟨qt, hqt, hlet⟩
        left
        rw [← hchain.2]
        refine ⟨qt, hqt, ?_⟩
        rw [costQ_concat, hwq]
        linarith
      · right
        refine ⟨e.source, qs, hsv, hqs, ?_⟩
        rw [costQ_concat, hwq]
        linarith
    · right
      refine ⟨x, qx, hx, hqx, ?_⟩
      rw [costQ_concat, hwq]
      linarith

/-! The termination measure of the Dijkstra loop: the heap shrinks on a
stale pop and the unvisited out-degree sum absorbs the heap growth on a
visiting pop. -/

theorem filter_length_or (p q : Edge → Bool) (hpq : ∀ a, ¬(p a = true ∧ q a = true)) :
    ∀ l : List Edge, (l.filter p).length + (l.filter q).length =
      (l.filter (fun a => p a || q a)).length := by
  intro l
  induction l with
  | nil => rfl
  | cons a t ih =>
    rw [List.filter_cons, List.filter_cons, List.filter_cons]
    by_cases hp : p a = true
    · have hq : q a = false := by
        cases hqa : q a
        · rfl
        · exact absurd ⟨hp, hqa⟩ (hpq a)
      rw [if_pos hp, if_neg (by simp [hq]), if_pos (by simp [hp])]
      simp only [List.length_cons]
      omega
    · by_cases hq : q a = true
      · rw [if_neg hp, if_pos hq, if_pos (by simp [hq])]
        simp only [List.length_cons]
        omega
      · rw [if_neg hp, if_neg hq, if_neg (by simp [hp, hq])]
        exact ih

theorem sum_out_eq (es : List Edge) :
    ∀ l : List String, l.Nodup →
      (l.map (fun u => (es.filter (fun e => e.source == u)).length)).sum =
        (es.filter (fun e => l.contains e.source)).length := by
  intro l
  induction l with
  | nil =>
    intro _
    simp
  | cons u t ih =>
    intro hnd
    rw [List.map_cons, List.sum_cons, ih (List.nodup_cons.mp hnd).2]
    have hdis : ∀ e : Edge, ¬((e.source == u) = true ∧ (t.contains e.source) = true) := by
      rintro e ⟨h1, h2⟩
      have hsu : e.source = u := by simpa using h1
      rw [hsu] at h2
      exact (List.nodup_cons.mp hnd).1 (by simpa using h2)
    rw [filter_length_or _ _ hdis es]
    apply congrArg List.length
    apply List.filter_congr
    intro e _
    by_cases h : e.source = u <;> simp [List.contains_cons, h]

theorem containsKey_mem (d : GraphData) (u : String) :
    containsKey d u = true ↔ u ∈ d.nodes.map Prod.fst := by
  unfold containsKey
  rw [List.any_eq_true]
  constructor
  · rintro ⟨p, hp, he⟩
    exact List.mem_map.mpr ⟨p, hp, by simpa using he⟩
  · intro hm
    rcases List.mem_map.mp hm with ⟨p, hp, hpe⟩
    exact ⟨p, hp, by simp [hpe]⟩

theorem adjacency_nil (d : GraphData) (u : String) (hc : ¬ containsKey d u = true) :
    adjacency d u = [] := by
  unfold adjacency
  rw [if_neg hc]

theorem outSum_cons (l : List String) (hl : l.Nodup) (u : String) (hu : u ∈ l)
    (vis : List String) (hunv : u ∉ vis) (f : String → ℕ) :
    ((l.filter (fun x => !(u :: vis).contains x)).map f).sum + f u =
      ((l.filter (fun x => !vis.contains x)).map f).sum := by
  induction l with
  | nil => simp at hu
  | cons a t ih =>
    rcases List.nodup_cons.mp hl with ⟨hat, hndt⟩
    rw [List.filter_cons, List.filter_cons]
    rcases List.mem_cons.mp hu with rfl | hut
    · rw [if_neg (by simp [List.contains_cons]), if_pos (by simpa using hunv)]
      rw [List.map_cons, List.sum_cons]
      have heq : t.filter (fun x => !(u :: vis).contains x) =
          t.filter (fun x => !vis.contains x) := by
        apply List.filter_congr
        intro x hx
        have hxu : x ≠ u := fun h => hat (h ▸ hx)
        simp [List.contains_cons, hxu]
      rw [heq]
      omega
    · have hau : a ≠ u := fun h => hat (h ▸ hut)
      have hcond : (!(u :: vis).contains a) = (!vis.contains a) := by
        simp [List.contains_cons, hau]
      rw [hcond]
      by_cases hav : (!vis.contains a) = true
      · rw [if_pos hav, if_pos hav, List.map_cons, List.sum_cons, List.map_cons, List.sum_cons]
        have := ih hndt hut
        omega
      · rw [if_neg hav, if_neg hav]
        exact ih hndt hut

theorem measure_stale (d : GraphData) (s : DState) (pq1 : List HeapEntry)
    (hlen : pq1.length + 1 = s.pq.length) :
    loopMeasure d { s with pq := pq1 } < loopMeasure d s := by
  have h1 : ({ s with pq := pq1 } : DState).pq = pq1 := rfl
  have h2 : ({ s with pq := pq1 } : DState).visited = s.visited := rfl
  unfold loopMeasure
  rw [h1, h2]
  omega

theorem measure_visit (d : GraphData) (s s2 : DState) (u : String)
    (hunv : u ∉ s.visited) (hvis2 : s2.visited = u :: s.visited)
    (hpqb : s2.pq.length + 1 ≤ s.pq.length + (adjacency d u).length) :
    loopMeasure d s2 < loopMeasure d s := by
  unfold loopMeasure
  rw [hvis2]
  by_cases hc : containsKey d u = true
  · have hmem : u ∈ (d.nodes.map Prod.fst).dedup :=
      List.mem_dedup.mpr ((containsKey_mem d u).mp hc)
    have hkey := outSum_cons (d.nodes.map Prod.fst).dedup (List.nodup_dedup _) u hmem
      s.visited hunv (fun v => (adjacency d v).length)
    omega
  · have hadj : adjacency d u = [] := adjacency_nil d u hc
    rw [hadj] at hpqb
    have hnm : u ∉ (d.nodes.map Prod.fst).dedup :=
      fun h => hc ((containsKey_mem d u).mpr (List.mem_dedup.mp h))
    have heq : ((d.nodes.map Prod.fst).dedup.filter (fun x => !(u :: s.visited).contains x)) =
        ((d.nodes.map Prod.fst).dedup.filter (fun x => !s.visited.contains x)) := by
      apply List.filter_congr
      intro x hx
      have hxu : x ≠ u := fun h => hnm (h ▸ hx)
      simp [List.contains_cons, hxu]
    rw [heq]
    simp only [List.length_nil] at hpqb
    omega

/-! The state at the top of the loop: the invariants hold initially and the
fuel passed by findRoute dominates the termination measure. -/

theorem heapInsert_nil (k : String) (pr : ℚ) :
    heapInsert [] k pr = [{ key := k, priority := pr }] := by
  unfold heapInsert
  rw [bubbleUp_eq]
  simp

theorem init_inv (d : GraphData) (excl : List String) (startId : String) :
    WalkInv d excl startId (initState d startId) ∧
    QInv d excl startId (initState d startId) ∧
    CostInv d excl startId (initState d startId) ∧
    ClosureOn d excl (initState d startId).visited (initState d startId) := by
  have hdist : ∀ x, (initState d startId).dist x = initDist d startId x := fun _ => rfl
  have hpq : (initState d startId).pq = [{ key := startId, priority := 0 }] := by
    have : (initState d startId).pq = heapInsert [] startId 0 := rfl
    rw [this, heapInsert_nil]
  have hstart : initDist d startId startId = some (.fin 0) := by
    unfold initDist
    rw [if_pos rfl]
  have hfin : ∀ x q, initDist d startId x = some (.fin q) → x = startId ∧ q = 0 := by
    intro x q hq
    unfold initDist at hq
    by_cases h1 : x = startId
    · rw [if_pos h1] at hq
      injection hq with h
      injection h with h
      exact ⟨h1, h.symm⟩
    · rw [if_neg h1] at hq
      by_cases h2 : containsKey d x = true
      · rw [if_pos h2] at hq
        cases hq
      · rw [if_neg h2] at hq
        cases hq
  refine ⟨?_, ?_, ?_, ?_⟩
  · constructor
    · intro x
      rw [hdist]
      unfold initDist
      split_ifs with h1 h2
      · simp [h1]
      · simp [h2]
      · simp [h1, h2]
    · rw [hdist]
      exact hstart
    · intro x q hq
      rw [hdist] at hq
      rcases hfin x q hq with ⟨-, rfl⟩
      exact le_refl 0
    · simp [initState]
    · intro u hu
      simp [initState] at hu
    · intro u hu
      simp [initState] at hu
    · intro x hx
      simp [initState] at hx
    · intro x q hxs hq
      rw [hdist] at hq
      exact absurd (hfin x q hq).1 hxs
  · constructor
    · intro x q _ hq
      rw [hdist] at hq
      rcases hfin x q hq with ⟨rfl, rfl⟩
      refine ⟨{ key := x, priority := 0 }, ?_, rfl, rfl⟩
      rw [hpq]
      simp
    · intro en hen
      rw [hpq] at hen
      rw [List.mem_singleton] at hen
      subst hen
      refine ⟨0, ?_, le_refl 0⟩
      rw [hdist]
      exact hstart
    · intro en hen
      rw [hpq] at hen
      rw [List.mem_singleton] at hen
      subst hen
      exact Or.inl rfl
    · intro v hv
      simp [initState] at hv
    · intro j hj0 hjl
      rw [hpq] at hjl
      simp at hjl
      omega
  · constructor
    · intro x q hq
      rw [hdist] at hq
      rcases hfin x q hq with ⟨rfl, rfl⟩
      refine ⟨[], ?_, costQ_nil excl⟩
      exact ⟨rfl, by simp⟩
    · intro v hv
      simp [initState] at hv
    · intro x q hxs hq
      rw [hdist] at hq
      exact absurd (hfin x q hq).1 hxs
  · intro v hv
    simp [initState] at hv

theorem measure_init (d : GraphData) (startId : String) :
    loopMeasure d (initState d startId) < loopFuel d := by
  have h1 : (initState d startId).pq = [{ key := startId, priority := 0 }] := by
    have : (initState d startId).pq = heapInsert [] startId 0 := rfl
    rw [this, heapInsert_nil]
  have h2 : (initState d startId).visited = ([] : List String) := rfl
  have hfilter : ((d.nodes.map Prod.fst).dedup.filter
      (fun x => !([] : List String).contains x)) = (d.nodes.map Prod.fst).dedup := by
    apply List.filter_eq_self.mpr
    intro x _
    simp
  have hmap : ∀ u ∈ (d.nodes.map Prod.fst).dedup,
      (adjacency d u).length = (d.edges.filter (fun e => e.source == u)).length := by
    intro u hu
    unfold adjacency
    rw [if_pos ((containsKey_mem d u).mpr (List.mem_dedup.mp hu))]
    simp
  have hsum := sum_out_eq d.edges (d.nodes.map Prod.fst).dedup (List.nodup_dedup _)
  have hle : (((d.nodes.map Prod.fst).dedup.filter
        (fun x => !([] : List String).contains x)).map
      (fun u => (adjacency d u).length)).sum ≤ d.edges.length := by
    rw [hfilter, List.map_congr_left hmap, hsum]
    exact List.length_filter_le _ _
  unfold loopMeasure loopFuel
  rw [h1, h2]
  simp only [List.length_cons, List.length_nil]
  omega

/-- Popping an already visited node: the queue shrinks and the queue
invariants survive. -/
theorem extract_stale (d : GraphData) (excl : List String) (startId : String)
    (s : DState) (u : String) (pq1 : List HeapEntry)
    (hQ : QInv d excl startId s)
    (hex : extractMin s.pq = some (u, pq1)) (huv : u ∈ s.visited) :
    pq1.length + 1 = s.pq.length ∧
    QInv d excl startId { s with pq := pq1 } := by
  obtain ⟨e0, rest, hcons, hkey, hperm, hInv1, hmin⟩ :=
    extractMin_spec s.pq u pq1 hQ.hInv hex
  have hsub : ∀ en2, en2 ∈ pq1 → en2 ∈ s.pq := by
    intro en2 h2
    rw [hcons]
    exact List.mem_cons_of_mem _ (hperm.mem_iff.mp h2)
  refine ⟨by rw [hcons, hperm.length_eq]; simp, ?_⟩
  constructor
  · intro x q hx hq
    rcases hQ.frontier x q hx hq with ⟨en, h1, h2, h3⟩
    have hne0 : en ≠ e0 := by
      intro h
      apply hx
      have hxu : x = u := by rw [← h2, h, ← hkey]
      rw [hxu]
      exact huv
    have h1b : en ∈ rest := by
      rw [hcons] at h1
      exact (List.mem_cons.mp h1).resolve_left hne0
    exact ⟨en, hperm.mem_iff.mpr h1b, h2, h3⟩
  · intro en hen
    exact hQ.pq_dist en (hsub en hen)
  · intro en hen
    exact hQ.pq_keys en (hsub en hen)
  · intro v hv q hq en hen
    exact hQ.vis_le_pq v hv q hq en (hsub en hen)
  · exact hInv1

/-! The Dijkstra loop: the walk invariant is preserved to the end (weak
form), and with unique edge ids the cost invariant and the optimality lower
bound for the end node hold at the end (strong form). -/

theorem loop_weak (d : GraphData) (excl : List String) (startId endId : String)
    (hEP : EP d) (hNN : NN d) :
    ∀ fuel s, loopMeasure d s < fuel →
    WalkInv d excl startId s → QInv d excl startId s →
    WalkInv d excl startId (dijkstraLoop d excl endId fuel s) := by
  intro fuel
  induction fuel with
  | zero =>
    intro s hm
    exact absurd hm (by omega)
  | succ f ih =>
    intro s hm hW hQ
    cases hex : extractMin s.pq with
    | none =>
      have hstep : dijkstraLoop d excl endId (f + 1) s = s := by
        rw [dijkstraLoop, hex]
      rw [hstep]
      exact hW
    | some up =>
      obtain ⟨u, pq1⟩ := up
      have hred : dijkstraLoop d excl endId (f + 1) s =
          (if u = endId then { s with pq := pq1 }
           else if s.visited.contains u then dijkstraLoop d excl endId f { s with pq := pq1 }
           else dijkstraLoop d excl endId f (processNode d excl u pq1 s)) := by
        rw [dijkstraLoop, hex]
        rfl
      by_cases hend : u = endId
      · have hstep : dijkstraLoop d excl endId (f + 1) s = { s with pq := pq1 } := by
          rw [hred, if_pos hend]
        rw [hstep]
        exact { dom := hW.dom, dstart := hW.dstart, nonneg := hW.nonneg,
                vis_nodup := hW.vis_nodup, vis_sub := hW.vis_sub, vis_fin := hW.vis_fin,
                prev_dom := hW.prev_dom, prevlite := hW.prevlite }
      · by_cases hvb : s.visited.contains u = true
        · have hstep : dijkstraLoop d excl endId (f + 1) s =
              dijkstraLoop d excl endId f { s with pq := pq1 } := by
            rw [hred, if_neg hend, if_pos hvb]
          rw [hstep]
          have huv : u ∈ s.visited := by simpa using hvb
          obtain ⟨hlen, hQ1⟩ := extract_stale d excl startId s u pq1 hQ hex huv
          have hW1 : WalkInv d excl startId { s with pq := pq1 } :=
            { dom := hW.dom, dstart := hW.dstart, nonneg := hW.nonneg,
              vis_nodup := hW.vis_nodup, vis_sub := hW.vis_sub, vis_fin := hW.vis_fin,
              prev_dom := hW.prev_dom, prevlite := hW.prevlite }
          refine ih { s with pq := pq1 } ?_ hW1 hQ1
          have := measure_stale d s pq1 hlen
          omega
        · have hstep : dijkstraLoop d excl endId (f + 1) s =
              dijkstraLoop d excl endId f (processNode d excl u pq1 s) := by
            rw [hred, if_neg hend, if_neg hvb]
          rw [hstep]
          have hunv : u ∉ s.visited := fun h => hvb (by simpa using h)
          obtain ⟨p, hdu, hminq, hlen, hW1, hQ1, hvle⟩ :=
            extract_fresh d excl startId s u pq1 hW hQ hex hunv
          obtain ⟨hW2, hQ2, hvis2, hdv2, hdle2, hlen2⟩ :=
            foldRelax d excl startId u p hEP hNN (adjacency d u)
              { s with pq := pq1, visited := u :: s.visited }
              (fun nb hnb => adjacency_mem d u nb hnb) hW1 hQ1 hdu
              (List.mem_cons_self _ _) hvle
          have hs1pq : ({ s with pq := pq1, visited := u :: s.visited } : DState).pq = pq1 :=
            rfl
          rw [hs1pq] at hlen2
          have hb : (processNode d excl u pq1 s).pq.length ≤
              pq1.length + (adjacency d u).length := hlen2
          refine ih (processNode d excl u pq1 s) ?_ hW2 hQ2
          have hmv := measure_visit d s (processNode d excl u pq1 s) u hunv hvis2
            (by omega)
          omega

theorem loop_strong (d : GraphData) (excl : List String) (startId endId : String)
    (hEP : EP d) (hNN : NN d) (hUID : UID d) :
    ∀ fuel s, loopMeasure d s < fuel →
    WalkInv d excl startId s → QInv d excl startId s → CostInv d excl startId s →
    ClosureOn d excl s.visited s →
    WalkInv d excl startId (dijkstraLoop d excl endId fuel s) ∧
    CostInv d excl startId (dijkstraLoop d excl endId fuel s) ∧
    EndLB d excl startId endId (dijkstraLoop d excl endId fuel s) := by
  intro fuel
  induction fuel with
  | zero =>
    intro s hm
    exact absurd hm (by omega)
  | succ f ih =>
    intro s hm hW hQ hC hcl
    cases hex : extractMin s.pq with
    | none =>
      have hstep : dijkstraLoop d excl endId (f + 1) s = s := by
        rw [dijkstraLoop, hex]
      rw [hstep]
      refine ⟨hW, hC, ?_⟩
      have hpq : s.pq = [] := (extractMin_none s.pq).mp hex
      intro es hfe
      rcases path_bound d excl startId hNN s hW hcl es endId hfe with
        ⟨qt, hqt, hle⟩ | ⟨x, qx, hx, hqx, hlex⟩
      · exact ⟨qt, hqt, hle⟩
      · rcases hQ.frontier x qx hx hqx with ⟨en, henm, -, -⟩
        rw [hpq] at henm
        simp at henm
    | some up =>
      obtain ⟨u, pq1⟩ := up
      have hred : dijkstraLoop d excl endId (f + 1) s =
          (if u = endId then { s with pq := pq1 }
           else if s.visited.contains u then dijkstraLoop d excl endId f { s with pq := pq1 }
           else dijkstraLoop d excl endId f (processNode d excl u pq1 s)) := by
        rw [dijkstraLoop, hex]
        rfl
      obtain ⟨e0, rest, hcons, hkey, hperm, hInv1, hmin⟩ :=
        extractMin_spec s.pq u pq1 hQ.hInv hex
      have he0mem : e0 ∈ s.pq := by
        rw [hcons]
        exact List.mem_cons_self _ _
      by_cases hend : u = endId
      · have hstep : dijkstraLoop d excl endId (f + 1) s = { s with pq := pq1 } := by
          rw [hred, if_pos hend]
        rw [hstep]
        refine ⟨{ dom := hW.dom, dstart := hW.dstart, nonneg := hW.nonneg,
                  vis_nodup := hW.vis_nodup, vis_sub := hW.vis_sub, vis_fin := hW.vis_fin,
                  prev_dom := hW.prev_dom, prevlite := hW.prevlite },
                ⟨hC.sound, hC.vis_opt, hC.prevcost⟩, ?_⟩
        obtain ⟨q0, hq0, hq0le⟩ := hQ.pq_dist e0 he0mem
        have hq0e : s.dist endId = some (.fin q0) := by
          rw [← hend, hkey]
          exact hq0
        intro es hfe
        rcases path_bound d excl startId hNN s hW hcl es endId hfe with
          ⟨qt, hqt, hle⟩ | ⟨x, qx, hx, hqx, hlex⟩
        · exact ⟨qt, hqt, hle⟩
        · rcases hQ.frontier x qx hx hqx with ⟨en, henm, -, henp⟩
          refine ⟨q0, hq0e, ?_⟩
          have h1 : e0.priority ≤ en.priority := hmin en henm
          rw [henp] at h1
          linarith
      · by_cases hvb : s.visited.contains u = true
        · have hstep : dijkstraLoop d excl endId (f + 1) s =
              dijkstraLoop d excl endId f { s with pq := pq1 } := by
            rw [hred, if_neg hend, if_pos hvb]
          rw [hstep]
          have huv : u ∈ s.visited := by simpa using hvb
          obtain ⟨hlen, hQ1⟩ := extract_stale d excl startId s u pq1 hQ hex huv
          have hW1 : WalkInv d excl startId { s with pq := pq1 } :=
            { dom := hW.dom, dstart := hW.dstart, nonneg := hW.nonneg,
              vis_nodup := hW.vis_nodup, vis_sub := hW.vis_sub, vis_fin := hW.vis_fin,
              prev_dom := hW.prev_dom, prevlite := hW.prevlite }
          have hC1 : CostInv d excl startId { s with pq := pq1 } :=
            ⟨hC.sound, hC.vis_opt, hC.prevcost⟩
          have hcl1 : ClosureOn d excl ({ s with pq := pq1 } : DState).visited
              { s with pq := pq1 } := hcl
          refine ih { s with pq := pq1 } ?_ hW1 hQ1 hC1 hcl1
          have := measure_stale d s pq1 hlen
          omega
        · have hstep : dijkstraLoop d excl endId (f + 1) s =
              dijkstraLoop d excl endId f (processNode d excl u pq1 s) := by
            rw [hred, if_neg hend, if_neg hvb]
          rw [hstep]
          have hunv : u ∉ s.visited := fun h => hvb (by simpa using h)
          obtain ⟨p, hdu, hminq, hlen, hW1, hQ1, hvle⟩ :=
            extract_fresh d excl startId s u pq1 hW hQ hex hunv
          have hopt_u : ∀ es, IsFeasiblePath d excl startId u es → p ≤ costQ excl es := by
            intro es hfe
            rcases path_bound d excl startId hNN s hW hcl es u hfe with
              ⟨qt, hqt, hle⟩ | ⟨x, qx, hx, hqx, hlex⟩
            · rw [hdu] at hqt
              injection hqt with h
              injection h with h
              rw [h]
              exact hle
            · rcases hQ.frontier x qx hx hqx with ⟨en, henm, -, henp⟩
              have h1 := hminq en henm
              rw [henp] at h1
              linarith
          have hC1 : CostInv d excl startId
              { s with pq := pq1, visited := u :: s.visited } := by
            refine ⟨hC.sound, ?_, hC.prevcost⟩
            intro v hv q hq es hfe
            rcases List.mem_cons.mp hv with rfl | hv2
            · have hq2 : s.dist v = some (.fin q) := hq
              rw [hdu] at hq2
              injection hq2 with h
              injection h with h
              rw [← h]
              exact hopt_u es hfe
            · exact hC.vis_opt v hv2 q hq es hfe
          obtain ⟨hW2, hQ2, hvis2, hdv2, hdle2, hlen2⟩ :=
            foldRelax d excl startId u p hEP hNN (adjacency d u)
              { s with pq := pq1, visited := u :: s.visited }
              (fun nb hnb => adjacency_mem d u nb hnb) hW1 hQ1 hdu
              (List.mem_cons_self _ _) hvle
          obtain ⟨hC2, hrel2⟩ :=
            foldRelax_cost d excl startId u p hEP hNN hUID (adjacency d u)
              { s with pq := pq1, visited := u :: s.visited }
              (fun nb hnb => adjacency_mem d u nb hnb) hW1 hQ1 hC1 hdu
              (List.mem_cons_self _ _) hvle
          have hcl2 : ClosureOn d excl (processNode d excl u pq1 s).visited
              (processNode d excl u pq1 s) := by
            have hvev : (processNode d excl u pq1 s).visited = u :: s.visited := hvis2
            rw [hvev]
            intro v hv e he hsrc qe hqe qv hqv
            rcases List.mem_cons.mp hv with rfl | hv2
            · have hnb : ({ target := e.target, edgeId := e.id } : AdjEntry) ∈
                  adjacency d v := by
                have hadj := adjacency_covers d e he (hEP e he).1
                rw [hsrc] at hadj
                exact hadj
              rcases hrel2 _ hnb e he rfl qe hqe with ⟨qt, hqt, hle⟩
              have hduf : (processNode d excl v pq1 s).dist v = some (.fin p) :=
                (hdv2 v (List.mem_cons_self _ _)).trans hdu
              rw [hduf] at hqv
              injection hqv with h
              injection h with h
              rw [h] at hle
              exact ⟨qt, hqt, hle⟩
            · exact closureOn_mono d excl s.visited s (processNode d excl u pq1 s)
                (fun v2 hv2b => hdv2 v2 (List.mem_cons_of_mem _ hv2b)) hdle2 hcl
                v hv2 e he hsrc qe hqe qv hqv
          have hs1pq : ({ s with pq := pq1, visited := u :: s.visited } : DState).pq = pq1 :=
            rfl
          rw [hs1pq] at hlen2
          have hb : (processNode d excl u pq1 s).pq.length ≤
              pq1.length + (adjacency d u).length := hlen2
          refine ih (processNode d excl u pq1 s) ?_ hW2 hQ2 hC2 hcl2
          have hmv := measure_visit d s (processNode d excl u pq1 s) u hunv hvis2
            (by omega)
          omega

/-! The backward reconstruction walk: with the walk invariant it terminates
and reaches the start node, and with the cost invariant it follows a feasible
path whose cost is the dist value of the end node. -/

theorem nodup_subset_length (l l2 : List String) (h : l.Nodup) (hs : l ⊆ l2) :
    l.length ≤ l2.length := by
  have h1 : l.toFinset.card = l.length := List.toFinset_card_of_nodup h
  have h2 : l.toFinset ⊆ l2.toFinset := by
    intro a ha
    rw [List.mem_toFinset] at ha ⊢
    exact hs ha
  have h3 := Finset.card_le_card h2
  have h4 := l2.toFinset_card_le
  omega

theorem visited_bound (d : GraphData) (excl : List String) (startId : String) (s : DState)
    (hW : WalkInv d excl startId s) : s.visited.length ≤ d.edges.length + 1 := by
  have hsub : s.visited ⊆ startId :: d.edges.map (fun e => e.target) := by
    intro v hv
    rcases hW.vis_sub v hv with h | h
    · rw [h]
      exact List.mem_cons_self _ _
    · exact List.mem_cons_of_mem _ h
  have := nodup_subset_length s.visited (startId :: d.edges.map (fun e => e.target))
    hW.vis_nodup hsub
  simp only [List.length_cons, List.length_map] at this
  omega

theorem walkBack_self (prev prevEdge : String → Option String) (startId : String)
    (fuel : Nat) :
    walkBack prev prevEdge startId fuel startId = some ([startId], []) := by
  rw [walkBack.eq_def]
  split
  rw [if_pos rfl]

theorem walkBack_zero (prev prevEdge : String → Option String) (startId current : String)
    (hc : current ≠ startId) :
    walkBack prev prevEdge startId 0 current = none := by
  rw [walkBack.eq_def]
  split
  rw [if_neg hc]

theorem walkBack_succ (prev prevEdge : String → Option String) (startId : String)
    (f : Nat) (current : String) (hc : current ≠ startId) (p eid : String)
    (hp : prev current = some p) (he : prevEdge current = some eid) :
    walkBack prev prevEdge startId (f + 1) current =
      (match walkBack prev prevEdge startId f p with
       | some (path, eids) => some (path ++ [current], eids ++ [eid])
       | none => none) := by
  rw [walkBack.eq_def]
  split
  rw [if_neg hc, hp, he]

theorem walkBack_stuck (prev prevEdge : String → Option String) (startId : String)
    (f : Nat) (current : String) (hc : current ≠ startId)
    (hp : prev current = none) :
    walkBack prev prevEdge startId (f + 1) current = none := by
  rw [walkBack.eq_def]
  split
  rw [if_neg hc, hp]

theorem walkBack_weak (d : GraphData) (excl : List String) (startId : String)
    (s : DState) (hW : WalkInv d excl startId s) :
    ∀ fuel x, wrank s.visited x ≤ fuel →
    (x = startId ∨ ∃ q, s.dist x = some (.fin q)) →
    ∃ path eids, walkBack s.prev s.prevEdge startId fuel x = some (startId :: path, eids) ∧
      ∀ eid ∈ eids, ∃ e, edgesById d.edges eid = some e ∧ e ∈ d.edges := by
  intro fuel
  induction fuel using Nat.strong_induction_on with
  | _ fuel ih =>
    intro x hrank hx
    by_cases hxs : x = startId
    · subst hxs
      refine ⟨[], [], walkBack_self _ _ _ _, by simp⟩
    · rcases hx with hx | ⟨q, hq⟩
      · exact absurd hx hxs
      rcases hW.prevlite x q hxs hq with ⟨u, eid, e, hprev, hpe, hlook, hemem, huvis, hrk⟩
      have hwr : wrank s.visited u < wrank s.visited x := by
        unfold wrank
        rw [if_pos huvis]
        by_cases hxv : x ∈ s.visited
        · rw [if_pos hxv]
          exact hrk hxv
        · rw [if_neg hxv]
          have := vrank_le s.visited u
          omega
      have hne0 : 1 ≤ wrank s.visited x := by
        unfold wrank
        split_ifs with hxv
        · exact vrank_pos s.visited x hxv
        · omega
      obtain ⟨f, rfl⟩ : ∃ f, fuel = f + 1 := ⟨fuel - 1, by omega⟩
      have hdu : ∃ qu, s.dist u = some (.fin qu) := hW.vis_fin u huvis
      obtain ⟨path, eids, hwb, hall⟩ :=
        ih f (by omega) u (by omega) (Or.inr hdu)
      refine ⟨path ++ [x], eids ++ [eid], ?_, ?_⟩
      · rw [walkBack_succ s.prev s.prevEdge startId f x hxs u eid hprev hpe, hwb]
        simp
      · intro eid2 hm
        rcases List.mem_append.mp hm with hm | hm
        · exact hall eid2 hm
        · rw [List.mem_singleton] at hm
          subst hm
          exact ⟨e, hlook, hemem⟩

theorem walkBack_strong (d : GraphData) (excl : List String) (startId : String)
    (s : DState) (hW : WalkInv d excl startId s) (hC : CostInv d excl startId s) :
    ∀ fuel x, wrank s.visited x ≤ fuel →
    ∀ q, s.dist x = some (.fin q) →
    ∃ es, IsFeasiblePath d excl startId x es ∧ costQ excl es = q ∧
      walkBack s.prev s.prevEdge startId fuel x =
        some (startId :: es.map (fun e => e.target), es.map (fun e => e.id)) := by
  intro fuel
  induction fuel using Nat.strong_induction_on with
  | _ fuel ih =>
    intro x hrank q hq
    by_cases hxs : x = startId
    · subst hxs
      rw [hW.dstart] at hq
      injection hq with h
      injection h with h
      refine ⟨[], ⟨rfl, by simp⟩, ?_, ?_⟩
      · rw [costQ_nil]
        exact h
      · rw [walkBack_self]
        simp
    · rcases hC.prevcost x q hxs hq with
        ⟨u, e, qe, qu, h1, h2, h3, h4, h5, h6, h7, h8, h9⟩
      rcases hW.prevlite x q hxs hq with ⟨u2, eid2, e2, g1, g2, g3, g4, g5, g6⟩
      have hu2 : u2 = u := Option.some.inj (g1.symm.trans h1)
      have g5b : u ∈ s.visited := by
        rw [← hu2]
        exact g5
      have g6b : x ∈ s.visited → vrank s.visited u < vrank s.visited x := by
        rw [← hu2]
        exact g6
      have hwr : wrank s.visited u < wrank s.visited x := by
        unfold wrank
        rw [if_pos g5b]
        by_cases hxv : x ∈ s.visited
        · rw [if_pos hxv]
          exact g6b hxv
        · rw [if_neg hxv]
          have := vrank_le s.visited u
          omega
      have hne0 : 1 ≤ wrank s.visited x := by
        unfold wrank
        split_ifs with hxv
        · exact vrank_pos s.visited x hxv
        · omega
      obtain ⟨f, rfl⟩ : ∃ f, fuel = f + 1 := ⟨fuel - 1, by omega⟩
      obtain ⟨es_u, hfes, hcost, hwb⟩ := ih f (by omega) u (by omega) qu h8
      have hfes2 : IsFeasiblePath d excl startId e.source es_u := by
        rw [h5]
        exact hfes
      have hwne : calculateWeight e excl ≠ .inf := by
        rw [h7]
        intro hcon
        cases hcon
      have hfeas : IsFeasiblePath d excl startId x (es_u ++ [e]) := by
        rw [← h6]
        exact feasible_snoc d excl startId es_u e hfes2 h4 hwne
      refine ⟨es_u ++ [e], hfeas, ?_, ?_⟩
      · rw [costQ_concat, hcost, weightQ_eq e excl qe h7]
        exact h9
      · rw [walkBack_succ s.prev s.prevEdge startId f x hxs u e.id h1 h2, hwb]
        simp [h6]

/-! The route assembly of findRoute: the steps map, the shape of the path,
and an unfolding of findRoute past the same-location check. -/

theorem buildSteps_weak (edges : List Edge) (excl : List String) :
    ∀ eids : List String, (∀ eid ∈ eids, ∃ e, edgesById edges eid = some e) →
    ∃ steps, buildSteps edges excl eids = some steps ∧
      ∀ st ∈ steps, ∃ e, edgesById edges st.edgeId = some e ∧ e ∈ edges ∧
        st = mkStep e excl := by
  intro eids
  induction eids with
  | nil =>
    intro _
    exact ⟨[], rfl, by simp⟩
  | cons eid rest ih =>
    intro hcov
    obtain ⟨e, he⟩ := hcov eid (by simp)
    obtain ⟨steps, hs, hall⟩ := ih (fun eid2 h2 => hcov eid2 (by simp [h2]))
    have hstep : buildSteps edges excl (eid :: rest) =
        (match edgesById edges eid, buildSteps edges excl rest with
         | some e, some l => some (mkStep e excl :: l)
         | _, _ => none) := rfl
    obtain ⟨hemem, hid⟩ := edgesById_mem edges eid e he
    refine ⟨mkStep e excl :: steps, ?_, ?_⟩
    · rw [hstep, he, hs]
    · intro st hm
      rcases List.mem_cons.mp hm with rfl | hm2
      · refine ⟨e, ?_, hemem, rfl⟩
        have hje : (mkStep e excl).edgeId = e.id := rfl
        rw [hje, hid]
        exact he
      · exact hall st hm2

theorem buildSteps_uid (d : GraphData) (excl : List String) (hUID : UID d) :
    ∀ es : List Edge, (∀ e ∈ es, e ∈ d.edges) →
    buildSteps d.edges excl (es.map (fun e => e.id)) =
      some (es.map (fun e => mkStep e excl)) := by
  intro es
  induction es with
  | nil => intro _; rfl
  | cons e rest ih =>
    intro hall
    have hstep : buildSteps d.edges excl (e.id :: rest.map (fun e => e.id)) =
        (match edgesById d.edges e.id, buildSteps d.edges excl (rest.map (fun e => e.id)) with
         | some e2, some l => some (mkStep e2 excl :: l)
         | _, _ => none) := rfl
    rw [List.map_cons, List.map_cons, hstep, edgesById_uid d.edges hUID e (hall e (by simp)),
      ih (fun e2 h2 => hall e2 (by simp [h2]))]

theorem chain_getLast (s t : String) (es : List Edge) (hch : edgeChain s t es) :
    (s :: es.map (fun e => e.target)).getLast? = some t := by
  induction es generalizing s with
  | nil =>
    have hst : s = t := hch
    simp [hst]
  | cons e rest ih =>
    have h1 : e.source = s ∧ edgeChain e.target t rest := hch
    rw [List.map_cons, List.getLast?_cons_cons]
    exact ih e.target h1.2

theorem stepsLink_build (d : GraphData) (excl : List String) (hUID : UID d)
    (t : String) :
    ∀ es s, edgeChain s t es →
    (∀ e ∈ es, e ∈ d.edges ∧ calculateWeight e excl ≠ .inf) →
    StepsLink d excl (s :: es.map (fun e => e.target)) (es.map (fun e => mkStep e excl)) := by
  intro es
  induction es with
  | nil =>
    intro s _ _
    show True
    trivial
  | cons e rest ih =>
    intro s hch hall
    have h1 : e.source = s ∧ edgeChain e.target t rest := hch
    rw [List.map_cons, List.map_cons]
    refine ⟨⟨e, ?_, h1.1, rfl, (hall e (by simp)).2⟩, ?_⟩
    · have hje : (mkStep e excl).edgeId = e.id := rfl
      rw [hje]
      exact edgesById_uid d.edges hUID e (hall e (by simp)).1
    · exact ih e.target h1.2 (fun e2 h2 => hall e2 (by simp [h2]))

theorem routeEdges_eq (d : GraphData) (excl : List String) (hUID : UID d) (r : Route)
    (es : List Edge) (hst : r.steps = es.map (fun e => mkStep e excl))
    (hmem : ∀ e ∈ es, e ∈ d.edges) : routeEdges d r = es := by
  rw [routeEdges, hst]
  clear hst
  induction es with
  | nil => rfl
  | cons e rest ih =>
    rw [List.map_cons, List.filterMap_cons]
    have hje : (mkStep e excl).edgeId = e.id := rfl
    rw [hje, edgesById_uid d.edges hUID e (hmem e (by simp))]
    rw [ih (fun e2 h2 => hmem e2 (by simp [h2]))]

theorem findRoute_eq (d : GraphData) (startId endId : String) (excl : List String)
    (hst : ¬ startId = endId) :
    findRoute d startId endId excl =
      (if (dijkstraLoop d excl endId (loopFuel d) (initState d startId)).dist endId
          = some .inf then .noRoute
       else
         match walkBack (dijkstraLoop d excl endId (loopFuel d) (initState d startId)).prev
             (dijkstraLoop d excl endId (loopFuel d) (initState d startId)).prevEdge
             startId (loopFuel d) endId with
         | none => .abnormal
         | some (path, eids) =>
           match buildSteps d.edges excl eids with
           | none => .abnormal
           | some steps =>
             match buildElevationProfile d path steps with
             | none => .abnormal
             | some prof =>
               .route { path := path, steps := steps, elevationProfile := prof,
                        summary :=
                          { totalDistance := jsRound (stepTotals steps).totalDistance
                            totalTime := jnRound (stepTotals steps).totalTime
                            totalUp := jsRound (stepTotals steps).totalUp
                            totalDown := jsRound (stepTotals steps).totalDown
                            stepCount := steps.length } }) := by
  rw [findRoute, if_neg hst]

/-- Soundness and optimality of a returned route: under data-model
well-formedness, a route returned by findRoute traverses a feasible path
from start to end whose cost is minimal among all feasible paths. -/
theorem sound_route (d : GraphData) (startId endId : String) (excl : List String)
    (hEP : EP d) (hNN : NN d) (hUID : UID d) (r : Route)
    (hr : findRoute d startId endId excl = .route r) :
    ∃ es, routeEdges d r = es ∧
      r.path = startId :: es.map (fun e => e.target) ∧
      r.steps = es.map (fun e => mkStep e excl) ∧
      IsFeasiblePath d excl startId endId es ∧
      (∀ es2, IsFeasiblePath d excl startId endId es2 →
        costQ excl es ≤ costQ excl es2) ∧
      (∃ n0, findNode d startId = some n0) := by
  by_cases hst : startId = endId
  · rw [findRoute, if_pos hst] at hr
    cases hr
  · rw [findRoute_eq d startId endId excl hst] at hr
    obtain ⟨hWI, hQI, hCI, hclI⟩ := init_inv d excl startId
    obtain ⟨hWF2, hCF, hLB⟩ := loop_strong d excl startId endId hEP hNN hUID
      (loopFuel d) (initState d startId) (measure_init d startId) hWI hQI hCI hclI
    by_cases hinf : (dijkstraLoop d excl endId (loopFuel d) (initState d startId)).dist endId
        = some .inf
    · rw [if_pos hinf] at hr
      cases hr
    · rw [if_neg hinf] at hr
      cases hwb : walkBack
          (dijkstraLoop d excl endId (loopFuel d) (initState d startId)).prev
          (dijkstraLoop d excl endId (loopFuel d) (initState d startId)).prevEdge
          startId (loopFuel d) endId with
      | none =>
        rw [hwb] at hr
        have hr2 : RouteResult.abnormal = RouteResult.route r := hr
        cases hr2
      | some pe =>
        obtain ⟨path, eids⟩ := pe
        rw [hwb] at hr
        have hr2 : (match buildSteps d.edges excl eids with
            | none => RouteResult.abnormal
            | some steps =>
              match buildElevationProfile d path steps with
              | none => RouteResult.abnormal
              | some prof =>
                RouteResult.route
                  { path := path
                    steps := steps
                    elevationProfile := prof
                    summary :=
                      { totalDistance := jsRound (stepTotals steps).totalDistance
                        totalTime := jnRound (stepTotals steps).totalTime
                        totalUp := jsRound (stepTotals steps).totalUp
                        totalDown := jsRound (stepTotals steps).totalDown
                        stepCount := steps.length } }) = RouteResult.route r := hr
        obtain ⟨f, hf⟩ : ∃ f, loopFuel d = f + 1 :=
          ⟨d.edges.length + d.nodes.length + 2, by unfold loopFuel; omega⟩
        cases hprev : (dijkstraLoop d excl endId (loopFuel d) (initState d startId)).prev
            endId with
        | none =>
          nth_rewrite 3 [hf] at hwb
          rw [walkBack_stuck _ _ startId f endId (fun h => hst h.symm) hprev] at hwb
          cases hwb
        | some p0 =>
          obtain ⟨-, q, hq⟩ := hWF2.prev_dom endId (by rw [hprev]; rfl)
          have hwr : wrank
              (dijkstraLoop d excl endId (loopFuel d) (initState d startId)).visited endId
              ≤ loopFuel d := by
            have hvb := visited_bound d excl startId _ hWF2
            have hlf : loopFuel d = d.edges.length + d.nodes.length + 3 := rfl
            unfold wrank
            split_ifs with hxv
            · have := vrank_le
                (dijkstraLoop d excl endId (loopFuel d) (initState d startId)).visited endId
              omega
            · omega
          obtain ⟨es, hfes, hcost, hwb2⟩ := walkBack_strong d excl startId _ hWF2 hCF
            (loopFuel d) endId hwr q hq
          rw [hwb2] at hwb
          have hpatheq : startId :: es.map (fun e => e.target) = path :=
            congrArg Prod.fst (Option.some.inj hwb)
          have heidseq : es.map (fun e => e.id) = eids :=
            congrArg Prod.snd (Option.some.inj hwb)
          have hmemall : ∀ e ∈ es, e ∈ d.edges := fun e he => (hfes.2 e he).1
          rw [← heidseq, buildSteps_uid d excl hUID es hmemall] at hr2
          have hr3 : (match buildElevationProfile d path
                (es.map (fun e => mkStep e excl)) with
              | none => RouteResult.abnormal
              | some prof =>
                RouteResult.route
                  { path := path
                    steps := es.map (fun e => mkStep e excl)
                    elevationProfile := prof
                    summary :=
                      { totalDistance :=
                          jsRound (stepTotals (es.map (fun e => mkStep e excl))).totalDistance
                        totalTime :=
                          jnRound (stepTotals (es.map (fun e => mkStep e excl))).totalTime
                        totalUp :=
                          jsRound (stepTotals (es.map (fun e => mkStep e excl))).totalUp
                        totalDown :=
                          jsRound (stepTotals (es.map (fun e => mkStep e excl))).totalDown
                        stepCount := (es.map (fun e => mkStep e excl)).length } })
              = RouteResult.route r := hr2
          cases hprof : buildElevationProfile d path (es.map (fun e => mkStep e excl)) with
          | none =>
            rw [hprof] at hr3
            have hr4 : RouteResult.abnormal = RouteResult.route r := hr3
            cases hr4
          | some prof =>
            rw [hprof] at hr3
            have hr4 : RouteResult.route
                { path := path
                  steps := es.map (fun e => mkStep e excl)
                  elevationProfile := prof
                  summary :=
                    { totalDistance :=
                        jsRound (stepTotals (es.map (fun e => mkStep e excl))).totalDistance
                      totalTime :=
                        jnRound (stepTotals (es.map (fun e => mkStep e excl))).totalTime
                      totalUp :=
                        jsRound (stepTotals (es.map (fun e => mkStep e excl))).totalUp
                      totalDown :=
                        jsRound (stepTotals (es.map (fun e => mkStep e excl))).totalDown
                      stepCount := (es.map (fun e => mkStep e excl)).length } }
                = RouteResult.route r := hr3
            injection hr4 with h
            have hn0 : ∃ n0, findNode d startId = some n0 := by
              rw [← hpatheq] at hprof
              cases hfn : findNode d startId with
              | none =>
                simp only [buildElevationProfile, hfn] at hprof
                exact Option.noConfusion hprof
              | some n0 => exact ⟨n0, rfl⟩
            refine ⟨es, ?_, ?_, ?_, hfes, ?_, hn0⟩
            · refine routeEdges_eq d excl hUID r es ?_ hmemall
              rw [← h]
            · rw [← h]
              exact hpatheq.symm
            · rw [← h]
            · intro es2 hfe2
              obtain ⟨q3, hq3, hle3⟩ := hLB es2 hfe2
              have hqq : q3 = q := by
                rw [hq] at hq3
                injection hq3 with hh
                injection hh with hh
                exact hh.symm
              rw [hcost, ← hqq]
              exact hle3

/-! The elevation profile: the build succeeds whenever the node lookups it
performs succeed. -/

theorem profileStep_some (d : GraphData) (points : List ProfilePoint) (cum : ℚ) (st : Step)
    (htn : ∃ n, findNode d st.targetNode = some n)
    (hsn : ∃ n, findNode d st.sourceNode = some n) :
    ∃ res, profileStep d (some (points, cum)) st = some res := by
  obtain ⟨tn, htn⟩ := htn
  obtain ⟨sn, hsn⟩ := hsn
  cases hres : profileStep d (some (points, cum)) st with
  | some res => exact ⟨res, rfl⟩
  | none =>
    exfalso
    cases hg : st.geometry with
    | none =>
      simp only [profileStep, htn, hg] at hres
      exact Option.noConfusion hres
    | some geom =>
      by_cases hlen : 2 < geom.length
      · simp only [profileStep, htn, hg, if_pos hlen, hsn] at hres
        exact Option.noConfusion hres
      · simp only [profileStep, htn, hg, if_neg hlen] at hres
        exact Option.noConfusion hres

theorem profile_fold_some (d : GraphData) :
    ∀ (steps : List Step) (points : List ProfilePoint) (cum : ℚ),
    (∀ st ∈ steps, (∃ n, findNode d st.targetNode = some n) ∧
      (∃ n, findNode d st.sourceNode = some n)) →
    ∃ res, steps.foldl (profileStep d) (some (points, cum)) = some res := by
  intro steps
  induction steps with
  | nil =>
    intro points cum _
    exact ⟨(points, cum), rfl⟩
  | cons st rest ih =>
    intro points cum hall
    obtain ⟨res1, hres1⟩ := profileStep_some d points cum st
      (hall st (by simp)).1 (hall st (by simp)).2
    obtain ⟨pts1, cum1⟩ := res1
    obtain ⟨res, hres⟩ := ih pts1 cum1 (fun st2 h2 => hall st2 (by simp [h2]))
    refine ⟨res, ?_⟩
    rw [List.foldl_cons, hres1, hres]

theorem buildElevationProfile_some (d : GraphData) (p0 : String) (rest : List String)
    (steps : List Step)
    (h0 : ∃ n0, findNode d p0 = some n0)
    (hall : ∀ st ∈ steps, (∃ n, findNode d st.targetNode = some n) ∧
      (∃ n, findNode d st.sourceNode = some n)) :
    ∃ prof, buildElevationProfile d (p0 :: rest) steps = some prof := by
  obtain ⟨n0, hn0⟩ := h0
  obtain ⟨res, hres⟩ := profile_fold_some d steps
    [{ distance := 0, elevation := n0.ele, nodeId := some p0, isNode := true,
       type := none, difficulty := none }] 0 hall
  refine ⟨res.1, ?_⟩
  simp only [buildElevationProfile, hn0, hres]
  rfl

/-- Completeness of findRoute: under data-model well-formedness, with a
start node present in the node map and a feasible path to a distinct end
node, findRoute returns a route. -/
theorem complete_route (d : GraphData) (startId endId : String) (excl : List String)
    (hEP : EP d) (hNN : NN d) (hUID : UID d)
    (hst : ¬ startId = endId)
    (hn0 : ∃ n0, findNode d startId = some n0)
    (es0 : List Edge) (hfe0 : IsFeasiblePath d excl startId endId es0) :
    ∃ r, findRoute d startId endId excl = .route r := by
  obtain ⟨hWI, hQI, hCI, hclI⟩ := init_inv d excl startId
  obtain ⟨hWF2, hCF, hLB⟩ := loop_strong d excl startId endId hEP hNN hUID
    (loopFuel d) (initState d startId) (measure_init d startId) hWI hQI hCI hclI
  obtain ⟨q0, hq0, -⟩ := hLB es0 hfe0
  have hninf : ¬ (dijkstraLoop d excl endId (loopFuel d) (initState d startId)).dist endId
      = some .inf := by
    intro h
    rw [hq0] at h
    injection h with h2
    cases h2
  have hwr : wrank
      (dijkstraLoop d excl endId (loopFuel d) (initState d startId)).visited endId
      ≤ loopFuel d := by
    have hvb := visited_bound d excl startId _ hWF2
    have hlf : loopFuel d = d.edges.length + d.nodes.length + 3 := rfl
    unfold wrank
    split_ifs with hxv
    · have := vrank_le
        (dijkstraLoop d excl endId (loopFuel d) (initState d startId)).visited endId
      omega
    · omega
  obtain ⟨es, hfes, hcost, hwb2⟩ := walkBack_strong d excl startId _ hWF2 hCF
    (loopFuel d) endId hwr q0 hq0
  have hmemall : ∀ e ∈ es, e ∈ d.edges := fun e he => (hfes.2 e he).1
  have hsteps := buildSteps_uid d excl hUID es hmemall
  have hprofall : ∀ st ∈ es.map (fun e => mkStep e excl),
      (∃ n, findNode d st.targetNode = some n) ∧
      (∃ n, findNode d st.sourceNode = some n) := by
    intro st hm
    rcases List.mem_map.mp hm with ⟨e, he, rfl⟩
    have hee := hmemall e he
    exact ⟨containsKey_findNode d e.target (hEP e hee).2,
      containsKey_findNode d e.source (hEP e hee).1⟩
  obtain ⟨prof, hprof⟩ := buildElevationProfile_some d startId
    (es.map (fun e => e.target)) (es.map (fun e => mkStep e excl)) hn0 hprofall
  refine ⟨{ path := startId :: es.map (fun e => e.target)
            steps := es.map (fun e => mkStep e excl)
            elevationProfile := prof
            summary :=
              { totalDistance :=
                  jsRound (stepTotals (es.map (fun e => mkStep e excl))).totalDistance
                totalTime :=
                  jnRound (stepTotals (es.map (fun e => mkStep e excl))).totalTime
                totalUp :=
                  jsRound (stepTotals (es.map (fun e => mkStep e excl))).totalUp
                totalDown :=
                  jsRound (stepTotals (es.map (fun e => mkStep e excl))).totalDown
                stepCount := (es.map (fun e => mkStep e excl)).length } }, ?_⟩
  rw [findRoute_eq d startId endId excl hst, if_neg hninf, hwb2]
  show (match buildSteps d.edges excl (es.map (fun (e : Edge) => e.id)) with
      | none => RouteResult.abnormal
      | some steps =>
        match buildElevationProfile d (startId :: es.map (fun (e : Edge) => e.target)) steps with
        | none => RouteResult.abnormal
        | some prof =>
          RouteResult.route
            { path := startId :: es.map (fun (e : Edge) => e.target)
              steps := steps
              elevationProfile := prof
              summary :=
                { totalDistance := jsRound (stepTotals steps).totalDistance
                  totalTime := jnRound (stepTotals steps).totalTime
                  totalUp := jsRound (stepTotals steps).totalUp
                  totalDown := jsRound (stepTotals steps).totalDown
                  stepCount := steps.length } }) = _
  rw [hsteps]
  show (match buildElevationProfile d (startId :: es.map (fun (e : Edge) => e.target))
        (es.map (fun (e : Edge) => mkStep e excl)) with
      | none => RouteResult.abnormal
      | some prof =>
        RouteResult.route
          { path := startId :: es.map (fun (e : Edge) => e.target)
            steps := es.map (fun (e : Edge) => mkStep e excl)
            elevationProfile := prof
            summary :=
              { totalDistance :=
                  jsRound (stepTotals (es.map (fun (e : Edge) => mkStep e excl))).totalDistance
                totalTime :=
                  jnRound (stepTotals (es.map (fun (e : Edge) => mkStep e excl))).totalTime
                totalUp :=
                  jsRound (stepTotals (es.map (fun (e : Edge) => mkStep e excl))).totalUp
                totalDown :=
                  jsRound (stepTotals (es.map (fun (e : Edge) => mkStep e excl))).totalDown
                stepCount := (es.map (fun (e : Edge) => mkStep e excl)).length } }) = _
  rw [hprof]

/-- Absence of abnormal executions: when every edge endpoint is a node key,
distances are nonnegative, and both trip endpoints are node keys, findRoute
terminates with a returned value (one of the two error objects or a
route). -/
theorem no_abnormal (d : GraphData) (startId endId : String) (excl : List String)
    (hEP : EP d) (hNN : NN d)
    (hs : containsKey d startId = true) (he : containsKey d endId = true) :
    findRoute d startId endId excl ≠ .abnormal := by
  by_cases hst : startId = endId
  · rw [findRoute, if_pos hst]
    intro h
    cases h
  · rw [findRoute_eq d startId endId excl hst]
    obtain ⟨hWI, hQI, hCI, hclI⟩ := init_inv d excl startId
    have hWF2 := loop_weak d excl startId endId hEP hNN (loopFuel d) (initState d startId)
      (measure_init d startId) hWI hQI
    by_cases hinf : (dijkstraLoop d excl endId (loopFuel d) (initState d startId)).dist endId
        = some .inf
    · rw [if_pos hinf]
      intro h
      cases h
    · rw [if_neg hinf]
      have hdsome : ((dijkstraLoop d excl endId (loopFuel d)
          (initState d startId)).dist endId).isSome = true :=
        (hWF2.dom endId).mpr (Or.inl he)
      obtain ⟨j, hj⟩ := Option.isSome_iff_exists.mp hdsome
      obtain ⟨q, hq⟩ : ∃ q, (dijkstraLoop d excl endId (loopFuel d)
          (initState d startId)).dist endId = some (.fin q) := by
        cases j with
        | inf => exact absurd hj hinf
        | fin q => exact ⟨q, hj⟩
      have hwr : wrank
          (dijkstraLoop d excl endId (loopFuel d) (initState d startId)).visited endId
          ≤ loopFuel d := by
        have hvb := visited_bound d excl startId _ hWF2
        have hlf : loopFuel d = d.edges.length + d.nodes.length + 3 := rfl
        unfold wrank
        split_ifs with hxv
        · have := vrank_le
            (dijkstraLoop d excl endId (loopFuel d) (initState d startId)).visited endId
          omega
        · omega
      obtain ⟨path, eids, hwb, hall⟩ := walkBack_weak d excl startId _ hWF2
        (loopFuel d) endId hwr (Or.inr ⟨q, hq⟩)
      rw [hwb]
      obtain ⟨steps, hsteps, hstall⟩ := buildSteps_weak d.edges excl eids
        (fun eid hm => (hall eid hm).imp (fun e h2 => h2.1))
      show (match buildSteps d.edges excl eids with
          | none => RouteResult.abnormal
          | some steps =>
            match buildElevationProfile d (startId :: path) steps with
            | none => RouteResult.abnormal
            | some prof =>
              RouteResult.route
                { path := startId :: path
                  steps := steps
                  elevationProfile := prof
                  summary :=
                    { totalDistance := jsRound (stepTotals steps).totalDistance
                      totalTime := jnRound (stepTotals steps).totalTime
                      totalUp := jsRound (stepTotals steps).totalUp
                      totalDown := jsRound (stepTotals steps).totalDown
                      stepCount := steps.length } }) ≠ RouteResult.abnormal
      rw [hsteps]
      have hprofall : ∀ st ∈ steps, (∃ n, findNode d st.targetNode = some n) ∧
          (∃ n, findNode d st.sourceNode = some n) := by
        intro st hm
        obtain ⟨e, hlook, hmem, rfl⟩ := hstall st hm
        exact ⟨containsKey_findNode d e.target (hEP e hmem).2,
          containsKey_findNode d e.source (hEP e hmem).1⟩
      obtain ⟨prof, hprof⟩ := buildElevationProfile_some d startId path steps
        (containsKey_findNode d startId hs) hprofall
      show (match buildElevationProfile d (startId :: path) steps with
          | none => RouteResult.abnormal
          | some prof =>
            RouteResult.route
              { path := startId :: path
                steps := steps
                elevationProfile := prof
                summary :=
                  { totalDistance := jsRound (stepTotals steps).totalDistance
                    totalTime := jnRound (stepTotals steps).totalTime
                    totalUp := jsRound (stepTotals steps).totalUp
                    totalDown := jsRound (stepTotals steps).totalDown
                    stepCount := steps.length } }) ≠ RouteResult.abnormal
      rw [hprof]
      intro h
      cases h

/-! The elevation profile facts behind the profile claim: sample count,
monotone distances and the exact final distance. -/

theorem append_target_facts (points : List ProfilePoint) (dnew : ℚ) (tpt : ProfilePoint)
    (htd : tpt.distance = dnew)
    (hub : ∀ pt ∈ points, pt.distance ≤ dnew)
    (hch : List.Chain' (fun a b => a.distance ≤ b.distance) points) :
    (points ++ [tpt] ≠ []) ∧
    points.length + 1 ≤ (points ++ [tpt]).length ∧
    (∀ pt ∈ points ++ [tpt], pt.distance ≤ dnew) ∧
    List.Chain' (fun a b => a.distance ≤ b.distance) (points ++ [tpt]) ∧
    (points ++ [tpt]).getLast?.map (fun pt => pt.distance) = some dnew := by
  refine ⟨by simp, by simp, ?_, ?_, ?_⟩
  · intro pt hpt
    rcases List.mem_append.mp hpt with hpt | hpt
    · exact hub pt hpt
    · rw [List.mem_singleton] at hpt
      subst hpt
      exact le_of_eq htd
  · rw [List.chain'_append]
    refine ⟨hch, by simp, ?_⟩
    intro x hx y hy
    have hxm : x ∈ points := List.mem_of_mem_getLast? hx
    have hym : y = tpt := by
      simp only [List.head?_cons, Option.mem_def, Option.some.injEq] at hy
      exact hy.symm
    subst hym
    rw [htd]
    exact hub x hxm
  · rw [List.getLast?_append_of_ne_nil]
    · simp [htd]
    · simp

theorem profileStep_facts (d : GraphData) (points : List ProfilePoint) (cum : ℚ) (st : Step)
    (hd : 0 ≤ st.distance)
    (hub : ∀ pt ∈ points, pt.distance ≤ cum)
    (hch : List.Chain' (fun a b => a.distance ≤ b.distance) points) :
    ∀ res2, profileStep d (some (points, cum)) st = some res2 →
    res2.2 = cum + st.distance ∧
    res2.1 ≠ [] ∧
    points.length + 1 ≤ res2.1.length ∧
    (∀ pt ∈ res2.1, pt.distance ≤ res2.2) ∧
    List.Chain' (fun a b => a.distance ≤ b.distance) res2.1 ∧
    res2.1.getLast?.map (fun pt => pt.distance) = some res2.2 := by
  intro res2 hres
  have hub2 : ∀ pt ∈ points, pt.distance ≤ cum + st.distance := by
    intro pt hpt
    have := hub pt hpt
    linarith
  cases htn : findNode d st.targetNode with
  | none =>
    simp only [profileStep, htn] at hres
    exact Option.noConfusion hres
  | some tn =>
    cases hg : st.geometry with
    | none =>
      simp only [profileStep, htn, hg] at hres
      obtain rfl := Option.some.inj hres
      obtain ⟨h1, h2, h3, h4, h5⟩ := append_target_facts points (cum + st.distance)
        { distance := cum + st.distance, elevation := tn.ele,
          nodeId := some st.targetNode, isNode := true,
          type := some st.type, difficulty := st.difficulty }
        rfl hub2 hch
      exact ⟨rfl, h1, h2, h3, h4, h5⟩
    | some geom =>
      by_cases hlen : 2 < geom.length
      · cases hsn : findNode d st.sourceNode with
        | none =>
          simp only [profileStep, htn, hg, if_pos hlen, hsn] at hres
          exact Option.noConfusion hres
        | some sn =>
          simp only [profileStep, htn, hg, if_pos hlen, hsn] at hres
          obtain rfl := Option.some.inj hres
          have hL3 : (3 : ℕ) ≤ geom.length := hlen
          have hL3q : (3:ℚ) ≤ (geom.length : ℚ) := by exact_mod_cast hL3
          have hLpos : (0:ℚ) < (geom.length : ℚ) - 1 := by linarith
          have hfr0 : ∀ k : ℕ, (0:ℚ) ≤ ((k + 1 : ℕ) : ℚ) / ((geom.length : ℚ) - 1) := by
            intro k
            apply div_nonneg _ (le_of_lt hLpos)
            positivity
          have hfr1 : ∀ k : ℕ, k < geom.length - 2 →
              ((k + 1 : ℕ) : ℚ) / ((geom.length : ℚ) - 1) ≤ 1 := by
            intro k hk
            rw [div_le_one hLpos]
            have h2 : (k + 2 : ℕ) ≤ geom.length := by omega
            have h3 : ((k + 2 : ℕ) : ℚ) ≤ ((geom.length : ℕ) : ℚ) := by exact_mod_cast h2
            push_cast at h3 ⊢
            linarith
          have hub_mid : ∀ pt ∈ points ++ (List.range (geom.length - 2)).map (fun k =>
              ({ distance := cum + st.distance * (((k + 1 : ℕ) : ℚ) / ((geom.length : ℚ) - 1))
                 elevation := ((jsRound (sn.ele + (tn.ele - sn.ele) *
                   (((k + 1 : ℕ) : ℚ) / ((geom.length : ℚ) - 1))) : ℤ) : ℚ)
                 nodeId := none
                 isNode := false
                 type := some st.type
                 difficulty := st.difficulty } : ProfilePoint)),
              pt.distance ≤ cum + st.distance := by
            intro pt hpt
            rcases List.mem_append.mp hpt with hpt | hpt
            · exact hub2 pt hpt
            · rcases List.mem_map.mp hpt with ⟨k, hk, rfl⟩
              have hkb := List.mem_range.mp hk
              show cum + st.distance * (((k + 1 : ℕ) : ℚ) / ((geom.length : ℚ) - 1))
                ≤ cum + st.distance
              have := mul_le_of_le_one_right hd (hfr1 k hkb)
              linarith
          have hch_mid : List.Chain' (fun a b => a.distance ≤ b.distance)
              (points ++ (List.range (geom.length - 2)).map (fun k =>
              ({ distance := cum + st.distance * (((k + 1 : ℕ) : ℚ) / ((geom.length : ℚ) - 1))
                 elevation := ((jsRound (sn.ele + (tn.ele - sn.ele) *
                   (((k + 1 : ℕ) : ℚ) / ((geom.length : ℚ) - 1))) : ℤ) : ℚ)
                 nodeId := none
                 isNode := false
                 type := some st.type
                 difficulty := st.difficulty } : ProfilePoint))) := by
            rw [List.chain'_append]
            refine ⟨hch, ?_, ?_⟩
            · rw [List.chain'_map]
              cases hn : geom.length - 2 with
              | zero => simp
              | succ m =>
                rw [List.chain'_range_succ]
                intro i hi
                show cum + st.distance * (((i + 1 : ℕ) : ℚ) / ((geom.length : ℚ) - 1))
                  ≤ cum + st.distance * (((i + 1 + 1 : ℕ) : ℚ) / ((geom.length : ℚ) - 1))
                have hdiv : ((i + 1 : ℕ) : ℚ) / ((geom.length : ℚ) - 1)
                    ≤ ((i + 1 + 1 : ℕ) : ℚ) / ((geom.length : ℚ) - 1) := by
                  apply (div_le_div_iff_of_pos_right hLpos).mpr
                  exact_mod_cast Nat.le_succ (i + 1)
                have := mul_le_mul_of_nonneg_left hdiv hd
                linarith
            · intro x hx y hy
              have hxm : x ∈ points := List.mem_of_mem_getLast? hx
              have hym := List.mem_of_mem_head? hy
              rcases List.mem_map.mp hym with ⟨k, hk, rfl⟩
              show x.distance ≤ cum + st.distance * (((k + 1 : ℕ) : ℚ) / ((geom.length : ℚ) - 1))
              have h0 : (0:ℚ) ≤ st.distance * (((k + 1 : ℕ) : ℚ) / ((geom.length : ℚ) - 1)) :=
                mul_nonneg hd (hfr0 k)
              have := hub x hxm
              linarith
          obtain ⟨h1, h2, h3, h4, h5⟩ := append_target_facts
            (points ++ (List.range (geom.length - 2)).map (fun k =>
              ({ distance := cum + st.distance * (((k + 1 : ℕ) : ℚ) / ((geom.length : ℚ) - 1))
                 elevation := ((jsRound (sn.ele + (tn.ele - sn.ele) *
                   (((k + 1 : ℕ) : ℚ) / ((geom.length : ℚ) - 1))) : ℤ) : ℚ)
                 nodeId := none
                 isNode := false
                 type := some st.type
                 difficulty := st.difficulty } : ProfilePoint)))
            (cum + st.distance)
            { distance := cum + st.distance, elevation := tn.ele,
              nodeId := some st.targetNode, isNode := true,
              type := some st.type, difficulty := st.difficulty }
            rfl hub_mid hch_mid
          refine ⟨rfl, h1, ?_, h3, h4, h5⟩
          have := h2
          simp only [List.length_append, List.length_map, List.length_range] at this ⊢
          omega
      · simp only [profileStep, htn, hg, if_neg hlen] at hres
        obtain rfl := Option.some.inj hres
        obtain ⟨h1, h2, h3, h4, h5⟩ := append_target_facts points (cum + st.distance)
          { distance := cum + st.distance, elevation := tn.ele,
            nodeId := some st.targetNode, isNode := true,
            type := some st.type, difficulty := st.difficulty }
          rfl hub2 hch
        exact ⟨rfl, h1, h2, h3, h4, h5⟩

theorem foldl_profileStep_none (d : GraphData) :
    ∀ l : List Step, l.foldl (profileStep d) none = none := by
  intro l
  induction l with
  | nil => rfl
  | cons a t iht =>
    rw [List.foldl_cons]
    exact iht

theorem profile_fold_facts (d : GraphData) :
    ∀ (steps : List Step) (points : List ProfilePoint) (cum : ℚ),
    (∀ st ∈ steps, 0 ≤ st.distance) →
    (∀ pt ∈ points, pt.distance ≤ cum) →
    List.Chain' (fun a b => a.distance ≤ b.distance) points →
    points.getLast?.map (fun pt => pt.distance) = some cum →
    ∀ res, steps.foldl (profileStep d) (some (points, cum)) = some res →
    res.2 = cum + (steps.map (fun st => st.distance)).sum ∧
    points.length + steps.length ≤ res.1.length ∧
    List.Chain' (fun a b => a.distance ≤ b.distance) res.1 ∧
    res.1.getLast?.map (fun pt => pt.distance) = some res.2 := by
  intro steps
  induction steps with
  | nil =>
    intro points cum hd hub hch hlast res hres
    obtain rfl := Option.some.inj hres
    exact ⟨by simp, by simp, hch, hlast⟩
  | cons st rest ih =>
    intro points cum hd hub hch hlast res hres
    rw [List.foldl_cons] at hres
    cases hstep : profileStep d (some (points, cum)) st with
    | none =>
      rw [hstep, foldl_profileStep_none] at hres
      exact Option.noConfusion hres
    | some res1 =>
      rw [hstep] at hres
      obtain ⟨pts1, cum1⟩ := res1
      obtain ⟨he2, hne1, hlen1, hub1, hch1, hlast1⟩ :=
        profileStep_facts d points cum st (hd st (by simp)) hub hch (pts1, cum1) hstep
      have hcum1 : cum1 = cum + st.distance := he2
      obtain ⟨h1, h2, h3, h4⟩ := ih pts1 cum1 (fun st2 hm => hd st2 (by simp [hm]))
        hub1 hch1 hlast1 res hres
      refine ⟨?_, ?_, h3, h4⟩
      · rw [h1, hcum1, List.map_cons, List.sum_cons]
        ring
      · have hl1 : points.length + 1 ≤ pts1.length := hlen1
        simp only [List.length_cons]
        omega

theorem profile_of_route (d : GraphData) (p0 : String) (rest : List String)
    (steps : List Step) (prof : List ProfilePoint)
    (hd : ∀ st ∈ steps, 0 ≤ st.distance)
    (hprof : buildElevationProfile d (p0 :: rest) steps = some prof) :
    steps.length + 1 ≤ prof.length ∧
    List.Chain' (fun a b => a.distance ≤ b.distance) prof ∧
    prof.getLast?.map (fun pt => pt.distance) =
      some ((steps.map (fun st => st.distance)).sum) := by
  cases hn0 : findNode d p0 with
  | none =>
    simp only [buildElevationProfile, hn0] at hprof
    exact Option.noConfusion hprof
  | some n0 =>
    simp only [buildElevationProfile, hn0] at hprof
    cases hres : steps.foldl (profileStep d)
        (some ([{ distance := 0, elevation := n0.ele, nodeId := some p0, isNode := true,
                  type := none, difficulty := none }], 0)) with
    | none =>
      rw [hres] at hprof
      exact Option.noConfusion hprof
    | some res =>
      rw [hres] at hprof
      have hp2 : res.1 = prof := by
        have h2 : some res.1 = some prof := hprof
        exact Option.some.inj h2
      obtain ⟨h1, h2, h3, h4⟩ := profile_fold_facts d steps
        [{ distance := 0, elevation := n0.ele, nodeId := some p0, isNode := true,
           type := none, difficulty := none }] 0 hd
        (by
          intro pt hpt
          rw [List.mem_singleton] at hpt
          subst hpt
          exact le_refl 0)
        (by simp)
        (by simp)
        res hres
      refine ⟨?_, ?_, ?_⟩
      · rw [← hp2]
        simp only [List.length_singleton] at h2
        omega
      · rw [← hp2]
        exact h3
      · rw [← hp2, h4, h1, zero_add]

/-! The summary totals, monotonicity in the exclusion set, and a shape
inversion of findRoute that needs no well-formedness. -/

theorem stepTotals_aux :
    ∀ (l : List Step) (acc : TotAcc),
    (l.foldl
      (fun acc st =>
        { totalDistance := acc.totalDistance + st.distance
          totalTime := jnAdd acc.totalTime st.estimatedMinutes
          totalUp := if (0:ℚ) < st.elevationDelta then acc.totalUp + st.elevationDelta else acc.totalUp
          totalDown :=
            if (0:ℚ) < st.elevationDelta then acc.totalDown
            else acc.totalDown + jsAbs st.elevationDelta })
      acc).totalDistance
      = acc.totalDistance + (l.map (fun st => st.distance)).sum := by
  intro l
  induction l with
  | nil =>
    intro acc
    simp
  | cons st rest ih =>
    intro acc
    rw [List.foldl_cons, ih, List.map_cons, List.sum_cons]
    show acc.totalDistance + st.distance + (rest.map (fun st => st.distance)).sum =
      acc.totalDistance + (st.distance + (rest.map (fun st => st.distance)).sum)
    ring

theorem stepTotals_distance (steps : List Step) :
    (stepTotals steps).totalDistance = (steps.map (fun st => st.distance)).sum := by
  rw [stepTotals, stepTotals_aux]
  show (0:ℚ) + _ = _
  rw [zero_add]

theorem weight_nil_eq (e : Edge) (excl : List String)
    (hf : calculateWeight e excl ≠ .inf) :
    calculateWeight e [] = calculateWeight e excl := by
  have hx : isExcluded e excl = false := by
    cases hb : isExcluded e excl with
    | false => rfl
    | true =>
      exfalso
      apply hf
      rw [calculateWeight, if_pos hb]
  have h0 : isExcluded e [] = false := by
    unfold isExcluded
    cases e.difficulty <;> simp
  have hn0 : ¬ (isExcluded e [] = true) := by simp [h0]
  have hnx : ¬ (isExcluded e excl = true) := by simp [hx]
  rw [calculateWeight, calculateWeight, if_neg hn0, if_neg hnx]

theorem costQ_nil_eq (excl : List String) (es : List Edge)
    (hf : ∀ e ∈ es, calculateWeight e excl ≠ .inf) :
    costQ [] es = costQ excl es := by
  unfold costQ
  apply congrArg List.sum
  apply List.map_congr_left
  intro e he
  unfold weightQ
  rw [weight_nil_eq e excl (hf e he)]

theorem feasible_nil_of (d : GraphData) (excl : List String) (s t : String) (es : List Edge)
    (hf : IsFeasiblePath d excl s t es) : IsFeasiblePath d [] s t es := by
  refine ⟨hf.1, ?_⟩
  intro e he
  obtain ⟨h1, h2⟩ := hf.2 e he
  refine ⟨h1, ?_⟩
  rw [weight_nil_eq e excl h2]
  exact h2

theorem buildSteps_inv (edges : List Edge) (excl : List String) :
    ∀ eids steps, buildSteps edges excl eids = some steps →
    ∀ st ∈ steps, ∃ e, edgesById edges st.edgeId = some e ∧ e ∈ edges ∧
      st = mkStep e excl := by
  intro eids
  induction eids with
  | nil =>
    intro steps h st hm
    have h2 : some ([] : List Step) = some steps := h
    obtain rfl := Option.some.inj h2
    simp at hm
  | cons eid rest ih =>
    intro steps h st hm
    have hstep : buildSteps edges excl (eid :: rest) =
        (match edgesById edges eid, buildSteps edges excl rest with
         | some e, some l => some (mkStep e excl :: l)
         | _, _ => none) := rfl
    rw [hstep] at h
    cases he : edgesById edges eid with
    | none =>
      rw [he] at h
      exact Option.noConfusion (show (none : Option (List Step)) = some steps from h)
    | some e =>
      rw [he] at h
      cases hbs : buildSteps edges excl rest with
      | none =>
        rw [hbs] at h
        exact Option.noConfusion (show (none : Option (List Step)) = some steps from h)
      | some l =>
        rw [hbs] at h
        have h2 : some (mkStep e excl :: l) = some steps := h
        obtain rfl := Option.some.inj h2
        rcases List.mem_cons.mp hm with rfl | hm2
        · obtain ⟨hemem, hid⟩ := edgesById_mem edges eid e he
          refine ⟨e, ?_, hemem, rfl⟩
          show edgesById edges e.id = some e
          rw [hid]
          exact he
        · exact ih l hbs st hm2

theorem route_inv (d : GraphData) (startId endId : String) (excl : List String)
    (r : Route) (hr : findRoute d startId endId excl = .route r) :
    ∃ path eids steps prof,
      buildSteps d.edges excl eids = some steps ∧
      buildElevationProfile d path steps = some prof ∧
      (∃ p0 rest2, path = p0 :: rest2) ∧
      r.steps = steps ∧
      r.elevationProfile = prof ∧
      r.summary.stepCount = steps.length ∧
      r.summary.totalDistance = jsRound (stepTotals steps).totalDistance := by
  by_cases hst : startId = endId
  · rw [findRoute, if_pos hst] at hr
    cases hr
  · rw [findRoute_eq d startId endId excl hst] at hr
    by_cases hinf : (dijkstraLoop d excl endId (loopFuel d) (initState d startId)).dist endId
        = some .inf
    · rw [if_pos hinf] at hr
      cases hr
    · rw [if_neg hinf] at hr
      cases hwb : walkBack
          (dijkstraLoop d excl endId (loopFuel d) (initState d startId)).prev
          (dijkstraLoop d excl endId (loopFuel d) (initState d startId)).prevEdge
          startId (loopFuel d) endId with
      | none =>
        rw [hwb] at hr
        have hr2 : RouteResult.abnormal = RouteResult.route r := hr
        cases hr2
      | some pe =>
        obtain ⟨path, eids⟩ := pe
        rw [hwb] at hr
        have hr2 : (match buildSteps d.edges excl eids with
            | none => RouteResult.abnormal
            | some steps =>
              match buildElevationProfile d path steps with
              | none => RouteResult.abnormal
              | some prof =>
                RouteResult.route
                  { path := path
                    steps := steps
                    elevationProfile := prof
                    summary :=
                      { totalDistance := jsRound (stepTotals steps).totalDistance
                        totalTime := jnRound (stepTotals steps).totalTime
                        totalUp := jsRound (stepTotals steps).totalUp
                        totalDown := jsRound (stepTotals steps).totalDown
                        stepCount := steps.length } }) = RouteResult.route r := hr
        cases hbs : buildSteps d.edges excl eids with
        | none =>
          rw [hbs] at hr2
          have hr3 : RouteResult.abnormal = RouteResult.route r := hr2
          cases hr3
        | some steps =>
          rw [hbs] at hr2
          have hr3 : (match buildElevationProfile d path steps with
              | none => RouteResult.abnormal
              | some prof =>
                RouteResult.route
                  { path := path
                    steps := steps
                    elevationProfile := prof
                    summary :=
                      { totalDistance := jsRound (stepTotals steps).totalDistance
                        totalTime := jnRound (stepTotals steps).totalTime
                        totalUp := jsRound (stepTotals steps).totalUp
                        totalDown := jsRound (stepTotals steps).totalDown
                        stepCount := steps.length } }) = RouteResult.route r := hr2
          cases hprof : buildElevationProfile d path steps with
          | none =>
            rw [hprof] at hr3
            have hr4 : RouteResult.abnormal = RouteResult.route r := hr3
            cases hr4
          | some prof =>
            rw [hprof] at hr3
            have hr4 : RouteResult.route
                { path := path
                  steps := steps
                  elevationProfile := prof
                  summary :=
                    { totalDistance := jsRound (stepTotals steps).totalDistance
                      totalTime := jnRound (stepTotals steps).totalTime
                      totalUp := jsRound (stepTotals steps).totalUp
                      totalDown := jsRound (stepTotals steps).totalDown
                      stepCount := steps.length } } = RouteResult.route r := hr3
            injection hr4 with h
            have hpath : ∃ p0 rest2, path = p0 :: rest2 := by
              cases path with
              | nil =>
                simp only [buildElevationProfile] at hprof
                exact Option.noConfusion hprof
              | cons p0 rest2 => exact ⟨p0, rest2, rfl⟩
            refine ⟨path, eids, steps, prof, hbs, hprof, hpath, ?_, ?_, ?_, ?_⟩
            all_goals rw [← h]

/-! The location index: the seen sets of the edges loop deduplicate each of
the four derived lists by node id, and the station list inherits the
distinctness of the node keys. -/

theorem band_not_contains {l : List String} {k : String} {b : Bool}
    (h : (!l.contains k && b) = true) : l.contains k = false := by
  cases hc : l.contains k
  · rfl
  · rw [hc] at h
    simp at h

theorem push_inv (seen : List String) (lst : List LocEntry) (k : String) (en : LocEntry)
    (heq : seen = lst.map (fun x => x.nodeId)) (hnd : seen.Nodup)
    (henk : en.nodeId = k) (hk : seen.contains k = false) :
    seen ++ [k] = (lst ++ [en]).map (fun x => x.nodeId) ∧ (seen ++ [k]).Nodup := by
  constructor
  · rw [List.map_append, ← heq, List.map_singleton, henk]
  · rw [List.nodup_append]
    refine ⟨hnd, List.nodup_singleton k, ?_⟩
    intro x hx hx2
    rw [List.mem_singleton] at hx2
    subst hx2
    have hc : seen.contains x = true := by simpa using hx
    rw [hc] at hk
    cases hk

theorem not_mem_contains {l : List String} {k : String} (h : k ∉ l) :
    l.contains k = false := by
  simpa using h

theorem locStep_inv (d : GraphData) (e : Edge) (a : LocAcc) (hI : LocInv a) :
    ∀ a2, locStep d (some a) e = some a2 → LocInv a2 := by
  obtain ⟨i1, i2, i3, i4, i5, i6, i7, i8⟩ := hI
  intro a2 h
  by_cases hty : (e.type == "slope") = true
  · cases hnm : e.name with
    | none =>
      simp [locStep, hty, hnm, strTruthy] at h
      subst h
      exact ⟨i1, i2, i3, i4, i5, i6, i7, i8⟩
    | some nm =>
      by_cases hc1 : e.source ∉ a.seenSlopeTops ∧ strTruthy (some nm) = true
      · cases hfs : findNode d e.source with
        | none =>
          simp [locStep, hty, hnm, hfs, hc1.1, hc1.2] at h
        | some n =>
          by_cases hc2 : e.target ∉ a.seenSlopeBottoms ∧ strTruthy (some nm) = true
          · cases hft : findNode d e.target with
            | none =>
              simp [locStep, hty, hnm, hfs, hft, hc1.1, hc1.2, hc2.1, hc2.2] at h
            | some n2 =>
              simp [locStep, hty, hnm, hfs, hft, hc1.1, hc1.2, hc2.1, hc2.2] at h
              subst h
              have hp1 := push_inv a.seenSlopeTops a.slopeTops e.source
                { nodeId := e.source, label := nm ++ " - top (" ++ toString n.ele ++ "m)",
                  name := nm, ele := n.ele } i1 i2 rfl (not_mem_contains hc1.1)
              have hp2 := push_inv a.seenSlopeBottoms a.slopeBottoms e.target
                { nodeId := e.target, label := nm ++ " - bottom (" ++ toString n2.ele ++ "m)",
                  name := nm, ele := n2.ele } i3 i4 rfl (not_mem_contains hc2.1)
              exact ⟨hp1.1, hp1.2, hp2.1, hp2.2, i5, i6, i7, i8⟩
          · have hmem2 : e.target ∈ a.seenSlopeBottoms := by
              by_contra hm
              exact hc2 ⟨hm, hc1.2⟩
            simp [locStep, hty, hnm, hfs, hc1.1, hc1.2, hmem2] at h
            subst h
            have hp1 := push_inv a.seenSlopeTops a.slopeTops e.source
              { nodeId := e.source, label := nm ++ " - top (" ++ toString n.ele ++ "m)",
                name := nm, ele := n.ele } i1 i2 rfl (not_mem_contains hc1.1)
            exact ⟨hp1.1, hp1.2, i3, i4, i5, i6, i7, i8⟩
      · by_cases hc2 : e.target ∉ a.seenSlopeBottoms ∧ strTruthy (some nm) = true
        · have hmem1 : e.source ∈ a.seenSlopeTops := by
            by_contra hm
            exact hc1 ⟨hm, hc2.2⟩
          cases hft : findNode d e.target with
          | none =>
            simp [locStep, hty, hnm, hft, hmem1, hc2.1, hc2.2] at h
          | some n2 =>
            simp [locStep, hty, hnm, hft, hmem1, hc2.1, hc2.2] at h
            subst h
            have hp2 := push_inv a.seenSlopeBottoms a.slopeBottoms e.target
              { nodeId := e.target, label := nm ++ " - bottom (" ++ toString n2.ele ++ "m)",
                name := nm, ele := n2.ele } i3 i4 rfl (not_mem_contains hc2.1)
            exact ⟨i1, i2, hp2.1, hp2.2, i5, i6, i7, i8⟩
        · by_cases hs : strTruthy (some nm) = true
          · have hmem1 : e.source ∈ a.seenSlopeTops := by
              by_contra hm
              exact hc1 ⟨hm, hs⟩
            have hmem2 : e.target ∈ a.seenSlopeBottoms := by
              by_contra hm
              exact hc2 ⟨hm, hs⟩
            simp [locStep, hty, hnm, hs, hmem1, hmem2] at h
            subst h
            exact ⟨i1, i2, i3, i4, i5, i6, i7, i8⟩
          · have hsf : strTruthy (some nm) = false := by
              revert hs
              cases strTruthy (some nm) <;> simp
            simp [locStep, hty, hnm, hsf] at h
            subst h
            exact ⟨i1, i2, i3, i4, i5, i6, i7, i8⟩
  · by_cases hty2 : (e.type == "lift") = true
    · cases hnm : e.name with
      | none =>
        simp [locStep, hty, hty2, hnm, strTruthy] at h
        subst h
        exact ⟨i1, i2, i3, i4, i5, i6, i7, i8⟩
      | some nm =>
        by_cases hc1 : e.source ∉ a.seenLiftBottoms ∧ strTruthy (some nm) = true
        · cases hfs : findNode d e.source with
          | none =>
            simp [locStep, hty, hty2, hnm, hfs, hc1.1, hc1.2] at h
          | some n =>
            by_cases hc2 : e.target ∉ a.seenLiftTops ∧ strTruthy (some nm) = true
            · cases hft : findNode d e.target with
              | none =>
                simp [locStep, hty, hty2, hnm, hfs, hft, hc1.1, hc1.2, hc2.1, hc2.2] at h
              | some n2 =>
                simp [locStep, hty, hty2, hnm, hfs, hft, hc1.1, hc1.2, hc2.1, hc2.2] at h
                subst h
                have hp1 := push_inv a.seenLiftBottoms a.liftBottoms e.source
                  { nodeId := e.source, label := nm ++ " - bottom (" ++ toString n.ele ++ "m)",
                    name := nm, ele := n.ele } i7 i8 rfl (not_mem_contains hc1.1)
                have hp2 := push_inv a.seenLiftTops a.liftTops e.target
                  { nodeId := e.target, label := nm ++ " - top (" ++ toString n2.ele ++ "m)",
                    name := nm, ele := n2.ele } i5 i6 rfl (not_mem_contains hc2.1)
                exact ⟨i1, i2, i3, i4, hp2.1, hp2.2, hp1.1, hp1.2⟩
            · have hmem2 : e.target ∈ a.seenLiftTops := by
                by_contra hm
                exact hc2 ⟨hm, hc1.2⟩
              simp [locStep, hty, hty2, hnm, hfs, hc1.1, hc1.2, hmem2] at h
              subst h
              have hp1 := push_inv a.seenLiftBottoms a.liftBottoms e.source
                { nodeId := e.source, label := nm ++ " - bottom (" ++ toString n.ele ++ "m)",
                  name := nm, ele := n.ele } i7 i8 rfl (not_mem_contains hc1.1)
              exact ⟨i1, i2, i3, i4, i5, i6, hp1.1, hp1.2⟩
        · by_cases hc2 : e.target ∉ a.seenLiftTops ∧ strTruthy (some nm) = true
          · have hmem1 : e.source ∈ a.seenLiftBottoms := by
              by_contra hm
              exact hc1 ⟨hm, hc2.2⟩
            cases hft : findNode d e.target with
            | none =>
              simp [locStep, hty, hty2, hnm, hft, hmem1, hc2.1, hc2.2] at h
            | some n2 =>
              simp [locStep, hty, hty2, hnm, hft, hmem1, hc2.1, hc2.2] at h
              subst h
              have hp2 := push_inv a.seenLiftTops a.liftTops e.target
                { nodeId := e.target, label := nm ++ " - top (" ++ toString n2.ele ++ "m)",
                  name := nm, ele := n2.ele } i5 i6 rfl (not_mem_contains hc2.1)
              exact ⟨i1, i2, i3, i4, hp2.1, hp2.2, i7, i8⟩
          · by_cases hs : strTruthy (some nm) = true
            · have hmem1 : e.source ∈ a.seenLiftBottoms := by
                by_contra hm
                exact hc1 ⟨hm, hs⟩
              have hmem2 : e.target ∈ a.seenLiftTops := by
                by_contra hm
                exact hc2 ⟨hm, hs⟩
              simp [locStep, hty, hty2, hnm, hs, hmem1, hmem2] at h
              subst h
              exact ⟨i1, i2, i3, i4, i5, i6, i7, i8⟩
            · have hsf : strTruthy (some nm) = false := by
                revert hs
                cases strTruthy (some nm) <;> simp
              simp [locStep, hty, hty2, hnm, hsf] at h
              subst h
              exact ⟨i1, i2, i3, i4, i5, i6, i7, i8⟩
    · simp [locStep, hty, hty2] at h
      subst h
      exact ⟨i1, i2, i3, i4, i5, i6, i7, i8⟩

theorem foldl_locStep_none (d : GraphData) :
    ∀ es : List Edge, es.foldl (locStep d) none = none := by
  intro es
  induction es with
  | nil => rfl
  | cons e t ih =>
    rw [List.foldl_cons]
    exact ih

theorem locFold_inv (d : GraphData) :
    ∀ (es : List Edge) (a : LocAcc), LocInv a →
    ∀ a2, es.foldl (locStep d) (some a) = some a2 → LocInv a2 := by
  intro es
  induction es with
  | nil =>
    intro a hI a2 h
    obtain rfl := Option.some.inj h
    exact hI
  | cons e t ih =>
    intro a hI a2 h
    rw [List.foldl_cons] at h
    cases hs : locStep d (some a) e with
    | none =>
      rw [hs, foldl_locStep_none] at h
      exact Option.noConfusion h
    | some a1 =>
      rw [hs] at h
      exact ih a1 (locStep_inv d e a hI a1 hs) a2 h

theorem stationKeys_sublist (ns : List (String × Node)) :
    List.Sublist
      ((ns.filterMap (fun p =>
        (match p.2.station with
        | some s =>
          if s == "" then none
          else some
            { nodeId := p.1
              label := s ++ " (" ++ toString p.2.ele ++ "m)"
              name := s
              ele := p.2.ele }
        | none => none : Option LocEntry))).map (fun en => en.nodeId))
      (ns.map Prod.fst) := by
  induction ns with
  | nil => exact List.Sublist.slnil
  | cons p t ih =>
    cases hs : p.2.station with
    | none =>
      simp only [List.filterMap_cons, hs, List.map_cons]
      exact List.Sublist.cons p.1 ih
    | some s =>
      by_cases he : (s == "") = true
      · simp only [List.filterMap_cons, hs, he, if_true, List.map_cons]
        exact List.Sublist.cons p.1 ih
      · simp only [List.filterMap_cons, hs, he, if_false, List.map_cons]
        exact List.Sublist.cons₂ p.1 ih

theorem stationEntries_nodup (d : GraphData) (hu : UKEY d) :
    ((stationEntries d).map (fun en => en.nodeId)).Nodup :=
  (stationKeys_sublist d.nodes).nodup hu

theorem nodup_mergeSort (l : List LocEntry) (h : (l.map (fun en => en.nodeId)).Nodup) :
    ((l.mergeSort byName).map (fun en => en.nodeId)).Nodup :=
  (((List.mergeSort_perm l byName).map (fun en => en.nodeId)).nodup_iff).mpr h

theorem locations_nodup (d : GraphData) (loc : LocationIndex) (hu : UKEY d)
    (h : getSelectableLocations d = some loc) :
    (loc.stations.map (fun en => en.nodeId)).Nodup ∧
    (loc.slopeTops.map (fun en => en.nodeId)).Nodup ∧
    (loc.slopeBottoms.map (fun en => en.nodeId)).Nodup ∧
    (loc.liftTops.map (fun en => en.nodeId)).Nodup ∧
    (loc.liftBottoms.map (fun en => en.nodeId)).Nodup := by
  cases hf : d.edges.foldl (locStep d)
      (some { slopeTops := [], slopeBottoms := [], liftTops := [], liftBottoms := []
              seenSlopeTops := [], seenSlopeBottoms := []
              seenLiftTops := [], seenLiftBottoms := [] }) with
  | none =>
    rw [getSelectableLocations, hf] at h
    exact Option.noConfusion h
  | some a =>
    rw [getSelectableLocations, hf] at h
    obtain rfl := Option.some.inj h
    have hI := locFold_inv d d.edges
      { slopeTops := [], slopeBottoms := [], liftTops := [], liftBottoms := []
        seenSlopeTops := [], seenSlopeBottoms := []
        seenLiftTops := [], seenLiftBottoms := [] }
      ⟨rfl, List.nodup_nil, rfl, List.nodup_nil, rfl, List.nodup_nil, rfl, List.nodup_nil⟩
      a hf
    obtain ⟨i1, i2, i3, i4, i5, i6, i7, i8⟩ := hI
    refine ⟨nodup_mergeSort _ (stationEntries_nodup d hu), nodup_mergeSort _ ?_,
      nodup_mergeSort _ ?_, nodup_mergeSort _ ?_, nodup_mergeSort _ ?_⟩
    · exact i1 ▸ i2
    · exact i3 ▸ i4
    · exact i5 ▸ i6
    · exact i7 ▸ i8

/-- A two-cycle in the predecessor links diverts the reconstruction walk
forever: from either node of the cycle, no amount of fuel reaches the start.
This models the non-termination of the while loop of findRoute in
JavaScript, where the walk has no fuel bound at all. -/
theorem walkBack_diverge (prev pe : String → Option String) (s a b ea eb : String)
    (hsa : a ≠ s) (hsb : b ≠ s)
    (ha : prev a = some b) (hb : prev b = some a)
    (hae : pe a = some ea) (hbe : pe b = some eb) :
    ∀ f, walkBack prev pe s f a = none ∧ walkBack prev pe s f b = none := by
  intro f
  induction f with
  | zero => exact ⟨walkBack_zero prev pe s a hsa, walkBack_zero prev pe s b hsb⟩
  | succ f ih =>
    constructor
    · rw [walkBack_succ prev pe s f a hsa b ea ha hae, ih.2]
    · rw [walkBack_succ prev pe s f b hsb a eb hb hbe, ih.1]

/-! The ten claims. -/

/-- Claim C1: for every graph satisfying the data model (edge endpoints are
node keys, distances nonnegative, edge ids distinct) and every exclusion set,
if findRoute returns a route then the edges it traverses form a feasible path
from start to end whose total weight-model cost is minimal among all directed
paths from start to end using only edges of finite cost under the given
exclusions. -/
theorem claim_C1 (d : GraphData) (startId endId : String) (excl : List String)
    (hEP : EP d) (hNN : NN d) (hUID : UID d) (r : Route)
    (hr : findRoute d startId endId excl = .route r) :
    IsFeasiblePath d excl startId endId (routeEdges d r) ∧
    ∀ es2, IsFeasiblePath d excl startId endId es2 →
      costQ excl (routeEdges d r) ≤ costQ excl es2 := by
  obtain ⟨es, heq, -, -, hfe, hopt, -⟩ :=
    sound_route d startId endId excl hEP hNN hUID r hr
  rw [heq]
  exact ⟨hfe, hopt⟩

theorem claim_C1_witness :
    EP gTwo ∧ NN gTwo ∧ UID gTwo ∧
    findRoute gTwo "A" "C" [] =
      .route ((getRoute (findRoute gTwo "A" "C" [])).getD default) ∧
    (IsFeasiblePath gTwo [] "A" "C"
        (routeEdges gTwo ((getRoute (findRoute gTwo "A" "C" [])).getD default)) ∧
      ∀ es2, IsFeasiblePath gTwo [] "A" "C" es2 →
        costQ [] (routeEdges gTwo ((getRoute (findRoute gTwo "A" "C" [])).getD default)) ≤
          costQ [] es2) :=
  ⟨by decide, by decide, by decide, by rfl,
    claim_C1 gTwo "A" "C" [] (by decide) (by decide) (by decide)
      ((getRoute (findRoute gTwo "A" "C" [])).getD default) (by rfl)⟩

/-- Claim C2: for every well-formed graph and every exclusion set, a returned
route's path begins at start, ends at end, and every pair of consecutive path
nodes is joined by the edge of the corresponding step, with matching source
and target ids and a finite weight under the given exclusions. -/
theorem claim_C2 (d : GraphData) (startId endId : String) (excl : List String)
    (hEP : EP d) (hNN : NN d) (hUID : UID d) (r : Route)
    (hr : findRoute d startId endId excl = .route r) :
    r.path.head? = some startId ∧
    r.path.getLast? = some endId ∧
    StepsLink d excl r.path r.steps := by
  obtain ⟨es, -, hpath, hsteps, hfe, -, -⟩ :=
    sound_route d startId endId excl hEP hNN hUID r hr
  refine ⟨?_, ?_, ?_⟩
  · rw [hpath]
    rfl
  · rw [hpath]
    exact chain_getLast startId endId es hfe.1
  · rw [hpath, hsteps]
    exact stepsLink_build d excl hUID endId es startId hfe.1 hfe.2

theorem claim_C2_witness :
    EP gChain ∧ NN gChain ∧ UID gChain ∧
    findRoute gChain "A" "C" [] =
      .route ((getRoute (findRoute gChain "A" "C" [])).getD default) ∧
    (((getRoute (findRoute gChain "A" "C" [])).getD default).path.head? = some "A" ∧
      ((getRoute (findRoute gChain "A" "C" [])).getD default).path.getLast? = some "C" ∧
      StepsLink gChain [] ((getRoute (findRoute gChain "A" "C" [])).getD default).path
        ((getRoute (findRoute gChain "A" "C" [])).getD default).steps) :=
  ⟨by decide, by decide, by decide, by rfl,
    claim_C2 gChain "A" "C" [] (by decide) (by decide) (by decide)
      ((getRoute (findRoute gChain "A" "C" [])).getD default) (by rfl)⟩

/-- Claim C3, corrected.  The spec says construction rejects graphs with
unknown endpoint references or negative distances with a MalformedDataError;
the source performs no such validation: the constructor only builds the maps
and no MalformedDataError exists in the code.  A graph that is malformed in
the spec's sense is accepted whole and findRoute runs normally on it,
returning a route. -/
theorem claim_C3 :
    ∃ d r, specMalformed d = true ∧ findRoute d "X" "Z" [] = .route r :=
  ⟨gBad, (getRoute (findRoute gBad "X" "Z" [])).getD default, by decide, by rfl⟩

theorem counter_C3 :
    specMalformed gBad = true ∧
    (getRoute (findRoute gBad "X" "Z" [])).isSome = true ∧
    findRoute gBad "X" "Z" [] ≠ .abnormal := by
  refine ⟨by decide, by decide, by decide⟩

/-- Claim C4, corrected.  The speed lookup for slopes is green 200, blue 250,
red 300, black 200, and the cost of an unexcluded slope is distance divided
by the looked-up speed; but an unknown difficulty tag falls back to 200 (the
JavaScript expression speeds[difficulty] || 200), not to blue's 250 as the
spec says. -/
theorem claim_C4 (e : Edge) (excl : List String)
    (hty : e.type = "slope") (hx : isExcluded e excl = false) :
    calculateWeight e excl = .fin (e.distance / slopeSpeeds e.difficulty) ∧
    slopeSpeeds (some "green") = 200 ∧ slopeSpeeds (some "blue") = 250 ∧
    slopeSpeeds (some "red") = 300 ∧ slopeSpeeds (some "black") = 200 ∧
    (∀ dc, dc ≠ some "green" → dc ≠ some "blue" → dc ≠ some "red" →
      dc ≠ some "black" → slopeSpeeds dc = 200) := by
  refine ⟨?_, rfl, rfl, rfl, rfl, ?_⟩
  · have hnx : ¬ (isExcluded e excl = true) := by simp [hx]
    have hb : (e.type == "slope") = true := by simp [hty]
    rw [calculateWeight, if_neg hnx, if_pos hb]
  · intro dc h1 h2 h3 h4
    rw [slopeSpeeds.eq_def]
    split
    · rfl
    · exact absurd rfl h2
    · exact absurd rfl h3
    · rfl
    · rfl

theorem claim_C4_witness :
    ePurple.type = "slope" ∧ isExcluded ePurple [] = false ∧
    (calculateWeight ePurple [] = .fin (ePurple.distance / slopeSpeeds ePurple.difficulty) ∧
      slopeSpeeds (some "green") = 200 ∧ slopeSpeeds (some "blue") = 250 ∧
      slopeSpeeds (some "red") = 300 ∧ slopeSpeeds (some "black") = 200 ∧
      (∀ dc, dc ≠ some "green" → dc ≠ some "blue" → dc ≠ some "red" →
        dc ≠ some "black" → slopeSpeeds dc = 200)) :=
  ⟨by decide, by decide, claim_C4 ePurple [] (by decide) (by decide)⟩

theorem counter_C4 :
    ePurple.type = "slope" ∧ ePurple.difficulty = some "purple" ∧
    isExcluded ePurple [] = false ∧ ePurple.distance = 1000 ∧
    calculateWeight ePurple [] = .fin (1000 / 200) ∧
    ¬ calculateWeight ePurple [] = .fin (1000 / 250) := by
  refine ⟨by decide, by decide, by decide, by decide, by decide, by decide⟩

/-- Claim C5: shrinking the feasible edge set by excluding colors never
shortens the optimum.  If findRoute with exclusions returns a route, then
findRoute with no exclusions also returns a route, and the cost of the
unrestricted optimum is at most the cost of the restricted one. -/
theorem claim_C5 (d : GraphData) (startId endId : String) (excl : List String)
    (hEP : EP d) (hNN : NN d) (hUID : UID d) (r : Route)
    (hr : findRoute d startId endId excl = .route r) :
    ∃ r0, findRoute d startId endId [] = .route r0 ∧
      costQ [] (routeEdges d r0) ≤ costQ excl (routeEdges d r) := by
  obtain ⟨es, heq, -, -, hfe, -, hn0⟩ :=
    sound_route d startId endId excl hEP hNN hUID r hr
  have hst : ¬ startId = endId := by
    intro h
    rw [findRoute, if_pos h] at hr
    cases hr
  obtain ⟨r0, hr0⟩ := complete_route d startId endId [] hEP hNN hUID hst hn0 es
    (feasible_nil_of d excl startId endId es hfe)
  obtain ⟨es0, heq0, -, -, -, hopt0, -⟩ :=
    sound_route d startId endId [] hEP hNN hUID r0 hr0
  refine ⟨r0, hr0, ?_⟩
  rw [heq, heq0]
  have h1 : costQ [] es0 ≤ costQ [] es :=
    hopt0 es (feasible_nil_of d excl startId endId es hfe)
  have h2 : costQ [] es = costQ excl es :=
    costQ_nil_eq excl es (fun e he => (hfe.2 e he).2)
  rw [h2] at h1
  exact h1

theorem claim_C5_witness :
    EP gTwo ∧ NN gTwo ∧ UID gTwo ∧
    findRoute gTwo "A" "C" ["red"] =
      .route ((getRoute (findRoute gTwo "A" "C" ["red"])).getD default) ∧
    (∃ r0, findRoute gTwo "A" "C" [] = .route r0 ∧
      costQ [] (routeEdges gTwo r0) ≤
        costQ ["red"]
          (routeEdges gTwo ((getRoute (findRoute gTwo "A" "C" ["red"])).getD default))) :=
  ⟨by decide, by decide, by decide, by rfl,
    claim_C5 gTwo "A" "C" ["red"] (by decide) (by decide) (by decide)
      ((getRoute (findRoute gTwo "A" "C" ["red"])).getD default) (by rfl)⟩

/-- Claim C6, corrected.  On a graph with nonnegative distances, a returned
route's elevation profile has at least stepCount + 1 samples and a
non-decreasing distance sequence, and its final sample's distance equals
the exact total distance, of which the summary reports the rounding; the
final sample equals the rounded summary figure only when the total is
already an integer. -/
theorem claim_C6 (d : GraphData) (startId endId : String) (excl : List String)
    (hNN : NN d) (r : Route)
    (hr : findRoute d startId endId excl = .route r) :
    r.summary.stepCount + 1 ≤ r.elevationProfile.length ∧
    List.Chain' (fun a b => a.distance ≤ b.distance) r.elevationProfile ∧
    r.elevationProfile.getLast?.map (fun pt => pt.distance) =
      some ((stepTotals r.steps).totalDistance) ∧
    r.summary.totalDistance = jsRound (stepTotals r.steps).totalDistance := by
  obtain ⟨path, eids, steps, prof, hbs, hbep, hpr, hrs, hrp, hsc, htd⟩ :=
    route_inv d startId endId excl r hr
  obtain ⟨p0, rest2, rfl⟩ := hpr
  have hd : ∀ st ∈ steps, 0 ≤ st.distance := by
    intro st hm
    obtain ⟨e, -, hemem, rfl⟩ := buildSteps_inv d.edges excl eids steps hbs st hm
    exact hNN e hemem
  obtain ⟨hlen, hchain, hlast⟩ := profile_of_route d p0 rest2 steps prof hd hbep
  rw [hrs, hrp, hsc, htd]
  refine ⟨hlen, hchain, ?_, rfl⟩
  rw [stepTotals_distance]
  exact hlast

theorem claim_C6_witness :
    NN gChain ∧
    findRoute gChain "A" "C" [] =
      .route ((getRoute (findRoute gChain "A" "C" [])).getD default) ∧
    (((getRoute (findRoute gChain "A" "C" [])).getD default).summary.stepCount + 1 ≤
        ((getRoute (findRoute gChain "A" "C" [])).getD default).elevationProfile.length ∧
      List.Chain' (fun a b => a.distance ≤ b.distance)
        ((getRoute (findRoute gChain "A" "C" [])).getD default).elevationProfile ∧
      ((getRoute (findRoute gChain "A" "C" [])).getD
          default).elevationProfile.getLast?.map (fun pt => pt.distance) =
        some ((stepTotals ((getRoute (findRoute gChain "A" "C" [])).getD
          default).steps).totalDistance) ∧
      ((getRoute (findRoute gChain "A" "C" [])).getD default).summary.totalDistance =
        jsRound (stepTotals ((getRoute (findRoute gChain "A" "C" [])).getD
          default).steps).totalDistance) :=
  ⟨by decide, by rfl,
    claim_C6 gChain "A" "C" [] (by decide)
      ((getRoute (findRoute gChain "A" "C" [])).getD default) (by rfl)⟩

theorem counter_C6 :
    NN gHalf ∧
    findRoute gHalf "A" "B" [] =
      .route ((getRoute (findRoute gHalf "A" "B" [])).getD default) ∧
    ((getRoute (findRoute gHalf "A" "B" [])).getD
        default).elevationProfile.getLast?.map (fun pt => pt.distance) = some (1/2) ∧
    ((getRoute (findRoute gHalf "A" "B" [])).getD default).summary.totalDistance = 1 ∧
    ¬ ((1 : ℚ)/2 = (1 : ℚ)) := by
  refine ⟨by decide, by rfl, by decide, by decide, by decide⟩

/-- Claim C7: for every graph, node id and exclusion set, findRoute with the
same start and end returns the same-location outcome immediately; no search
is performed and neither a route nor the no-route outcome results. -/
theorem claim_C7 (d : GraphData) (a : String) (excl : List String) :
    findRoute d a a excl = .sameLocation := by
  rw [findRoute, if_pos rfl]

/-- Claim C8: on the two-edge chain of the spec scenario (a gondola of
1000 m from A to B and a green slope of 600 m from B to C), the route from A
to C is found and its summary total time is 11 minutes. -/
theorem claim_C8 :
    ∃ r, findRoute gChain "A" "C" [] = .route r ∧
      r.summary.totalTime = .fin 11 :=
  ⟨(getRoute (findRoute gChain "A" "C" [])).getD default, by rfl, by decide⟩

/-- Claim C9: for every graph whose node map has distinct keys (which the
JavaScript object guarantees by construction), the location index lists no
node id twice within any one of its five lists. -/
theorem claim_C9 (d : GraphData) (loc : LocationIndex) (hu : UKEY d)
    (h : getSelectableLocations d = some loc) :
    (loc.stations.map (fun en => en.nodeId)).Nodup ∧
    (loc.slopeTops.map (fun en => en.nodeId)).Nodup ∧
    (loc.slopeBottoms.map (fun en => en.nodeId)).Nodup ∧
    (loc.liftTops.map (fun en => en.nodeId)).Nodup ∧
    (loc.liftBottoms.map (fun en => en.nodeId)).Nodup :=
  locations_nodup d loc hu h

theorem claim_C9_witness :
    UKEY gChain ∧
    getSelectableLocations gChain = some ((getSelectableLocations gChain).getD default) ∧
    ((((getSelectableLocations gChain).getD default).stations.map
        (fun en => en.nodeId)).Nodup ∧
      (((getSelectableLocations gChain).getD default).slopeTops.map
        (fun en => en.nodeId)).Nodup ∧
      (((getSelectableLocations gChain).getD default).slopeBottoms.map
        (fun en => en.nodeId)).Nodup ∧
      (((getSelectableLocations gChain).getD default).liftTops.map
        (fun en => en.nodeId)).Nodup ∧
      (((getSelectableLocations gChain).getD default).liftBottoms.map
        (fun en => en.nodeId)).Nodup) :=
  ⟨by decide, by rfl,
    claim_C9 gChain ((getSelectableLocations gChain).getD default) (by decide) (by rfl)⟩

/-- Claim C10, corrected.  With edge endpoints in the node map, both trip
endpoints in the node map, and all distances nonnegative, findRoute
terminates normally (no abnormal execution, and in particular the backward
reconstruction walk reaches the start).  Nonnegativity is necessary: a
negative distance lets a relaxation rewire the predecessor of an already
visited node into a cycle, and then the reconstruction walk diverges even
though every endpoint is a node key. -/
theorem claim_C10 (d : GraphData) (startId endId : String) (excl : List String)
    (hEP : EP d) (hNN : NN d)
    (hs : containsKey d startId = true) (he : containsKey d endId = true) :
    findRoute d startId endId excl ≠ .abnormal :=
  no_abnormal d startId endId excl hEP hNN hs he

theorem claim_C10_witness :
    EP gChain ∧ NN gChain ∧
    containsKey gChain "A" = true ∧ containsKey gChain "C" = true ∧
    findRoute gChain "A" "C" [] ≠ .abnormal :=
  ⟨by decide, by decide, by decide, by decide,
    claim_C10 gChain "A" "C" [] (by decide) (by decide) (by decide) (by decide)⟩

theorem counter_C10 :
    EP gNeg ∧
    containsKey gNeg "S" = true ∧ containsKey gNeg "end" = true ∧
    findRoute gNeg "S" "end" [] = .abnormal ∧
    (∀ f, walkBack (dijkstraLoop gNeg [] "end" (loopFuel gNeg) (initState gNeg "S")).prev
        (dijkstraLoop gNeg [] "end" (loopFuel gNeg) (initState gNeg "S")).prevEdge
        "S" f "end" = none) := by
  refine ⟨by decide, by decide, by decide, by decide, ?_⟩
  intro f
  cases f with
  | zero => exact walkBack_zero _ _ "S" "end" (by decide)
  | succ f =>
    rw [walkBack_succ _ _ "S" f "end" (by decide) "a" "e3" (by decide) (by decide)]
    rw [(walkBack_diverge
      (dijkstraLoop gNeg [] "end" (loopFuel gNeg) (initState gNeg "S")).prev
      (dijkstraLoop gNeg [] "end" (loopFuel gNeg) (initState gNeg "S")).prevEdge
      "S" "a" "b" "e4" "e2" (by decide) (by decide) (by decide) (by decide)
      (by decide) (by decide) f).1]

end SkiNav
